import Mathlib

/-!
# HGraph index: insertion, best-first search, heuristic edge selection, connection, k-NN query

A shallow embedding of `src/index/hgraph_index.cpp`, of the NN-descent builder `Graph` of
`src/impl/graph.h`, and of the adjacency cell `GraphDataCell<IOTmpl, false>` of
`src/storage/graph_datacell.h`.

* The random choices of the source are parameters: `get_random_level` gives the value drawn
  for every element of a batch, `draw i j` the `j`-th id drawn for the list of `i` by
  `Graph::init_graph`.
* Distances (`float` in the source) are represented by `Int`.  The code only compares
  distances and negates them; both operations are exact on finite floats, so any finite
  family of finite float values can be scaled to integers without changing a single branch.
  NaN and infinities are outside the embedding.
* Inner ids (`uint64_t`) are `Nat`; labels and `k` (`int64_t`) are `Int`.
* Collaborators that the index only reaches through an interface (`FlattenInterface`,
  `GraphInterface`, the visited-list pool) are records of the operations used here.
* The comparison of the priority queue `MaxHeap` is declared outside the sources.  The heap
  operations are embedded under the pair order; the two results that hinge on the order of
  candidates at equal distance (scenario S3 and the search with a larger `ef`) are proved for
  the functions taken with the comparison as a parameter, at the tie rule the spec states.
* The index is run by one thread.  The locks it takes are recorded as a list of events
  (`Event`), next to the state it computes, so that the order of locks and adjacency writes of
  one insertion can be read off.
-/

set_option linter.unusedVariables false

namespace vsag

/-! ## Candidates and heaps -/

/-- A candidate, the `std::pair<float, uint64_t>` of the source: `(distance, inner id)`. -/
abbrev Candidate := Int × Nat

/-- The `operator<` of `std::pair`: compare the distances, and the inner ids when the
distances are equal. -/
def pair_lt (a b : Candidate) : Bool :=
  decide (a.1 < b.1) || (!decide (b.1 < a.1) && decide (a.2 < b.2))

/-- Modelled from the spec: the `MaxHeap` type, whose declaration (in `hgraph_index.h`) is not
among the sources.  The spec describes a heap "ordered by distance, max on top" and lets
implementers "break ties by `inner_id`"; this is a `std::priority_queue` of pairs under the
pair order `pair_lt`.  The heap is represented by the list of its elements in the order in
which successive `top`/`pop` would deliver them (greatest first).  Where the order of two
pairs of equal distance decides a result (scenario S3, the search with a larger `ef`), the
comparison is a parameter (`MaxHeap.emplace_by`) and the result is proved under `dist_lt`,
the tie rule that the spec states: "the id pushed earlier wins". -/
abbrev MaxHeap := List Candidate

namespace MaxHeap

/-- The `emplace(d, id)` of the priority queue: the new pair is placed in front of the first
element that is smaller than it. -/
def emplace : MaxHeap → Int → Nat → MaxHeap
  | [], d, id => [(d, id)]
  | x :: xs, d, id =>
    if pair_lt x (d, id) then (d, id) :: x :: xs else x :: emplace xs d id

/-- The `top()` of the priority queue; `none` stands for the read of an empty queue. -/
def top? (h : MaxHeap) : Option Candidate := h.head?

/-- The `pop()` of the priority queue. -/
def pop (h : MaxHeap) : MaxHeap := h.tail

/-- The `size()` of the priority queue. -/
def size (h : MaxHeap) : Nat := h.length

/-- The `empty()` of the priority queue. -/
def empty (h : MaxHeap) : Bool := h.isEmpty

/-- A heap value that really is a priority queue: greatest element first. -/
def Valid (h : MaxHeap) : Prop := h.Pairwise (fun a b => pair_lt a b = false)

end MaxHeap

/-! ## Collaborators -/

/-- The part of `FlattenInterface` the index uses.  `Query q id` is the distance that
`Query(&dist, FactoryComputer(q), &id, 1)` writes; `ComputePairVectors a b` is the id-to-id
distance. -/
structure FlattenInterface where
  Query : List Int → Nat → Int
  ComputePairVectors : Nat → Nat → Int

/-- Modelled from the spec: the adjacency store behind `GraphInterface` (the class is not among
the sources).  Section 4.1: `insert_neighbors` replaces the list of an id, `get_neighbors`
returns the current list, `total_count` and `maximum_degree` are stored numbers.  The lists are
kept as an association list, latest write first. -/
structure GraphInterface where
  maximum_degree : Nat
  total_count : Nat
  neighbors : List (Nat × List Nat)
  deriving DecidableEq, Repr

namespace GraphInterface

/-- The list `GetNeighbors(id, out)` leaves in `out`: the current list of `id`, empty when
none was written. -/
def GetNeighbors (g : GraphInterface) (id : Nat) : List Nat :=
  match g.neighbors.lookup id with
  | some l => l
  | none => []

/-- The store after `InsertNeighborsById(id, list)`: the list of `id` is replaced. -/
def InsertNeighborsById (g : GraphInterface) (id : Nat) (list : List Nat) : GraphInterface :=
  { g with neighbors := (id, list) :: g.neighbors }

/-- The store after `IncreaseTotalCount(n)`. -/
def IncreaseTotalCount (g : GraphInterface) (n : Nat) : GraphInterface :=
  { g with total_count := g.total_count + n }

/-- The value of `TotalCount()`. -/
def TotalCount (g : GraphInterface) : Nat := g.total_count

/-- The value of `MaximumDegree()`. -/
def MaximumDegree (g : GraphInterface) : Nat := g.maximum_degree

end GraphInterface

/-- A visited list: the tag array `mass` and the current tag `curV`. -/
structure VisitedList where
  curV : Nat
  mass : Nat → Nat

/-- Modelled from the spec: the visited pool (`hnswlib::VisitedListPool` is not among the
sources), built with one buffer.  Section 4.3: "the current tag is incremented on each acquire,
so no clearing is required until the tag wraps; on wrap, the buffer is fully reset".
`tag_limit` is the number of values the tag type has. -/
structure VisitedListPool where
  tag_limit : Nat
  buffer : VisitedList

namespace VisitedListPool

/-- The buffer handed out by `getFreeVisitedList()`. -/
def getFreeVisitedList (p : VisitedListPool) : VisitedList :=
  if p.buffer.curV + 1 < p.tag_limit then
    { p.buffer with curV := p.buffer.curV + 1 }
  else
    { curV := 1, mass := fun _ => 0 }

/-- The pool after `releaseVisitedList(vl)`. -/
def releaseVisitedList (p : VisitedListPool) (vl : VisitedList) : VisitedListPool :=
  { p with buffer := vl }

end VisitedListPool

/-! ## `HGraphIndex::search_one_graph` -/

/-- The variables of the `while` loop of `search_one_graph`. -/
structure SearchState where
  candidate_set : MaxHeap
  cur_result : MaxHeap
  lower_bound : Int
  visited_array : Nat → Nat

/-- The scan of the neighbour list (lines 227-240): every neighbour whose tag is not the
current one is appended to `to_be_visited` and tagged. -/
def collect_unvisited (tag : Nat) :
    List Nat → (Nat → Nat) → List Nat → List Nat × (Nat → Nat)
  | [], visited_array, to_be_visited => (to_be_visited, visited_array)
  | neighbor :: rest, visited_array, to_be_visited =>
    if visited_array neighbor ≠ tag then
      collect_unvisited tag rest (Function.update visited_array neighbor tag)
        (to_be_visited ++ [neighbor])
    else
      collect_unvisited tag rest visited_array to_be_visited

/-- One pass of the body of the loop over the freshly tagged ids (lines 245-257) for the id
`v` at distance `dist`. -/
def offer (ef : Nat) (dist : Int) (v : Nat) (s : MaxHeap × MaxHeap × Int) :
    MaxHeap × MaxHeap × Int :=
  if s.2.1.size < ef ∨ s.2.2 > dist then
    let candidate_set := s.1.emplace (-dist) v
    let pushed := s.2.1.emplace dist v
    let cur_result := if pushed.size > ef then pushed.pop else pushed
    let lower_bound :=
      match cur_result.top? with
      | some t => t.1
      | none => s.2.2
    (candidate_set, cur_result, lower_bound)
  else s

/-- The loop over the freshly tagged ids (lines 244-258); the state is
`(candidate_set, cur_result, lower_bound)`. -/
def offer_all (qdist : Nat → Int) (ef : Nat) :
    List Nat → MaxHeap × MaxHeap × Int → MaxHeap × MaxHeap × Int
  | [], s => s
  | v :: rest, s => offer_all qdist ef rest (offer ef (qdist v) v s)

/-- One iteration of the `while` loop (lines 206-258), or `none` when the loop ends: on an
empty `candidate_set` or on the `break`. -/
def search_step (qdist : Nat → Int) (graph : GraphInterface) (ef tag : Nat)
    (st : SearchState) : Option SearchState :=
  match st.candidate_set.top? with
  | none => none
  | some current_node_pair =>
    if -current_node_pair.1 > st.lower_bound ∧ st.cur_result.size = ef then none
    else
      let popped := st.candidate_set.pop
      let neighbors := graph.GetNeighbors current_node_pair.2
      let scan := collect_unvisited tag neighbors st.visited_array []
      let s := offer_all qdist ef scan.1 (popped, st.cur_result, st.lower_bound)
      some { candidate_set := s.1, cur_result := s.2.1, lower_bound := s.2.2,
             visited_array := scan.2 }

/-- The `while` loop, run for at most `fuel` iterations. -/
def search_loop (qdist : Nat → Int) (graph : GraphInterface) (ef tag : Nat) :
    Nat → SearchState → SearchState
  | 0, st => st
  | fuel + 1, st =>
    match search_step qdist graph ef tag st with
    | none => st
    | some st' => search_loop qdist graph ef tag fuel st'

/-- A number of iterations the loop cannot exceed: an iteration removes one candidate, and
candidates are the entry point and ids met in a stored neighbour list, each at most once. -/
def search_fuel (graph : GraphInterface) : Nat :=
  1 + (graph.neighbors.map (fun e => e.2.length)).sum

/-- The state in which the `while` loop starts (lines 190-199). -/
def search_init (qdist : Nat → Int) (ep : Nat) (visited_list : VisitedList) : SearchState :=
  let dist := qdist ep
  let cur_result := MaxHeap.emplace [] dist ep
  let candidate_set := MaxHeap.emplace [] (-dist) ep
  let visited_array := Function.update visited_list.mass ep visited_list.curV
  let lower_bound :=
    match cur_result.top? with
    | some t => t.1
    | none => dist
  { candidate_set := candidate_set, cur_result := cur_result, lower_bound := lower_bound,
    visited_array := visited_array }

/-- The state in which the `while` loop of `search_one_graph` ends, for a visited list already
taken from the pool. -/
def search_final (query : List Int) (graph : GraphInterface) (flatten : FlattenInterface)
    (ep ef : Nat) (visited_list : VisitedList) : SearchState :=
  search_loop (flatten.Query query) graph ef visited_list.curV (search_fuel graph)
    (search_init (flatten.Query query) ep visited_list)

/-- The function `HGraphIndex::search_one_graph`: the returned heap `cur_result`, and the pool
after the visited list went back to it.  The parameter `isIdAllowed` is never read by the
source, and so never by the embedding. -/
def search_one_graph (pool : VisitedListPool) (query : List Int) (graph : GraphInterface)
    (flatten : FlattenInterface) (ep ef : Nat) (isIdAllowed : Option (Nat → Bool)) :
    MaxHeap × VisitedListPool :=
  let visited_list := pool.getFreeVisitedList
  let final := search_final query graph flatten ep ef visited_list
  (final.cur_result,
    pool.releaseVisitedList { visited_list with mass := final.visited_array })

/-! ## `HGraphIndex::select_edges_by_heuristic` -/

/-- The first loop (lines 274-277): every element of `edges` goes to `queue_closest` with its
distance negated.  The first argument is `edges`, its head being `edges.top()`. -/
def drain_negated : MaxHeap → MaxHeap → MaxHeap
  | [], queue_closest => queue_closest
  | top :: rest, queue_closest => drain_negated rest (queue_closest.emplace (-top.1) top.2)

/-- The loop over `return_list` (lines 285-293): `good` stays true unless an already kept
`second_pair` is closer to the current candidate than `float_query`. -/
def is_good (flatten : FlattenInterface) (curent_pair : Candidate) : List Candidate → Bool
  | [] => true
  | second_pair :: rest =>
    if flatten.ComputePairVectors second_pair.2 curent_pair.2 < -curent_pair.1 then false
    else is_good flatten curent_pair rest

/-- The second loop (lines 279-297), the first argument being `queue_closest` and the second
`return_list`; the result is the final `return_list`. -/
def select_loop (flatten : FlattenInterface) (max_size : Nat) :
    MaxHeap → List Candidate → List Candidate
  | [], return_list => return_list
  | curent_pair :: rest, return_list =>
    if return_list.length ≥ max_size then return_list
    else if is_good flatten curent_pair return_list then
      select_loop flatten max_size rest (return_list ++ [curent_pair])
    else
      select_loop flatten max_size rest return_list

/-- The third loop (lines 299-301): the kept pairs go back to `edges`, the distance negated
again. -/
def refill : List Candidate → MaxHeap → MaxHeap
  | [], edges => edges
  | curent_pair :: rest, edges => refill rest (edges.emplace (-curent_pair.1) curent_pair.2)

/-- The function `HGraphIndex::select_edges_by_heuristic`: the content of `edges` when it
returns. -/
def select_edges_by_heuristic (edges : MaxHeap) (max_size : Nat)
    (flatten : FlattenInterface) : MaxHeap :=
  if edges.size < max_size then edges
  else refill (select_loop flatten max_size (drain_negated edges []) []) []

/-! ## `HGraphIndex::mutually_connect_new_element` -/

/-- The ways in which `mutually_connect_new_element` does not return: the three
`std::runtime_error`s it throws, and the read `selectedNeighbors.back()` of an empty vector. -/
inductive ConnectError where
  | too_many_candidates
  | bad_link_list_size
  | self_connection
  | back_of_empty
  deriving DecidableEq, Repr

/-- The loops that empty a heap into a vector of ids (lines 318-321 and 378-381). -/
def pop_ids : MaxHeap → List Nat
  | [] => []
  | top :: rest => top.2 :: pop_ids rest

/-- The loop that seeds `candidates` with the stored neighbours of `selectedNeighbor`
(lines 370-373). -/
def emplace_neighbors (flatten : FlattenInterface) (selectedNeighbor : Nat) :
    List Nat → MaxHeap → MaxHeap
  | [], candidates => candidates
  | n :: rest, candidates =>
    emplace_neighbors flatten selectedNeighbor rest
      (candidates.emplace (flatten.ComputePairVectors n selectedNeighbor) n)

/-- The body of the loop over `selectedNeighbors` (lines 336-384) for one `selectedNeighbor`:
the graph after it, or the error thrown. -/
def connect_neighbor (cur_c max_size : Nat) (flatten : FlattenInterface) (is_update : Bool)
    (graph : GraphInterface) (selectedNeighbor : Nat) : Except ConnectError GraphInterface :=
  let neighbors := graph.GetNeighbors selectedNeighbor
  let sz_link_list_other := neighbors.length
  if sz_link_list_other > max_size then .error .bad_link_list_size
  else if selectedNeighbor = cur_c then .error .self_connection
  else
    let is_cur_c_present := is_update && neighbors.contains cur_c
    if !is_cur_c_present then
      if sz_link_list_other < max_size then
        .ok (graph.InsertNeighborsById selectedNeighbor (neighbors ++ [cur_c]))
      else
        let d_max := flatten.ComputePairVectors cur_c selectedNeighbor
        let candidates := emplace_neighbors flatten selectedNeighbor neighbors
          (MaxHeap.emplace [] d_max cur_c)
        let pruned := select_edges_by_heuristic candidates max_size flatten
        .ok (graph.InsertNeighborsById selectedNeighbor (pop_ids pruned))
    else .ok graph

/-- The loop over `selectedNeighbors` (lines 335-385). -/
def connect_neighbors (cur_c max_size : Nat) (flatten : FlattenInterface) (is_update : Bool) :
    List Nat → GraphInterface → Except ConnectError GraphInterface
  | [], graph => .ok graph
  | selectedNeighbor :: rest, graph =>
    match connect_neighbor cur_c max_size flatten is_update graph selectedNeighbor with
    | .error e => .error e
    | .ok graph' => connect_neighbors cur_c max_size flatten is_update rest graph'

/-- The function `HGraphIndex::mutually_connect_new_element`: the returned
`next_closest_entry_point` and the graph it leaves, or the error. -/
def mutually_connect_new_element (cur_c : Nat) (top_candidates : MaxHeap)
    (graph : GraphInterface) (flatten : FlattenInterface) (is_update : Bool) :
    Except ConnectError (Nat × GraphInterface) :=
  let max_size := graph.MaximumDegree
  let selected := select_edges_by_heuristic top_candidates max_size flatten
  if selected.size > max_size then .error .too_many_candidates
  else
    let selectedNeighbors := pop_ids selected
    match selectedNeighbors.getLast? with
    | none => .error .back_of_empty
    | some next_closest_entry_point =>
      match connect_neighbors cur_c max_size flatten is_update selectedNeighbors
          (graph.InsertNeighborsById cur_c selectedNeighbors) with
      | .error e => .error e
      | .ok graph' => .ok (next_closest_entry_point, graph')

/-! ## The index and `HGraphIndex::knn_search` -/

/-- The members of `HGraphIndex` that insertion and search use. -/
structure HGraphIndex where
  basic_flatten_codes_ : FlattenInterface
  bottom_graph_ : GraphInterface
  route_graphs_ : List GraphInterface
  label_lookup_ : List (Int × Nat)
  max_level_ : Nat
  enter_point_id_ : Nat
  ef_construct_ : Nat
  pool_ : VisitedListPool

/-- The error kinds of `tl::expected<_, Error>`. -/
inductive ErrorType where
  | INVALID_ARGUMENT
  | INTERNAL_ERROR
  deriving DecidableEq, Repr

/-- The `Dataset` that `knn_search` returns: `Dim`, and the arrays `Ids` and `Distances`. -/
structure Dataset where
  dim : Nat
  ids : List Int
  distances : List Int
  deriving DecidableEq, Repr

/-- The descent through the route graphs (lines 398-406), the graphs listed in the order in
which the loop visits them; the state is `(ep, pool)`. -/
def descend_route_graphs (query : List Int) (flatten : FlattenInterface)
    (ft : Nat → Bool) : List GraphInterface → Nat × VisitedListPool → Nat × VisitedListPool
  | [], s => s
  | graph :: rest, s =>
    let result := search_one_graph s.2 query graph flatten s.1 1 (some ft)
    let ep :=
      match result.1.top? with
      | some t => t.2
      | none => s.1
    descend_route_graphs query flatten ft rest (ep, result.2)

/-- The heap `results` of `knn_search` after the search of the bottom graph (lines 397-416),
and the pool. -/
def knn_base_results (index : HGraphIndex) (query : List Int) (ef_search : Nat)
    (filter : Nat → Bool) : MaxHeap × VisitedListPool :=
  let s := descend_route_graphs query index.basic_flatten_codes_ filter
    index.route_graphs_.reverse (index.enter_point_id_, index.pool_)
  search_one_graph s.2 query index.bottom_graph_ index.basic_flatten_codes_ s.1 ef_search
    (some filter)

/-- The value of `k` in the comparison `results.size() > k`, where the `int64_t` is converted
to the unsigned type of `size()`. -/
def as_unsigned (k : Int) : Nat := (k % 18446744073709551616).toNat

/-- The loop `while (results.size() > k) results.pop()` (lines 418-420), `k` already
converted. -/
def pop_down_to (k : Nat) : MaxHeap → MaxHeap
  | [] => []
  | top :: rest => if MaxHeap.size (top :: rest) > k then pop_down_to k rest else top :: rest

/-- The loop that fills `dists` and `ids` from the last position down to position 0
(lines 430-434): the listed pairs are the entries of positions 0, 1, 2, ... -/
def fill_positions : MaxHeap → List Candidate
  | [] => []
  | top :: rest => fill_positions rest ++ [top]

/-- The function `HGraphIndex::knn_search`, with `ef_search` for the parsed `parameters`. -/
def knn_search (index : HGraphIndex) (query : List Int) (k : Int) (ef_search : Nat)
    (filter : Nat → Bool) : Except ErrorType Dataset :=
  let results := (knn_base_results index query ef_search filter).1
  let results := pop_down_to (as_unsigned k) results
  let filled := fill_positions results
  .ok { dim := results.size,
        ids := filled.map (fun p => Int.ofNat p.2),
        distances := filled.map (fun p => p.1) }

/-- The index state after `knn_search`: only the visited pool has moved. -/
def knn_search_state (index : HGraphIndex) (query : List Int) (ef_search : Nat)
    (filter : Nat → Bool) : HGraphIndex :=
  { index with pool_ := (knn_base_results index query ef_search filter).2 }

/-! ## `HGraphIndex::hnsw_add` -/

/-- The ways in which `hnsw_add` does not complete: an error thrown by
`mutually_connect_new_element`, or the read of `route_graphs_[j]` past the end. -/
inductive AddError where
  | connect (e : ConnectError)
  | route_graph_out_of_range
  deriving DecidableEq, Repr

/-- The function `HGraphIndex::generate_one_route_graph`: an empty sparse graph whose maximum
degree is half the one of the bottom graph. -/
def generate_one_route_graph (index : HGraphIndex) : GraphInterface :=
  { maximum_degree := index.bottom_graph_.MaximumDegree / 2, total_count := 0, neighbors := [] }

/-- The assignment `label_lookup_[label] = inner_id` of a map with unique keys. -/
def label_lookup_assign (m : List (Int × Nat)) (label : Int) (inner_id : Nat) :
    List (Int × Nat) :=
  (label, inner_id) :: m.filter (fun e => e.1 ≠ label)

/-- The levels `j` visited by the loop `for (auto j = max_level_ - 1; j > level; --j)`
(lines 128-132), in the order of the visit; `j` is unsigned, so `level` is converted. -/
def descent_levels (max_level : Nat) (level : Int) : List Nat :=
  (List.range max_level).reverse.filter (fun j => j > as_unsigned level)

/-- The loop of lines 128-132 over the levels listed; the state is `(ep, pool)`. -/
def descend_levels (query : List Int) (flatten : FlattenInterface)
    (route_graphs : List GraphInterface) :
    List Nat → Nat × VisitedListPool → Except AddError (Nat × VisitedListPool)
  | [], s => .ok s
  | j :: rest, s =>
    match route_graphs.get? j with
    | none => .error .route_graph_out_of_range
    | some graph =>
      let result := search_one_graph s.2 query graph flatten s.1 1 none
      let ep :=
        match result.1.top? with
        | some t => t.2
        | none => s.1
      descend_levels query flatten route_graphs rest (ep, result.2)

/-- The insertion into one graph (lines 135-147 and 149-161): the graph after it, the entry
point returned by `mutually_connect_new_element` (the old one when the graph was empty), and
the pool. -/
def insert_into_graph (inner_id : Nat) (query : List Int) (flatten : FlattenInterface)
    (ef_construct : Nat) (graph : GraphInterface) (ep : Nat) (pool : VisitedListPool) :
    Except AddError (GraphInterface × Nat × VisitedListPool) :=
  if graph.TotalCount ≠ 0 then
    let result := search_one_graph pool query graph flatten ep ef_construct none
    match mutually_connect_new_element inner_id result.1 graph flatten false with
    | .error e => .error (.connect e)
    | .ok r => .ok (r.2.IncreaseTotalCount 1, r.1, result.2)
  else
    .ok ((graph.InsertNeighborsById inner_id []).IncreaseTotalCount 1, ep, pool)

/-- The loop `for (auto j = level; j >= 0; --j)` (lines 134-148); the first argument is
`j + 1`, the state is `(route_graphs_, ep, pool)`. -/
def insert_route_layers (inner_id : Nat) (query : List Int) (flatten : FlattenInterface)
    (ef_construct : Nat) :
    Nat → List GraphInterface × Nat × VisitedListPool →
      Except AddError (List GraphInterface × Nat × VisitedListPool)
  | 0, s => .ok s
  | j + 1, s =>
    match s.1.get? j with
    | none => .error .route_graph_out_of_range
    | some graph =>
      match insert_into_graph inner_id query flatten ef_construct graph s.2.1 s.2.2 with
      | .error e => .error e
      | .ok r =>
        insert_route_layers inner_id query flatten ef_construct j (s.1.set j r.1, r.2.1, r.2.2)

/-- The body of the loop of `hnsw_add` (lines 103-166) for one element: `label` and `data` are
`ids[i]` and the vector at `datas + dim_ * i`, `level` is the value of the variable `level`
(`get_random_level() - 1`), `inner_id` is `i + cur_count`. -/
def hnsw_add_one (index : HGraphIndex) (label : Int) (data : List Int) (level : Int)
    (inner_id : Nat) : Except AddError HGraphIndex :=
  let label_lookup := label_lookup_assign index.label_lookup_ label inner_id
  let need_lock : Bool :=
    decide (level ≥ Int.ofNat index.max_level_) || decide (index.bottom_graph_.TotalCount = 0)
  let route_graphs :=
    if need_lock then
      index.route_graphs_ ++
        List.replicate (level + 1 - Int.ofNat index.max_level_).toNat
          (generate_one_route_graph index)
    else index.route_graphs_
  let max_level := if need_lock then as_unsigned (level + 1) else index.max_level_
  let flatten := index.basic_flatten_codes_
  match descend_levels data flatten route_graphs (descent_levels max_level level)
      (index.enter_point_id_, index.pool_) with
  | .error e => .error e
  | .ok s =>
    match insert_route_layers inner_id data flatten index.ef_construct_ (level + 1).toNat
        (route_graphs, s.1, s.2) with
    | .error e => .error e
    | .ok r =>
      match insert_into_graph inner_id data flatten index.ef_construct_ index.bottom_graph_
          r.2.1 r.2.2 with
      | .error e => .error e
      | .ok b =>
        .ok { index with
              label_lookup_ := label_lookup
              route_graphs_ := r.1
              max_level_ := max_level
              bottom_graph_ := b.1
              pool_ := b.2.2
              enter_point_id_ := if need_lock then inner_id else index.enter_point_id_ }

/-- The loop of `hnsw_add` over the elements of `base`, run in the order of the elements; `i`
is the position of the first element listed, `get_random_level i` the value that
`get_random_level()` returns for the element of position `i`. -/
def hnsw_add_from (get_random_level : Nat → Int) (cur_count : Nat) :
    List (Int × List Int) → Nat → HGraphIndex → Except AddError HGraphIndex
  | [], _, index => .ok index
  | e :: rest, i, index =>
    match hnsw_add_one index e.1 e.2 (get_random_level i - 1) (i + cur_count) with
    | .error err => .error err
    | .ok index' => hnsw_add_from get_random_level cur_count rest (i + 1) index'

/-- The function `HGraphIndex::hnsw_add` (one thread): `base` lists the pairs of a label and a
vector. -/
def hnsw_add (index : HGraphIndex) (base : List (Int × List Int))
    (get_random_level : Nat → Int) : Except AddError HGraphIndex :=
  hnsw_add_from get_random_level index.bottom_graph_.TotalCount base 0 index

/-- An index into which nothing was inserted yet. -/
def empty_index (flatten : FlattenInterface) (max_degree ef_construct : Nat) : HGraphIndex :=
  { basic_flatten_codes_ := flatten,
    bottom_graph_ := { maximum_degree := max_degree, total_count := 0, neighbors := [] },
    route_graphs_ := [], label_lookup_ := [], max_level_ := 0, enter_point_id_ := 0,
    ef_construct_ := ef_construct,
    pool_ := { tag_limit := 65536, buffer := { curV := 0, mass := fun _ => 0 } } }

/-! ## The reference for the heuristic, from the words of the spec -/

/-- The candidate with its distance negated, as the heuristic stores it in `queue_closest`. -/
def negated (p : Candidate) : Candidate := (-p.1, p.2)

/-- The order in which `select_edges_by_heuristic` processes the candidates of `edges`: the
successive tops of `queue_closest`, each with its distance to the pivot restored. -/
def processing_order (edges : MaxHeap) : List Candidate := (drain_negated edges []).map negated

/-- The greedy rule of section 4.5 of the spec, written from its words: the candidates come in
the order given; "keep candidate `c` iff for every already-kept `k`, `d(c, k) >= d(c, u)`",
where `d(c, u)` is the distance the candidate carries; "the procedure stops when `max_size`
candidates are kept".  The second list is what is kept so far. -/
def greedy_reference (d : Nat → Nat → Int) (max_size : Nat) :
    List Candidate → List Candidate → List Candidate
  | [], kept => kept
  | c :: rest, kept =>
    if kept.length = max_size then kept
    else if ∀ k ∈ kept, d c.2 k.2 ≥ c.1 then greedy_reference d max_size rest (kept ++ [c])
    else greedy_reference d max_size rest kept

/-! ## Predicates used in the proofs -/

/-- What every state of the search loop satisfies: the result heap is a valid heap, it is
not empty, and it holds at most `max ef 1` candidates. -/
def ResultInv (ef : Nat) (res : MaxHeap) : Prop :=
  MaxHeap.Valid res ∧ res ≠ [] ∧ res.length ≤ max ef 1

/-- The candidates of `mid`, taken in order after those of `pre`, all pass the test of the
heuristic against what precedes them. -/
def GoodFrom (flatten : FlattenInterface) : List Candidate → List Candidate → Prop
  | _, [] => True
  | pre, c :: mid => is_good flatten c pre = true ∧ GoodFrom flatten (pre ++ [c]) mid

/-- The degree bound on a graph: no stored list is longer than the maximum degree. -/
def DegreeBounded (g : GraphInterface) : Prop :=
  ∀ id, (g.GetNeighbors id).length ≤ g.maximum_degree

/-- Every id stored in a neighbour list of the graph, with repetition. -/
def stored_ids (graph : GraphInterface) : List Nat := (graph.neighbors.map (fun e => e.2)).flatten

/-- The number of stored ids that do not carry the current tag. -/
def untagged (graph : GraphInterface) (tag : Nat) (visited_array : Nat → Nat) : Nat :=
  (stored_ids graph).countP (fun u => decide (visited_array u ≠ tag))

/-- The quantity that every iteration of the search loop decreases. -/
def search_measure (graph : GraphInterface) (tag : Nat) (st : SearchState) : Nat :=
  st.candidate_set.length + untagged graph tag st.visited_array

/-! ## Concrete inputs -/

/-- A vector store of points on a line: the inner id `id` sits at `pos id`, a query is its
first coordinate, the distance is the absolute difference. -/
def line_flatten (pos : Nat → Int) : FlattenInterface :=
  { Query := fun q id => Int.ofNat (q.headD 0 - pos id).natAbs,
    ComputePairVectors := fun a b => Int.ofNat (pos a - pos b).natAbs }

/-- The store in which the inner id `id` sits at `10 * id`. -/
def spaced_line : FlattenInterface := line_flatten (fun id => 10 * Int.ofNat id)

/-- A pool whose buffer was never used. -/
def fresh_pool : VisitedListPool :=
  { tag_limit := 65536, buffer := { curV := 0, mass := fun _ => 0 } }

/-- A graph of one id without neighbours. -/
def single_graph : GraphInterface :=
  { maximum_degree := 4, total_count := 1, neighbors := [(0, [])] }

/-- A graph of three ids, each linked to the two others. -/
def triangle_graph : GraphInterface :=
  { maximum_degree := 4, total_count := 3,
    neighbors := [(0, [1, 2]), (1, [0, 2]), (2, [0, 1])] }

/-- An index without route graphs over `triangle_graph`, the labels being 100, 200, 300. -/
def triangle_index : HGraphIndex :=
  { basic_flatten_codes_ := spaced_line,
    bottom_graph_ := triangle_graph, route_graphs_ := [],
    label_lookup_ := [(100, 0), (200, 1), (300, 2)],
    max_level_ := 0, enter_point_id_ := 0, ef_construct_ := 10, pool_ := fresh_pool }

/-- Three labelled points for `hnsw_add`: labels 100, 200, 300 at 0, 10, 20. -/
def three_points : List (Int × List Int) := [(100, [0]), (200, [10]), (300, [20])]


/-- Scenario S3: the Euclidean distance, in thousandths, between the points of the unit circle
at the angles number `a` and `b` of the list `0, pi/8, pi/4, pi/2, pi` (the chord
`2 sin (|angle a - angle b| / 2)`, rounded).  The heuristic only compares these values with
the distance 1000 to the pivot: a chord is below 1 exactly when the two angles differ by less
than `pi/3`, here by `pi/8` or `pi/4`, and no entry is within 100 of 1000. -/
def s3_chord : Nat → Nat → Int
  | 0, 1 => 390 | 1, 0 => 390
  | 0, 2 => 765 | 2, 0 => 765
  | 0, 3 => 1414 | 3, 0 => 1414
  | 0, 4 => 2000 | 4, 0 => 2000
  | 1, 2 => 390 | 2, 1 => 390
  | 1, 3 => 1111 | 3, 1 => 1111
  | 1, 4 => 1962 | 4, 1 => 1962
  | 2, 3 => 765 | 3, 2 => 765
  | 2, 4 => 1848 | 4, 2 => 1848
  | 3, 4 => 1414 | 4, 3 => 1414
  | _, _ => 0

/-- Scenario S3: the number of the angle of the candidate that carries the inner id `id`, the
five candidates carrying the ids `i0 .. i4` in the listed order. -/
def s3_angle (i0 i1 i2 i3 i4 id : Nat) : Nat :=
  if id = i0 then 0 else if id = i1 then 1 else if id = i2 then 2
  else if id = i3 then 3 else if id = i4 then 4 else 5

/-- Scenario S3: the vector store; every candidate is at distance 1 (1000 thousandths) from
the pivot at the origin. -/
def s3_flatten (i0 i1 i2 i3 i4 : Nat) : FlattenInterface :=
  { Query := fun _ _ => 1000,
    ComputePairVectors := fun a b =>
      s3_chord (s3_angle i0 i1 i2 i3 i4 a) (s3_angle i0 i1 i2 i3 i4 b) }

/-- Scenario S3: the candidate heap, the five candidates emplaced in the listed order. -/
def s3_edges (i0 i1 i2 i3 i4 : Nat) : MaxHeap :=
  ((((MaxHeap.emplace [] 1000 i0).emplace 1000 i1).emplace 1000 i2).emplace 1000 i3).emplace
    1000 i4

/-! ## `Graph` (NN-descent builder, `src/impl/graph.h`) -/

/-- The `struct Node`: the flag `old`, the id and the distance to the owner of the list. -/
structure Node where
  old : Bool
  id : Nat
  distance : Int
  deriving DecidableEq, Repr

/-- The insertion step of the sort: `n` goes in front of the first element that is not
smaller than it under `Node::operator<` (which compares the distances only). -/
def ordered_insert (n : Node) : List Node → List Node
  | [] => [n]
  | x :: xs => if x.distance < n.distance then x :: ordered_insert n xs else n :: x :: xs

/-- The call `std::sort(begin, end)` on a list of nodes: ascending by distance.  `std::sort`
leaves the order of entries of equal distance open; here they stay as they come, which is what
the insertion sort that the library runs on ranges of up to 16 entries does.  On longer ranges
the library may order entries of equal distance differently; the statements about `Build` use
only that the sorted list is ascending and has the same entries. -/
def std_sort : List Node → List Node
  | [] => []
  | x :: xs => ordered_insert x (std_sort xs)

/-- The tail of `std::unique` after the kept element `last`: an element is dropped when
`Node::operator==` (same id) holds between the last kept element and it. -/
def unique_after (last : Node) : List Node → List Node
  | [] => []
  | y :: rest => if last.id = y.id then unique_after last rest else y :: unique_after y rest

/-- The call `erase(std::unique(begin, end), end)`: of every run of consecutive entries with
the same id only the first is kept. -/
def std_unique : List Node → List Node
  | [] => []
  | x :: rest => x :: unique_after x rest

/-- The members of `class Graph`.  `get_distance loc1 loc2` is the member function of that
name (the `DistanceFunc` applied to the vectors of the data set); `graph i` is
`graph[i].neigbors`; `max_degree_` ranges over the non-negative values. -/
structure Graph where
  max_degree_ : Nat
  turn_ : Int
  data_num_ : Nat
  is_build_ : Bool
  get_distance : Nat → Nat → Int
  graph : Nat → List Node

namespace Graph

/-- The constructor `Graph(max_degree, turn, distance)`: nothing is built yet. -/
def create (max_degree : Nat) (turn : Int) : Graph :=
  { max_degree_ := max_degree, turn_ := turn, data_num_ := 0, is_build_ := false,
    get_distance := fun _ _ => 0, graph := fun _ => [] }

/-- The statement `graph[loc].neigbors.emplace_back(id, distance)`. -/
def emplace_back (graph : Nat → List Node) (loc id : Nat) (distance : Int) : Nat → List Node :=
  Function.update graph loc (graph loc ++ [{ old := false, id := id, distance := distance }])

/-- The function `reduce_graph(loc)`: sort, drop consecutive entries of equal id, cut to
`max_degree_`. -/
def reduce_graph (g : Graph) (loc : Nat) : Graph :=
  let sorted := std_unique (std_sort (g.graph loc))
  let cut := if sorted.length > g.max_degree_ then sorted.take g.max_degree_ else sorted
  { g with graph := Function.update g.graph loc cut }

/-- The entries that `init_graph()` appends to the list of `i`: `max_degree_` of them, the id
of the `j`-th being `draw i j`, the value that `k_generate(rng)` returns there. -/
def init_entries (g : Graph) (draw : Nat → Nat → Nat) (i : Nat) : List Node :=
  List.map (fun j => { old := false, id := draw i j, distance := g.get_distance i (draw i j) })
    (List.range g.max_degree_)

/-- The function `init_graph()`. -/
def init_graph (g : Graph) (draw : Nat → Nat → Nat) : Graph :=
  { g with graph := fun i =>
      if i < g.data_num_ then g.graph i ++ init_entries g draw i else g.graph i }

/-- The loop over `k` in `update_neighbors` (lines 147-162) for the candidate `oj`, the list
being what is left of `new_neighbors`: the final `flag` and the graph. -/
def join_candidate (get_distance : Nat → Nat → Int) (oj : Node) :
    List Node → (Nat → List Node) → Bool × (Nat → List Node)
  | [], graph => (true, graph)
  | nk :: rest, graph =>
    if oj.old && nk.old then join_candidate get_distance oj rest graph
    else if oj.id = nk.id then (true, graph)
    else
      let d := get_distance oj.id nk.id
      if d < oj.distance then (false, emplace_back graph nk.id oj.id d)
      else join_candidate get_distance oj rest graph

/-- The loop over `j` in `update_neighbors` (lines 141-166): the list is what is left of
`old_neighbors`, `j` the position of its head; the result is `new_neighbors` and the graph. -/
def local_join (get_distance : Nat → Nat → Int) :
    List Node → Nat → Nat → List Node → (Nat → List Node) → List Node × (Nat → List Node)
  | [], _, _, new_neighbors, graph => (new_neighbors, graph)
  | oj :: rest, j, last_id, new_neighbors, graph =>
    if j > 0 ∧ last_id = oj.id then
      local_join get_distance rest (j + 1) last_id new_neighbors graph
    else
      let r := join_candidate get_distance oj new_neighbors graph
      local_join get_distance rest (j + 1) oj.id
        (if r.1 then new_neighbors ++ [oj] else new_neighbors) r.2

/-- The body of the loop of `update_neighbors` for the id `i` (lines 134-173). -/
def update_neighbors_at (g : Graph) (i : Nat) : Graph :=
  let old_neighbors := std_sort (g.graph i)
  let r := local_join g.get_distance old_neighbors 0 4294967295 []
    (Function.update g.graph i [])
  let new_neighbors := r.1.map (fun n => { n with old := true })
  reduce_graph { g with graph := Function.update r.2 i (r.2 i ++ new_neighbors) } i

/-- A loop `for (int i = 0; i < data_num_; ++i)` with the body `body`. -/
def for_each_id (body : Graph → Nat → Graph) (g : Graph) : Graph :=
  (List.range g.data_num_).foldl body g

/-- The function `update_neighbors()`. -/
def update_neighbors (g : Graph) : Graph := for_each_id update_neighbors_at g

/-- The first loop of `add_reverse_edges` (lines 181-186): the reverse lists. -/
def reverse_graph (g : Graph) : Nat → List Node :=
  (List.range g.data_num_).foldl
    (fun rev i => (g.graph i).foldl (fun rev node => emplace_back rev node.id i node.distance) rev)
    (fun _ => [])

/-- The body of the second loop of `add_reverse_edges` (graph.h:186-190): the reverse list of
`i` is appended to the list of `i`, which is then pruned. -/
def merge_reverse_at (rev : Nat → List Node) (g : Graph) (i : Nat) : Graph :=
  reduce_graph { g with graph := Function.update g.graph i (g.graph i ++ rev i) } i

/-- The function `add_reverse_edges` (graph.h:178-191): the reverse graph is collected first,
then merged into every list. -/
def add_reverse_edges (g : Graph) : Graph :=
  for_each_id (merge_reverse_at (reverse_graph g)) g

/-- The loop `for (int i = 0; i < 10; ++i)` of `Build` (lines 74-80), `rounds` being the list
of the values of `i`, and `last` the value for which the reverse edges are not added. -/
def refine_rounds (last : Nat) : List Nat → Graph → Graph
  | [], g => g
  | i :: rest, g =>
    let g1 := update_neighbors g
    refine_rounds last rest (if i ≠ last then add_reverse_edges g1 else g1)

/-- The function `Build(dataset)`: the returned flag and the object after the call.  The data
set gives `data_num` and, with the distance function, `get_distance`; `check_turn` only
prints. -/
def Build (g : Graph) (data_num : Nat) (get_distance : Nat → Nat → Int)
    (draw : Nat → Nat → Nat) : Bool × Graph :=
  if g.is_build_ then (false, g)
  else
    let g0 := { g with is_build_ := true, data_num_ := data_num, get_distance := get_distance }
    let g1 := init_graph g0 draw
    let g2 := refine_rounds 9 (List.range 10) g1
    (true, for_each_id reduce_graph g2)

/-- The function `GetGraph()`: the ids of every list. -/
def GetGraph (g : Graph) : List (List Nat) :=
  (List.range g.data_num_).map (fun i => (g.graph i).map (fun n => n.id))

end Graph

/-- The procedure of section 4.8 of the spec, written from its words: init, then the
refinement "repeated `turns` times" with the reverse edges on "all turns except the last", then
the final prune, where `turns` is the configured count `turn_`.  The steps themselves are those
of the code. -/
def Build_reference (g : Graph) (data_num : Nat)
    (get_distance : Nat → Nat → Int) (draw : Nat → Nat → Nat) : Graph :=
  let g0 := { g with is_build_ := true, data_num_ := data_num, get_distance := get_distance }
  let g1 := Graph.init_graph g0 draw
  let g2 := Graph.refine_rounds (g.turn_.toNat - 1) (List.range g.turn_.toNat) g1
  Graph.for_each_id Graph.reduce_graph g2

/-- The distance between the points of a line at the positions listed. -/
def line_distance (pos : List Int) : Nat → Nat → Int :=
  fun a b => Int.ofNat (pos.getD a 0 - pos.getD b 0).natAbs

/-- A state of the builder on three points in which the list of the id 0 holds the id 1, the
id 2 and the id 1 again, all at distance 5. -/
def tied_graph : Graph :=
  { Graph.create 3 10 with
    data_num_ := 3,
    get_distance := line_distance [0, -5, 5],
    graph := fun i =>
      if i = 0 then [{ old := false, id := 1, distance := 5 },
        { old := false, id := 2, distance := 5 }, { old := false, id := 1, distance := 5 }]
      else [] }

/-- Draws of the initialisation that give the id 0 the list of `tied_graph`, and the other
ids the id 0 three times. -/
def tied_draw : Nat → Nat → Nat := fun i j => if i = 0 then [1, 2, 1].getD j 0 else 0

/-- Draws of the initialisation in which every draw of `i` is its successor modulo 3. -/
def ring_draw : Nat → Nat → Nat := fun i _ => (i + 1) % 3

/-- No list of the builder holds the id of its owner. -/
def NoSelfLoop (graph : Nat → List Node) : Prop := ∀ u, ∀ n ∈ graph u, n.id ≠ u

/-- What the loop over the freshly tagged ids keeps, for `ef >= 1`: `P` lists the candidates
offered so far, `D` those among them that are not in `cur_result` (never pushed, or popped).
No candidate of `D` is nearer than one of `cur_result`, and nothing is dropped before
`cur_result` is full. -/
def OfferTrack (ef : Nat) (P D : List Candidate) (cur_result : MaxHeap) (lower_bound : Int) :
    Prop :=
  MaxHeap.Valid cur_result ∧ cur_result ≠ [] ∧ cur_result.length ≤ ef ∧
  cur_result.head?.map Prod.fst = some lower_bound ∧
  List.Perm (cur_result ++ D) P ∧
  (∀ d ∈ D, ∀ c ∈ cur_result, c.1 ≤ d.1) ∧
  (D ≠ [] → cur_result.length = ef)

/-- What the `while` loop of `search_one_graph` keeps: `V` lists the ids whose distance to the
query was computed so far (the entry point, then every id the scan tagged), `mass0` is the tag
array before the search, and `T` is what the loop over the freshly tagged ids keeps of
`cur_result` and `lower_bound`. -/
def SearchTrack (T : List Nat → MaxHeap → Int → Prop) (graph : GraphInterface) (ep tag : Nat)
    (mass0 : Nat → Nat) (V : List Nat) (st : SearchState) : Prop :=
  V.Nodup ∧
  (∀ u, u ∈ V ↔ u = ep ∨ (mass0 u ≠ tag ∧ st.visited_array u = tag)) ∧
  st.visited_array ep = tag ∧
  (∀ u, mass0 u = tag → st.visited_array u = tag) ∧
  (∀ u ∈ V, u = ep ∨ ∃ w, u ∈ graph.GetNeighbors w) ∧
  T V st.cur_result st.lower_bound

/-- The candidates offered are those of the ids `V`, each with its distance to the query;
some list `D` of them is not in `cur_result`. -/
def OfferTracked (qdist : Nat → Int) (ef : Nat) (V : List Nat) (cur_result : MaxHeap)
    (lower_bound : Int) : Prop :=
  ∃ D, OfferTrack ef (V.map (fun u => (qdist u, u))) D cur_result lower_bound

/-- The ids of `cur_result` are ids of `V`, none taken more often than `V` lists it. -/
def OfferIds (V : List Nat) (cur_result : MaxHeap) (lower_bound : Int) : Prop :=
  List.Subperm (cur_result.map Prod.snd) V


/-- Successive calls of `hnsw_add`, one per batch listed; a batch comes with the values that
`get_random_level()` returns for its elements. -/
def hnsw_add_batches :
    HGraphIndex → List (List (Int × List Int) × (Nat → Int)) → Except AddError HGraphIndex
  | index, [] => .ok index
  | index, batch :: rest =>
    match hnsw_add index batch.1 batch.2 with
    | .error e => .error e
    | .ok index' => hnsw_add_batches index' rest

/-- The degree bound on every graph of the index, and the maximum degree of a route graph:
half the one of the bottom graph. -/
def IndexDegreeBounded (index : HGraphIndex) : Prop :=
  DegreeBounded index.bottom_graph_ ∧
  ∀ g ∈ index.route_graphs_,
    DegreeBounded g ∧ g.MaximumDegree = index.bottom_graph_.MaximumDegree / 2

/-- The neighbour lists of a graph hold no id twice, never the id they belong to, and only ids
below `N`. -/
def LinkInv (N : Nat) (g : GraphInterface) : Prop :=
  ∀ id, (g.GetNeighbors id).Nodup ∧ id ∉ g.GetNeighbors id ∧ ∀ v ∈ g.GetNeighbors id, v < N

/-- The lists of every graph of the index hold no id twice, never their own id, and only
inner ids already given out; the entry point is no larger than the next inner id. -/
def IndexLinkInv (index : HGraphIndex) : Prop :=
  index.enter_point_id_ ≤ index.bottom_graph_.TotalCount ∧
  LinkInv index.bottom_graph_.TotalCount index.bottom_graph_ ∧
  ∀ g ∈ index.route_graphs_, LinkInv index.bottom_graph_.TotalCount g


/-- The values of `get_random_level()` in scenario S4: the levels of the three elements are
0, 0 and 2. -/
def s4_levels : Nat → Int := fun i => [1, 1, 3].getD i 1

/-- Five pairs of a label and a point of the line. -/
def five_points : List (Int × List Int) :=
  [(100, [0]), (200, [10]), (300, [20]), (400, [30]), (500, [40])]

/-- Values of `get_random_level()` for five elements: the levels are 0, 1, 0, 2 and 0. -/
def five_levels : Nat → Int := fun i => [1, 2, 1, 3, 1].getD i 1


/-- The promotion rule of section 4.7 of the spec, written from its words, for inserts with
the levels listed; the state is `(max_level, entry_point, next_id)`.  "Assign
`inner_id = next_id++`"; if "`L >= max_level` OR the index is empty", "set
`max_level = L + 1`" and, the insert having raised `max_level`, "set
`entry_point = inner_id`"; otherwise both stay. -/
def promotion_reference : List Int → Nat × Nat × Nat → Nat × Nat × Nat
  | [], s => s
  | L :: rest, s =>
    promotion_reference rest
      (if L ≥ Int.ofNat s.1 ∨ s.2.2 = 0 then ((L + 1).toNat, s.2.2, s.2.2 + 1)
        else (s.1, s.2.1, s.2.2 + 1))

/-- The labels of the pairs of all batches, in the order of insertion. -/
def batch_labels (batches : List (List (Int × List Int) × (Nat → Int))) : List Int :=
  (batches.map (fun b => b.1.map Prod.fst)).flatten

/-- A batch in which the label 7 comes twice. -/
def repeated_label_points : List (Int × List Int) := [(7, [0]), (7, [10])]


/-- A store in which the distances of the inner ids 0, ..., 5 to the query at 0 are
5, 4, 4, 1, 5 and 3: the ids 0 and 4 tie, and so do the ids 1 and 2. -/
def tie_flatten : FlattenInterface := line_flatten (fun id => [5, 4, 4, 1, 5, 3].getD id 0)

/-- A graph on the ids 0, ..., 5 with the links 0-2, 0-3, 1-4, 1-5 and 2-4, each stored in
both directions. -/
def tie_graph : GraphInterface :=
  { maximum_degree := 2, total_count := 6,
    neighbors := [(0, [2, 3]), (1, [5, 4]), (2, [0, 4]), (3, [0]), (4, [2, 1]), (5, [1])] }

/-- The list `small` is the list `big` without some of its elements, each of which satisfies
`P`. -/
inductive SubExtra (P : Candidate → Prop) : List Candidate → List Candidate → Prop where
  | nil : SubExtra P [] []
  | both (c : Candidate) {small big : List Candidate} :
      SubExtra P small big → SubExtra P (c :: small) (c :: big)
  | extra (c : Candidate) {small big : List Candidate} :
      P c → SubExtra P small big → SubExtra P small (c :: big)

/-- The heap `X` is at least as near as the heap `Y`: it has at least as many entries, and
its `i`-th nearest distance is no larger than the `i`-th nearest distance of `Y`, for every `i`
below the size of `Y`.  Heaps list the farthest entry first, so the entries compared are the
last ones of `X`. -/
def AtLeastAsNear (X Y : MaxHeap) : Prop :=
  ∃ pre X', X = pre ++ X' ∧ List.Forall₂ (fun x y => x.1 ≤ y.1) X' Y

/-- The relation between the loop variables `(candidate_set, cur_result, lower_bound)` of the
search with `ef = a` (`sA`) and of the search with `ef = b` (`sB`) after the same candidates
were offered to both: `cur_result` of `sB` is that of `sA` under some farther entries, and
`candidate_set` of `sB` is that of `sA` plus candidates that `sA` turned down.  `V` lists the
ids offered so far. -/
def EfSim (qdist : Nat → Int) (a b : Nat) (V : List Nat) (sA sB : MaxHeap × MaxHeap × Int) :
    Prop :=
  MaxHeap.Valid sB.2.1 ∧ sA.2.1 ≠ [] ∧ sA.2.1.length ≤ a ∧ sB.2.1.length ≤ b ∧
  sA.2.1.head?.map Prod.fst = some sA.2.2 ∧ sB.2.1.head?.map Prod.fst = some sB.2.2 ∧
  (∃ pre, sB.2.1 = pre ++ sA.2.1 ∧ (pre ≠ [] → sA.2.1.length = a)) ∧
  MaxHeap.Valid sB.1 ∧
  SubExtra (fun c => sA.2.2 < -c.1 ∧ sA.2.1.length = a) sA.1 sB.1 ∧
  (∀ c ∈ sB.2.1, c.1 = qdist c.2 ∧ c.2 ∈ V)

/-- The relation between the states of the `while` loop of the search with `ef = a` (`stA`)
and of the search with `ef = b` (`stB`) after the same number of iterations: the same tags,
and `EfSim` between the heaps; every id offered so far carries the tag and is the entry point
or an id of a stored neighbour list. -/
def LoopSim (qdist : Nat → Int) (graph : GraphInterface) (ep a b tag : Nat)
    (stA stB : SearchState) : Prop :=
  stA.visited_array = stB.visited_array ∧
  ∃ V, (∀ u ∈ V, stA.visited_array u = tag ∧ (u = ep ∨ ∃ w, u ∈ graph.GetNeighbors w)) ∧
    EfSim qdist a b V (stA.candidate_set, stA.cur_result, stA.lower_bound)
      (stB.candidate_set, stB.cur_result, stB.lower_bound)


/-! ## The label lock of `HGraphIndex::hnsw_add` -/

/-- The index `label & MAX_LABEL_OPERATION_LOCKS` with which `hnsw_add` picks the label lock
(line 125).  The constant is declared in a header that is not among the sources, so its value
is the parameter `max_label_operation_locks`; it is also the number of mutexes of the table
`label_op_mutex_` (line 32).  The `int64_t` label enters the bitwise AND as its two's
complement. -/
def label_lock_index (max_label_operation_locks : Nat) (label : Int) : Nat :=
  as_unsigned label &&& max_label_operation_locks

/-! ## `GraphDataCell<IOTmpl, false>` (`src/storage/graph_datacell.h`) -/

/-- The content behind `io_`, taken as a parameter (the class `BasicIO` is not among the
sources): `u32 offset` is the `uint32_t` that `Read(sizeof(uint32_t), offset)` points to,
`u64 offset` the `uint64_t` that `Read(sizeof(uint64_t), offset)` points to.  A `Write` is
taken to store the bytes it is given, so that a later `Read` at the same offset finds them. -/
structure BasicIO where
  u32 : Nat → Nat
  u64 : Nat → Nat

/-- The members of `GraphDataCell<IOTmpl, false>`. -/
structure GraphDataCell where
  io_ : BasicIO
  totalCount_ : Nat
  maxCapacity_ : Nat
  maximum_degree_ : Nat

namespace GraphDataCell

/-- The function `get_single_offset()`: the bytes of one node, a `uint32_t` size and
`maximum_degree_` ids of type `uint64_t`. -/
def get_single_offset (c : GraphDataCell) : Nat := c.maximum_degree_ * 8 + 4

/-- The function `TotalCount()`. -/
def TotalCount (c : GraphDataCell) : Nat := c.totalCount_

/-- The function `GetNeighborSize(id)` (lines 138-149). -/
def GetNeighborSize (c : GraphDataCell) (id : Nat) : Nat :=
  if id ≥ c.totalCount_ then 0 else c.io_.u32 (id * c.get_single_offset)

/-- The function `GetNeighbors(id, neighbor_ids)` (lines 151-164): the content of the vector
`neighbor_ids` after the call, for its content `neighbor_ids` before the call.  With a size of
0 the function returns at once; otherwise the vector is resized and every position below the
size is overwritten. -/
def GetNeighbors (c : GraphDataCell) (id : Nat) (neighbor_ids : List Nat) : List Nat :=
  let size := c.GetNeighborSize id
  let cur_offset := id * c.get_single_offset + 4
  if size = 0 then neighbor_ids
  else (List.range size).map (fun i => c.io_.u64 (cur_offset + 8 * i))

/-- The function `InsertNode(neighbor_ids)` (lines 120-136): the size, cut at
`maximum_degree_`, and that many ids are written at the offset of the node `totalCount_`. -/
def InsertNode (c : GraphDataCell) (neighbor_ids : List Nat) : GraphDataCell :=
  let cur_offset := c.totalCount_ * c.get_single_offset
  let neighbor_size := min neighbor_ids.length c.maximum_degree_
  { c with
    io_ :=
      { u32 := Function.update c.io_.u32 cur_offset neighbor_size,
        u64 := fun offset =>
          if cur_offset + 4 ≤ offset ∧ offset < cur_offset + 4 + 8 * neighbor_size ∧
              (offset - (cur_offset + 4)) % 8 = 0 then
            neighbor_ids.getD ((offset - (cur_offset + 4)) / 8) 0
          else c.io_.u64 offset },
    totalCount_ := c.totalCount_ + 1 }

/-- The list stored for `id`: the size written for the node and the ids that follow it. -/
def stored_list (c : GraphDataCell) (id : Nat) : List Nat :=
  (List.range (c.io_.u32 (id * c.get_single_offset))).map
    (fun i => c.io_.u64 (id * c.get_single_offset + 4 + 8 * i))

/-- A cell of maximum degree `maximum_degree` into which no node was inserted. -/
def create (maximum_degree : Nat) : GraphDataCell :=
  { io_ := { u32 := fun _ => 0, u64 := fun _ => 0 }, totalCount_ := 0, maxCapacity_ := 1000000,
    maximum_degree_ := maximum_degree }

end GraphDataCell


/-- Every list keeps an entry at least as near as each entry it had: a list that is not empty
stays so, and its smallest stored distance does not grow. -/
def NearestKept (before after : Nat → List Node) : Prop :=
  ∀ u, ∀ n ∈ before u, ∃ m ∈ after u, m.distance ≤ n.distance


/-- A graph of maximum degree 0 holding the id 0: what `generate_one_route_graph` gives, once
an element is in it, when the maximum degree of the bottom graph is 1. -/
def zero_degree_graph : GraphInterface :=
  { maximum_degree := 0, total_count := 1, neighbors := [(0, [])] }

/-! ## The locks taken by one insertion -/

/-- The mutexes of `HGraphIndex` that `hnsw_add` and `mutually_connect_new_element` name:
`label_lookup_mutex_`, `global_mutex_`, the entry `label_op_mutex_[index]` and the per-point
entry `neighbors_mutex_[id]`. -/
inductive Mutex where
  | label_lookup_mutex_
  | global_mutex_
  | label_op_mutex_ (index : Nat)
  | neighbors_mutex_ (id : Nat)
  deriving DecidableEq, Repr

/-- What one thread does to the locks and to the adjacency: it locks or unlocks a mutex, or
calls `InsertNeighborsById(id, _)`, which rewrites the neighbour list of `id`. -/
inductive Event where
  | lock (m : Mutex)
  | unlock (m : Mutex)
  | write (id : Nat)
  deriving DecidableEq, Repr

/-- The events of the body of the loop over `selectedNeighbors` (lines 335-385) for one
`selectedNeighbor`: the `unique_lock` of line 336 locks `neighbors_mutex_[selectedNeighbor]`
and unlocks it when the scope is left, also by a `throw`; both branches of lines 359-382 end
with `InsertNeighborsById(selectedNeighbor, _)`. -/
def connect_neighbor_events (cur_c max_size : Nat) (is_update : Bool) (graph : GraphInterface)
    (selectedNeighbor : Nat) : List Event :=
  let neighbors := graph.GetNeighbors selectedNeighbor
  let sz_link_list_other := neighbors.length
  [.lock (.neighbors_mutex_ selectedNeighbor)] ++
    (if sz_link_list_other > max_size then []
     else if selectedNeighbor = cur_c then []
     else
       let is_cur_c_present := is_update && neighbors.contains cur_c
       if !is_cur_c_present then [.write selectedNeighbor] else []) ++
    [.unlock (.neighbors_mutex_ selectedNeighbor)]

/-- The events of the loop over `selectedNeighbors` (lines 335-385), up to the first error. -/
def connect_neighbors_events (cur_c max_size : Nat) (flatten : FlattenInterface)
    (is_update : Bool) : List Nat → GraphInterface → List Event
  | [], _ => []
  | selectedNeighbor :: rest, graph =>
    connect_neighbor_events cur_c max_size is_update graph selectedNeighbor ++
      match connect_neighbor cur_c max_size flatten is_update graph selectedNeighbor with
      | .error _ => []
      | .ok graph' => connect_neighbors_events cur_c max_size flatten is_update rest graph'

/-- The events of `HGraphIndex::mutually_connect_new_element`.  The `unique_lock` of line 328
is built with `std::defer_lock`, so it locks `neighbors_mutex_[cur_c]` only through the
`lock.lock()` of line 330, which runs `if (is_update)`; the scope of lines 325-333 encloses
`InsertNeighborsById(cur_c, selectedNeighbors)`. -/
def mutually_connect_events (cur_c : Nat) (top_candidates : MaxHeap) (graph : GraphInterface)
    (flatten : FlattenInterface) (is_update : Bool) : List Event :=
  let max_size := graph.MaximumDegree
  let selected := select_edges_by_heuristic top_candidates max_size flatten
  if selected.size > max_size then []
  else
    let selectedNeighbors := pop_ids selected
    match selectedNeighbors.getLast? with
    | none => []
    | some _ =>
      (if is_update then [.lock (.neighbors_mutex_ cur_c)] else []) ++
        [.write cur_c] ++
        (if is_update then [.unlock (.neighbors_mutex_ cur_c)] else []) ++
        connect_neighbors_events cur_c max_size flatten is_update selectedNeighbors
          (graph.InsertNeighborsById cur_c selectedNeighbors)

/-- The events of the insertion into one graph (lines 135-147 and 149-161): those of
`mutually_connect_new_element` in insert mode, or the `InsertNeighborsById(inner_id, {})` of
an empty graph. -/
def insert_into_graph_events (inner_id : Nat) (query : List Int) (flatten : FlattenInterface)
    (ef_construct : Nat) (graph : GraphInterface) (ep : Nat) (pool : VisitedListPool) :
    List Event :=
  if graph.TotalCount ≠ 0 then
    mutually_connect_events inner_id
      (search_one_graph pool query graph flatten ep ef_construct none).1 graph flatten false
  else [.write inner_id]

/-- The events of the loop `for (auto j = level; j >= 0; --j)` (lines 134-148), with the
arguments of `insert_route_layers`. -/
def insert_route_layers_events (inner_id : Nat) (query : List Int) (flatten : FlattenInterface)
    (ef_construct : Nat) :
    Nat → List GraphInterface × Nat × VisitedListPool → List Event
  | 0, _ => []
  | j + 1, s =>
    match s.1.get? j with
    | none => []
    | some graph =>
      insert_into_graph_events inner_id query flatten ef_construct graph s.2.1 s.2.2 ++
        match insert_into_graph inner_id query flatten ef_construct graph s.2.1 s.2.2 with
        | .error _ => []
        | .ok r =>
          insert_route_layers_events inner_id query flatten ef_construct j
            (s.1.set j r.1, r.2.1, r.2.2)

/-- The events of the scope of `lock_label` (lines 126-162): the searches write nothing and
lock nothing, the insertions go from the level `level` down to the bottom graph. -/
def label_scope_events (index : HGraphIndex) (data : List Int) (level : Int) (inner_id : Nat)
    (route_graphs : List GraphInterface) (max_level : Nat) : List Event :=
  let flatten := index.basic_flatten_codes_
  match descend_levels data flatten route_graphs (descent_levels max_level level)
      (index.enter_point_id_, index.pool_) with
  | .error _ => []
  | .ok s =>
    insert_route_layers_events inner_id data flatten index.ef_construct_ (level + 1).toNat
        (route_graphs, s.1, s.2) ++
      match insert_route_layers inner_id data flatten index.ef_construct_ (level + 1).toNat
          (route_graphs, s.1, s.2) with
      | .error _ => []
      | .ok r =>
        insert_into_graph_events inner_id data flatten index.ef_construct_ index.bottom_graph_
          r.2.1 r.2.2

/-- The events of the body of the loop of `hnsw_add` (lines 103-166) for one element, with the
arguments of `hnsw_add_one` and the constant `MAX_LABEL_OPERATION_LOCKS`.  The lock of
`label_lookup_mutex_` covers line 108 only; the `unique_lock` of `global_mutex_` (line 111) is
unlocked at line 120 unless `need_lock`, and otherwise when the body ends; `lock_label`
(line 124) covers lines 126-162.  No line locks `neighbors_mutex_[inner_id]`. -/
def hnsw_add_one_events (max_label_operation_locks : Nat) (index : HGraphIndex) (label : Int)
    (data : List Int) (level : Int) (inner_id : Nat) : List Event :=
  let need_lock : Bool :=
    decide (level ≥ Int.ofNat index.max_level_) || decide (index.bottom_graph_.TotalCount = 0)
  let route_graphs :=
    if need_lock then
      index.route_graphs_ ++
        List.replicate (level + 1 - Int.ofNat index.max_level_).toNat
          (generate_one_route_graph index)
    else index.route_graphs_
  let max_level := if need_lock then as_unsigned (level + 1) else index.max_level_
  [.lock .label_lookup_mutex_, .unlock .label_lookup_mutex_, .lock .global_mutex_] ++
    (if need_lock then [] else [.unlock .global_mutex_]) ++
    [.lock (.label_op_mutex_ (label_lock_index max_label_operation_locks label))] ++
    label_scope_events index data level inner_id route_graphs max_level ++
    [.unlock (.label_op_mutex_ (label_lock_index max_label_operation_locks label))] ++
    (if need_lock then [.unlock .global_mutex_] else [])

/-- The first adjacency write of a trace that happens while the per-point lock of the id it
writes is not held, `held` listing the mutexes held when the trace starts, each as many times
as it is locked. -/
def first_unlocked_write : List Mutex → List Event → Option Nat
  | _, [] => none
  | held, .lock m :: rest => first_unlocked_write (m :: held) rest
  | held, .unlock m :: rest => first_unlocked_write (held.erase m) rest
  | held, .write id :: rest =>
    if Mutex.neighbors_mutex_ id ∈ held then first_unlocked_write held rest else some id

/-- The lock discipline of the spec, from its words: "adjacency mutation always occurs under
the per-point lock of the id whose list is being rewritten", for the trace of one thread that
starts holding no lock. -/
def WritesUnderLock (trace : List Event) : Prop := first_unlocked_write [] trace = none

/-- A fourth point, at 30, for the index over the triangle. -/
def fourth_point : Int × List Int := (400, [30])


/-! ## Predicates on the search: reachable ids and expanded candidates -/

/-- The id `u` is the entry point `ep`, or is reached from it by a path of stored neighbour
links of the graph. -/
inductive Reachable (graph : GraphInterface) (ep : Nat) : Nat → Prop where
  | entry : Reachable graph ep ep
  | link (w u : Nat) : Reachable graph ep w → u ∈ graph.GetNeighbors w → Reachable graph ep u

/-- What the loop over the freshly tagged ids keeps of `(candidate_set, cur_result)`: the
candidate set is a valid heap of ids that satisfy `P`; every entry of `cur_result` is an id
that satisfies `P`, paired with its distance to the query, and is either an id of `X` or still
waiting in `candidate_set`. -/
def OfferLink (P : Nat → Prop) (qdist : Nat → Int) (X : List Nat)
    (s : MaxHeap × MaxHeap × Int) : Prop :=
  MaxHeap.Valid s.1 ∧ (∀ c ∈ s.1, P c.2) ∧
  ∀ c ∈ s.2.1, P c.2 ∧ c.1 = qdist c.2 ∧ (c.2 ∈ X ∨ (-c.1, c.2) ∈ s.1)

/-- What the `while` loop of `search_one_graph` keeps, `X` listing the ids it has expanded
(taken from `candidate_set`, their neighbour list scanned): the candidates are reachable, the
results are reachable, carry their distance to the query, and are expanded or still
candidates; every neighbour of an expanded id carries the tag; and an id that carries the tag
carried it before the search (in `mass0`) or is reachable. -/
def SearchExpand (qdist : Nat → Int) (graph : GraphInterface) (ep tag : Nat)
    (mass0 : Nat → Nat) (X : List Nat) (st : SearchState) : Prop :=
  OfferLink (Reachable graph ep) qdist X (st.candidate_set, st.cur_result, st.lower_bound) ∧
  (∀ x ∈ X, ∀ v ∈ graph.GetNeighbors x, st.visited_array v = tag) ∧
  (∀ u, st.visited_array u = tag → mass0 u = tag ∨ Reachable graph ep u)


/-- The state of a pool in which no tag of the buffer exceeds the current tag: the state of a
pool never used, which every search keeps. -/
def VisitedListPool.WellFormed (p : VisitedListPool) : Prop :=
  ∀ u, p.buffer.mass u ≤ p.buffer.curV


/-! ## The comparison of the priority queue as a parameter

The declaration of `MaxHeap` (in `hgraph_index.h`) is not among the sources, and with it the
comparison that decides which of two pairs of equal distance a priority queue delivers first.
Where that order decides a result, the functions are taken with the comparison as the
parameter `lt`: the same source lines as `search_one_graph` and `select_edges_by_heuristic`,
every `emplace` being `emplace_by lt`.  With `pair_lt` they are the functions above; with
`dist_lt` they follow the tie rule that the spec states. -/

namespace MaxHeap

/-- The `emplace(d, id)` of a priority queue whose comparison is `lt`: the new pair is placed
in front of the first element that is smaller than it. -/
def emplace_by (lt : Candidate → Candidate → Bool) : MaxHeap → Int → Nat → MaxHeap
  | [], d, id => [(d, id)]
  | x :: xs, d, id =>
    if lt x (d, id) then (d, id) :: x :: xs else x :: emplace_by lt xs d id

end MaxHeap

/-- The function `offer` (lines 245-257) for a priority queue whose comparison is `lt`. -/
def offer_by (lt : Candidate → Candidate → Bool) (ef : Nat) (dist : Int) (v : Nat)
    (s : MaxHeap × MaxHeap × Int) : MaxHeap × MaxHeap × Int :=
  if s.2.1.size < ef ∨ s.2.2 > dist then
    let candidate_set := s.1.emplace_by lt (-dist) v
    let pushed := s.2.1.emplace_by lt dist v
    let cur_result := if pushed.size > ef then pushed.pop else pushed
    let lower_bound :=
      match cur_result.top? with
      | some t => t.1
      | none => s.2.2
    (candidate_set, cur_result, lower_bound)
  else s

/-- The function `offer_all` (lines 244-258) for the comparison `lt`. -/
def offer_all_by (lt : Candidate → Candidate → Bool) (qdist : Nat → Int) (ef : Nat) :
    List Nat → MaxHeap × MaxHeap × Int → MaxHeap × MaxHeap × Int
  | [], s => s
  | v :: rest, s => offer_all_by lt qdist ef rest (offer_by lt ef (qdist v) v s)

/-- The function `search_step` (lines 206-258) for the comparison `lt`. -/
def search_step_by (lt : Candidate → Candidate → Bool) (qdist : Nat → Int)
    (graph : GraphInterface) (ef tag : Nat) (st : SearchState) : Option SearchState :=
  match st.candidate_set.top? with
  | none => none
  | some current_node_pair =>
    if -current_node_pair.1 > st.lower_bound ∧ st.cur_result.size = ef then none
    else
      let popped := st.candidate_set.pop
      let neighbors := graph.GetNeighbors current_node_pair.2
      let scan := collect_unvisited tag neighbors st.visited_array []
      let s := offer_all_by lt qdist ef scan.1 (popped, st.cur_result, st.lower_bound)
      some { candidate_set := s.1, cur_result := s.2.1, lower_bound := s.2.2,
             visited_array := scan.2 }

/-- The function `search_loop` for the comparison `lt`. -/
def search_loop_by (lt : Candidate → Candidate → Bool) (qdist : Nat → Int)
    (graph : GraphInterface) (ef tag : Nat) : Nat → SearchState → SearchState
  | 0, st => st
  | fuel + 1, st =>
    match search_step_by lt qdist graph ef tag st with
    | none => st
    | some st' => search_loop_by lt qdist graph ef tag fuel st'

/-- The function `search_init` (lines 190-199) for the comparison `lt`. -/
def search_init_by (lt : Candidate → Candidate → Bool) (qdist : Nat → Int) (ep : Nat)
    (visited_list : VisitedList) : SearchState :=
  let dist := qdist ep
  let cur_result := MaxHeap.emplace_by lt [] dist ep
  let candidate_set := MaxHeap.emplace_by lt [] (-dist) ep
  let visited_array := Function.update visited_list.mass ep visited_list.curV
  let lower_bound :=
    match cur_result.top? with
    | some t => t.1
    | none => dist
  { candidate_set := candidate_set, cur_result := cur_result, lower_bound := lower_bound,
    visited_array := visited_array }

/-- The function `search_final` for the comparison `lt`. -/
def search_final_by (lt : Candidate → Candidate → Bool) (query : List Int)
    (graph : GraphInterface) (flatten : FlattenInterface) (ep ef : Nat)
    (visited_list : VisitedList) : SearchState :=
  search_loop_by lt (flatten.Query query) graph ef visited_list.curV (search_fuel graph)
    (search_init_by lt (flatten.Query query) ep visited_list)

/-- The function `HGraphIndex::search_one_graph` for a priority queue whose comparison is
`lt`: the returned heap `cur_result`, and the pool after the visited list went back to it. -/
def search_one_graph_by (lt : Candidate → Candidate → Bool) (pool : VisitedListPool)
    (query : List Int) (graph : GraphInterface) (flatten : FlattenInterface) (ep ef : Nat)
    (isIdAllowed : Option (Nat → Bool)) : MaxHeap × VisitedListPool :=
  let visited_list := pool.getFreeVisitedList
  let final := search_final_by lt query graph flatten ep ef visited_list
  (final.cur_result,
    pool.releaseVisitedList { visited_list with mass := final.visited_array })

/-- The first loop of the heuristic (lines 274-277) for the comparison `lt`. -/
def drain_negated_by (lt : Candidate → Candidate → Bool) : MaxHeap → MaxHeap → MaxHeap
  | [], queue_closest => queue_closest
  | top :: rest, queue_closest =>
    drain_negated_by lt rest (queue_closest.emplace_by lt (-top.1) top.2)

/-- The third loop of the heuristic (lines 299-301) for the comparison `lt`. -/
def refill_by (lt : Candidate → Candidate → Bool) : List Candidate → MaxHeap → MaxHeap
  | [], edges => edges
  | curent_pair :: rest, edges =>
    refill_by lt rest (edges.emplace_by lt (-curent_pair.1) curent_pair.2)

/-- The function `HGraphIndex::select_edges_by_heuristic` for a priority queue whose
comparison is `lt`: the content of `edges` when it returns. -/
def select_edges_by_heuristic_by (lt : Candidate → Candidate → Bool) (edges : MaxHeap)
    (max_size : Nat) (flatten : FlattenInterface) : MaxHeap :=
  if edges.size < max_size then edges
  else refill_by lt (select_loop flatten max_size (drain_negated_by lt edges []) []) []

/-- Scenario S3: the candidate heap of a priority queue whose comparison is `lt`, the five
candidates emplaced in the listed order. -/
def s3_edges_by (lt : Candidate → Candidate → Bool) (i0 i1 i2 i3 i4 : Nat) : MaxHeap :=
  ((((MaxHeap.emplace_by lt [] 1000 i0).emplace_by lt 1000 i1).emplace_by lt 1000 i2).emplace_by
    lt 1000 i3).emplace_by lt 1000 i4

theorem pair_lt_iff (a b : Candidate) :
    pair_lt a b = true ↔ a.1 < b.1 ∨ (a.1 = b.1 ∧ a.2 < b.2) := by
  unfold pair_lt
  simp only [Bool.or_eq_true, Bool.and_eq_true, Bool.not_eq_true', decide_eq_true_eq,
    decide_eq_false_iff_not]
  constructor
  · rintro (h | ⟨h1, h2⟩)
    · exact Or.inl h
    · rcases lt_or_eq_of_le (not_lt.mp h1) with h | h
      · exact Or.inl h
      · exact Or.inr ⟨h, h2⟩
  · rintro (h | ⟨h1, h2⟩)
    · exact Or.inl h
    · exact Or.inr ⟨by omega, h2⟩

theorem pair_lt_eq_false_iff (a b : Candidate) :
    pair_lt a b = false ↔ b.1 < a.1 ∨ (a.1 = b.1 ∧ b.2 ≤ a.2) := by
  rw [← Bool.not_eq_true, pair_lt_iff]
  constructor
  · intro h
    by_contra hc
    apply h
    rcases lt_trichotomy a.1 b.1 with h1 | h1 | h1
    · exact Or.inl h1
    · refine Or.inr ⟨h1, ?_⟩
      by_contra h2
      exact hc (Or.inr ⟨h1, by omega⟩)
    · exact absurd (Or.inl h1) hc
  · rintro (h | ⟨h1, h2⟩) (h3 | ⟨h3, h4⟩) <;> omega

theorem pair_lt_false_trans {a b c : Candidate} (hab : pair_lt a b = false)
    (hbc : pair_lt b c = false) : pair_lt a c = false := by
  rw [pair_lt_eq_false_iff] at *
  rcases hab with h | ⟨h1, h2⟩ <;> rcases hbc with h3 | ⟨h3, h4⟩
  · exact Or.inl (by omega)
  · exact Or.inl (by omega)
  · exact Or.inl (by omega)
  · exact Or.inr ⟨by omega, by omega⟩

theorem pair_lt_false_antisymm {a b : Candidate} (hab : pair_lt a b = false)
    (hba : pair_lt b a = false) : a = b := by
  rw [pair_lt_eq_false_iff] at *
  rcases hab with h | ⟨h1, h2⟩ <;> rcases hba with h3 | ⟨h3, h4⟩
  · omega
  · omega
  · omega
  · exact Prod.ext h1 (by omega)

theorem pair_lt_true_false {a b : Candidate} (hab : pair_lt a b = true) :
    pair_lt b a = false := by
  rw [pair_lt_iff] at hab
  rw [pair_lt_eq_false_iff]
  rcases hab with h | ⟨h1, h2⟩
  · exact Or.inl h
  · exact Or.inr ⟨h1.symm, by omega⟩

namespace MaxHeap

theorem emplace_length (h : MaxHeap) (d : Int) (id : Nat) :
    (emplace h d id).length = h.length + 1 := by
  induction h with
  | nil => rfl
  | cons x xs ih =>
    unfold emplace
    split_ifs <;> simp [ih]

theorem emplace_perm (h : MaxHeap) (d : Int) (id : Nat) :
    List.Perm (emplace h d id) ((d, id) :: h) := by
  induction h with
  | nil => exact List.Perm.refl _
  | cons x xs ih =>
    unfold emplace
    split_ifs
    · exact List.Perm.refl _
    · exact (List.Perm.cons x ih).trans (List.Perm.swap _ _ _)

theorem mem_emplace {h : MaxHeap} {d : Int} {id : Nat} {c : Candidate} :
    c ∈ emplace h d id ↔ c = (d, id) ∨ c ∈ h := by
  rw [(emplace_perm h d id).mem_iff, List.mem_cons]

theorem emplace_ne_nil (h : MaxHeap) (d : Int) (id : Nat) : emplace h d id ≠ [] := by
  intro hc
  have := emplace_length h d id
  rw [hc] at this
  simp at this

theorem emplace_valid {h : MaxHeap} (hv : Valid h) (d : Int) (id : Nat) :
    Valid (emplace h d id) := by
  induction h with
  | nil => simp [emplace, Valid]
  | cons x xs ih =>
    unfold Valid at hv
    rw [List.pairwise_cons] at hv
    unfold emplace
    split_ifs with hlt
    · unfold Valid
      rw [List.pairwise_cons, List.pairwise_cons]
      refine ⟨?_, hv⟩
      intro b hb
      rcases List.mem_cons.mp hb with rfl | hb
      · exact pair_lt_true_false hlt
      · exact pair_lt_false_trans (pair_lt_true_false hlt) (hv.1 b hb)
    · unfold Valid
      rw [List.pairwise_cons]
      refine ⟨?_, ih hv.2⟩
      intro b hb
      rcases mem_emplace.mp hb with rfl | hb
      · simpa using hlt
      · exact hv.1 b hb

theorem pop_valid {h : MaxHeap} (hv : Valid h) : Valid (pop h) := by
  unfold Valid pop at *
  exact hv.tail

theorem valid_nil : Valid [] := List.Pairwise.nil

end MaxHeap

/-! ## Invariants of the search loop -/

theorem offer_cur_result (ef : Nat) (dist : Int) (v : Nat) (s : MaxHeap × MaxHeap × Int) :
    (offer ef dist v s).2.1 =
      if s.2.1.size < ef ∨ s.2.2 > dist then
        (if (s.2.1.emplace dist v).size > ef then (s.2.1.emplace dist v).pop
          else s.2.1.emplace dist v)
      else s.2.1 := by
  unfold offer
  by_cases hc : s.2.1.size < ef ∨ s.2.2 > dist
  · rw [if_pos hc, if_pos hc]
  · rw [if_neg hc, if_neg hc]

theorem offer_candidate_set (ef : Nat) (dist : Int) (v : Nat) (s : MaxHeap × MaxHeap × Int) :
    (offer ef dist v s).1 =
      if s.2.1.size < ef ∨ s.2.2 > dist then s.1.emplace (-dist) v else s.1 := by
  unfold offer
  by_cases hc : s.2.1.size < ef ∨ s.2.2 > dist
  · rw [if_pos hc, if_pos hc]
  · rw [if_neg hc, if_neg hc]

theorem offer_inv (ef : Nat) (dist : Int) (v : Nat) (s : MaxHeap × MaxHeap × Int)
    (h : ResultInv ef s.2.1) : ResultInv ef (offer ef dist v s).2.1 := by
  rw [offer_cur_result]
  obtain ⟨hv, hne, hlen⟩ := h
  have hl := MaxHeap.emplace_length s.2.1 dist v
  have hpos : 0 < s.2.1.length := List.length_pos.mpr hne
  split_ifs with hc hsz
  · refine ⟨MaxHeap.pop_valid (MaxHeap.emplace_valid hv dist v), ?_, ?_⟩
    · intro hnil
      have h2 : (MaxHeap.pop (MaxHeap.emplace s.2.1 dist v)).length = s.2.1.length := by
        simp [MaxHeap.pop, hl]
      rw [hnil] at h2
      simp at h2
      omega
    · simp only [MaxHeap.pop, List.length_tail, hl]
      simpa using hlen
  · refine ⟨MaxHeap.emplace_valid hv dist v, MaxHeap.emplace_ne_nil _ _ _, ?_⟩
    simp only [MaxHeap.size, hl, gt_iff_lt, not_lt] at hsz
    rw [hl]
    exact le_trans hsz (le_max_left _ _)
  · exact ⟨hv, hne, hlen⟩

theorem offer_all_inv (qdist : Nat → Int) (ef : Nat) (l : List Nat)
    (s : MaxHeap × MaxHeap × Int) (h : ResultInv ef s.2.1) :
    ResultInv ef (offer_all qdist ef l s).2.1 := by
  induction l generalizing s with
  | nil => exact h
  | cons v rest ih => exact ih _ (offer_inv ef (qdist v) v s h)

theorem search_step_inv (qdist : Nat → Int) (graph : GraphInterface) (ef tag : Nat)
    (st st' : SearchState) (hstep : search_step qdist graph ef tag st = some st')
    (h : ResultInv ef st.cur_result) : ResultInv ef st'.cur_result := by
  unfold search_step at hstep
  split at hstep
  · exact absurd hstep (by simp)
  · split_ifs at hstep
    simp only [Option.some.injEq] at hstep
    subst hstep
    exact offer_all_inv qdist ef _ _ h

theorem search_loop_inv (qdist : Nat → Int) (graph : GraphInterface) (ef tag : Nat)
    (fuel : Nat) (st : SearchState) (h : ResultInv ef st.cur_result) :
    ResultInv ef (search_loop qdist graph ef tag fuel st).cur_result := by
  induction fuel generalizing st with
  | zero => exact h
  | succ n ih =>
    unfold search_loop
    split
    · exact h
    · next st' hstep => exact ih st' (search_step_inv qdist graph ef tag st st' hstep h)

theorem search_init_inv (qdist : Nat → Int) (ep : Nat) (vl : VisitedList) (ef : Nat) :
    ResultInv ef (search_init qdist ep vl).cur_result := by
  refine ⟨?_, ?_, ?_⟩
  · simp [search_init, MaxHeap.emplace, MaxHeap.Valid]
  · simp [search_init, MaxHeap.emplace]
  · simp [search_init, MaxHeap.emplace]

/-- The result of `search_one_graph` is the same whatever filter is passed. -/
theorem search_one_graph_filter_irrelevant (pool : VisitedListPool) (query : List Int)
    (graph : GraphInterface) (flatten : FlattenInterface) (ep ef : Nat)
    (isIdAllowed : Option (Nat → Bool)) :
    search_one_graph pool query graph flatten ep ef isIdAllowed =
      search_one_graph pool query graph flatten ep ef none := rfl

theorem search_one_graph_inv (pool : VisitedListPool) (query : List Int)
    (graph : GraphInterface) (flatten : FlattenInterface) (ep ef : Nat)
    (isIdAllowed : Option (Nat → Bool)) :
    ResultInv ef (search_one_graph pool query graph flatten ep ef isIdAllowed).1 := by
  unfold search_one_graph search_final
  exact search_loop_inv _ _ _ _ _ _ (search_init_inv _ _ _ _)

/-! ## Termination of the search loop -/

theorem getNeighbors_subset (graph : GraphInterface) (id : Nat) :
    ∀ n ∈ graph.GetNeighbors id, n ∈ stored_ids graph := by
  intro n hn
  unfold GraphInterface.GetNeighbors at hn
  split at hn
  · next l hl =>
    unfold stored_ids
    rw [List.mem_flatten]
    refine ⟨l, ?_, hn⟩
    rw [List.mem_map]
    have : ∃ k, (k, l) ∈ graph.neighbors := by
      generalize graph.neighbors = es at hl
      induction es with
      | nil => simp at hl
      | cons e es ih =>
        rw [List.lookup_cons] at hl
        split at hl
        · simp only [Option.some.injEq] at hl
          exact ⟨e.1, by rw [← hl]; exact List.mem_cons_self _ _⟩
        · obtain ⟨k, hk⟩ := ih hl
          exact ⟨k, List.mem_cons_of_mem _ hk⟩
    obtain ⟨k, hk⟩ := this
    exact ⟨(k, l), hk, rfl⟩
  · simp at hn

theorem countP_update_lt (ids : List Nat) (tag : Nat) (va : Nat → Nat) (n : Nat)
    (hn : n ∈ ids) (hva : va n ≠ tag) :
    ids.countP (fun u => decide (Function.update va n tag u ≠ tag)) + 1 ≤
      ids.countP (fun u => decide (va u ≠ tag)) := by
  have hle : ∀ l : List Nat, l.countP (fun u => decide (Function.update va n tag u ≠ tag)) ≤
      l.countP (fun u => decide (va u ≠ tag)) := by
    intro l
    apply List.countP_mono_left
    intro u _ hu
    simp only [ne_eq, decide_eq_true_eq] at hu ⊢
    intro h
    apply hu
    by_cases hun : u = n
    · subst hun; simp
    · rw [Function.update_noteq hun]; exact h
  induction ids with
  | nil => simp at hn
  | cons x xs ih =>
    rw [List.countP_cons, List.countP_cons]
    by_cases hx : x = n
    · subst hx
      have := hle xs
      have e1 : decide (Function.update va x tag x ≠ tag) = false := by simp
      have e2 : decide (va x ≠ tag) = true := by simpa using hva
      simp only [e1, e2, if_true, Bool.false_eq_true, if_false]
      omega
    · have hmem : n ∈ xs := by
        rcases List.mem_cons.mp hn with h | h
        · exact absurd h.symm hx
        · exact h
      have := ih hmem
      rw [Function.update_noteq hx]
      omega

theorem collect_unvisited_count (ids : List Nat) (tag : Nat) (nbrs : List Nat)
    (va : Nat → Nat) (acc : List Nat) (hsub : ∀ n ∈ nbrs, n ∈ ids) :
    (collect_unvisited tag nbrs va acc).1.length +
        ids.countP (fun u => decide ((collect_unvisited tag nbrs va acc).2 u ≠ tag)) ≤
      acc.length + ids.countP (fun u => decide (va u ≠ tag)) := by
  induction nbrs generalizing va acc with
  | nil => exact le_refl _
  | cons n rest ih =>
    unfold collect_unvisited
    split_ifs with h
    · have h1 := ih (Function.update va n tag) (acc ++ [n])
        (fun m hm => hsub m (List.mem_cons_of_mem _ hm))
      have h2 := countP_update_lt ids tag va n (hsub n (List.mem_cons_self _ _)) h
      simp only [List.length_append, List.length_singleton] at h1
      omega
    · exact ih va acc (fun m hm => hsub m (List.mem_cons_of_mem _ hm))

theorem offer_candidate_length (ef : Nat) (dist : Int) (v : Nat) (s : MaxHeap × MaxHeap × Int) :
    (offer ef dist v s).1.length ≤ s.1.length + 1 := by
  rw [offer_candidate_set]
  split_ifs
  · rw [MaxHeap.emplace_length]
  · omega

theorem offer_all_candidate_length (qdist : Nat → Int) (ef : Nat) (l : List Nat)
    (s : MaxHeap × MaxHeap × Int) :
    (offer_all qdist ef l s).1.length ≤ s.1.length + l.length := by
  induction l generalizing s with
  | nil => exact le_refl _
  | cons v rest ih =>
    have h1 := ih (offer ef (qdist v) v s)
    have h2 := offer_candidate_length ef (qdist v) v s
    simp only [offer_all, List.length_cons]
    omega

theorem search_step_measure (qdist : Nat → Int) (graph : GraphInterface) (ef tag : Nat)
    (st st' : SearchState) (hstep : search_step qdist graph ef tag st = some st') :
    search_measure graph tag st' + 1 ≤ search_measure graph tag st := by
  unfold search_step at hstep
  split at hstep
  · exact absurd hstep (by simp)
  · next top htop =>
    split_ifs at hstep
    simp only [Option.some.injEq] at hstep
    subst hstep
    unfold search_measure untagged
    simp only
    have h1 := offer_all_candidate_length qdist ef
      (collect_unvisited tag (graph.GetNeighbors top.2) st.visited_array []).1
      (MaxHeap.pop st.candidate_set, st.cur_result, st.lower_bound)
    have h2 := collect_unvisited_count (stored_ids graph) tag (graph.GetNeighbors top.2)
      st.visited_array [] (getNeighbors_subset graph top.2)
    have h3 : (MaxHeap.pop st.candidate_set).length + 1 = st.candidate_set.length := by
      unfold MaxHeap.top? at htop
      unfold MaxHeap.pop
      cases hc : st.candidate_set with
      | nil => rw [hc] at htop; simp at htop
      | cons x xs => simp
    simp only [List.length_nil] at h2
    simp only at h1
    omega

theorem search_loop_terminal (qdist : Nat → Int) (graph : GraphInterface) (ef tag : Nat)
    (fuel : Nat) (st : SearchState) (h : search_measure graph tag st ≤ fuel) :
    search_step qdist graph ef tag (search_loop qdist graph ef tag fuel st) = none := by
  induction fuel generalizing st with
  | zero =>
    unfold search_loop
    unfold search_measure at h
    have hc : st.candidate_set = [] := List.length_eq_zero.mp (by omega)
    unfold search_step
    rw [hc]
    rfl
  | succ n ih =>
    unfold search_loop
    split
    · next hnone => exact hnone
    · next st' hstep =>
      apply ih
      have := search_step_measure qdist graph ef tag st st' hstep
      omega

/-- The fuel of `search_final` is enough: the state it returns is one in which the `while`
loop of the source ends, on an empty `candidate_set` or on the `break`. -/
theorem search_final_terminal (query : List Int) (graph : GraphInterface)
    (flatten : FlattenInterface) (ep ef : Nat) (visited_list : VisitedList) :
    search_step (flatten.Query query) graph ef visited_list.curV
      (search_final query graph flatten ep ef visited_list) = none := by
  unfold search_final
  apply search_loop_terminal
  unfold search_measure untagged search_fuel search_init
  simp only [MaxHeap.emplace, List.length_singleton]
  have h1 := List.countP_le_length
    (fun u => decide (Function.update visited_list.mass ep visited_list.curV u ≠ visited_list.curV))
    (l := stored_ids graph)
  have h2 : (stored_ids graph).length = (graph.neighbors.map (fun e => e.2.length)).sum := by
    unfold stored_ids
    rw [List.length_flatten, List.map_map]
    rfl
  omega

/-! ## The k-NN query -/

theorem pop_down_to_length (k : Nat) (h : MaxHeap) :
    (pop_down_to k h).length = min k h.length := by
  induction h with
  | nil => simp [pop_down_to]
  | cons x xs ih =>
    unfold pop_down_to
    split_ifs with hc
    · rw [ih]
      simp only [MaxHeap.size, List.length_cons] at hc
      simp only [List.length_cons]
      omega
    · simp only [MaxHeap.size, List.length_cons] at hc
      simp only [List.length_cons]
      omega

theorem pop_down_to_sublist (k : Nat) (h : MaxHeap) : List.Sublist (pop_down_to k h) h := by
  induction h with
  | nil => simp [pop_down_to]
  | cons x xs ih =>
    unfold pop_down_to
    split_ifs
    · exact ih.trans (List.sublist_cons_self x xs)
    · exact List.Sublist.refl _

theorem fill_positions_eq_reverse (h : MaxHeap) : fill_positions h = h.reverse := by
  induction h with
  | nil => rfl
  | cons x xs ih => simp [fill_positions, ih]

theorem valid_reverse_sorted {h : MaxHeap} (hv : MaxHeap.Valid h) :
    List.Sorted (· ≤ ·) (h.reverse.map (fun p => p.1)) := by
  unfold List.Sorted
  rw [List.pairwise_map, List.pairwise_reverse]
  refine List.Pairwise.imp ?_ hv
  intro a b hab
  rw [pair_lt_eq_false_iff] at hab
  rcases hab with h1 | ⟨h1, _⟩ <;> omega

theorem as_unsigned_of_nonneg (k : Int) (h0 : 0 ≤ k) (h1 : k < 18446744073709551616) :
    as_unsigned k = k.toNat := by
  unfold as_unsigned
  rw [Int.emod_eq_of_lt h0 h1]

/-! ## The three loops of the heuristic -/

theorem negated_negated (p : Candidate) : negated (negated p) = p := by
  simp [negated]

theorem map_negated_negated (l : List Candidate) : (l.map negated).map negated = l := by
  simp [List.map_map, Function.comp_def, negated_negated]

theorem drain_negated_perm (edges queue : MaxHeap) :
    List.Perm (drain_negated edges queue) (edges.map negated ++ queue) := by
  induction edges generalizing queue with
  | nil => simp [drain_negated]
  | cons x xs ih =>
    unfold drain_negated
    refine (ih _).trans ?_
    refine (List.Perm.append_left _ (MaxHeap.emplace_perm queue (-x.1) x.2)).trans ?_
    simp only [List.map_cons]
    exact List.perm_middle

theorem drain_negated_valid (edges queue : MaxHeap) (hq : MaxHeap.Valid queue) :
    MaxHeap.Valid (drain_negated edges queue) := by
  induction edges generalizing queue with
  | nil => exact hq
  | cons x xs ih => exact ih _ (MaxHeap.emplace_valid hq _ _)

theorem refill_perm (l : List Candidate) (edges : MaxHeap) :
    List.Perm (refill l edges) (l.map negated ++ edges) := by
  induction l generalizing edges with
  | nil => simp [refill]
  | cons x xs ih =>
    unfold refill
    refine (ih _).trans ?_
    refine (List.Perm.append_left _ (MaxHeap.emplace_perm edges (-x.1) x.2)).trans ?_
    simp only [List.map_cons]
    exact List.perm_middle

theorem refill_valid (l : List Candidate) (edges : MaxHeap) (he : MaxHeap.Valid edges) :
    MaxHeap.Valid (refill l edges) := by
  induction l generalizing edges with
  | nil => exact he
  | cons x xs ih => exact ih _ (MaxHeap.emplace_valid he _ _)

theorem select_loop_length (flatten : FlattenInterface) (max_size : Nat) (queue : MaxHeap)
    (ret : List Candidate) (h : ret.length ≤ max_size) :
    (select_loop flatten max_size queue ret).length ≤ max_size := by
  induction queue generalizing ret with
  | nil => exact h
  | cons c rest ih =>
    unfold select_loop
    split_ifs with h1 h2
    · exact h
    · apply ih
      simp only [List.length_append, List.length_singleton]
      omega
    · exact ih _ h

/-- The final `return_list` extends the initial one by a sublist of the queue. -/
theorem select_loop_sublist (flatten : FlattenInterface) (max_size : Nat) (queue : MaxHeap)
    (ret : List Candidate) :
    ∃ kept, select_loop flatten max_size queue ret = ret ++ kept ∧ List.Sublist kept queue := by
  induction queue generalizing ret with
  | nil => exact ⟨[], by simp [select_loop], List.Sublist.refl _⟩
  | cons c rest ih =>
    unfold select_loop
    split_ifs with h1 h2
    · exact ⟨[], by simp, List.nil_sublist _⟩
    · obtain ⟨kept, hk, hs⟩ := ih (ret ++ [c])
      exact ⟨c :: kept, by rw [hk]; simp, hs.cons₂ c⟩
    · obtain ⟨kept, hk, hs⟩ := ih ret
      exact ⟨kept, hk, hs.cons c⟩

theorem select_edges_subperm (edges : MaxHeap) (max_size : Nat) (flatten : FlattenInterface) :
    List.Subperm (select_edges_by_heuristic edges max_size flatten) edges := by
  unfold select_edges_by_heuristic
  split_ifs
  · exact List.Subperm.refl _
  · obtain ⟨kept, hk, hs⟩ := select_loop_sublist flatten max_size (drain_negated edges []) []
    rw [hk]
    simp only [List.nil_append]
    have h1 : List.Perm (refill kept []) (kept.map negated) := by
      simpa using refill_perm kept []
    have h2 : List.Sublist (kept.map negated) ((drain_negated edges []).map negated) :=
      hs.map negated
    have h3 : List.Perm ((drain_negated edges []).map negated) edges := by
      have := (drain_negated_perm edges []).map negated
      rw [List.append_nil, map_negated_negated] at this
      exact this
    exact (h1.subperm.trans h2.subperm).trans h3.subperm

theorem select_edges_length (edges : MaxHeap) (max_size : Nat) (flatten : FlattenInterface) :
    (select_edges_by_heuristic edges max_size flatten).length ≤ max_size := by
  unfold select_edges_by_heuristic
  split_ifs with h
  · exact le_of_lt h
  · rw [(refill_perm _ []).length_eq]
    simpa using select_loop_length flatten max_size (drain_negated edges []) [] (Nat.zero_le _)

/-! ## The heuristic against the greedy reference -/

theorem is_good_iff (flatten : FlattenInterface) (c : Candidate) (ret : List Candidate) :
    is_good flatten c ret = true ↔
      ∀ s ∈ ret, ¬ flatten.ComputePairVectors s.2 c.2 < -c.1 := by
  induction ret with
  | nil => simp [is_good]
  | cons s rest ih =>
    unfold is_good
    split_ifs with h
    · simp only [Bool.false_eq_true, List.mem_cons, forall_eq_or_imp, false_iff, not_and]
      intro h1
      exact absurd h h1
    · rw [ih]
      simp only [List.mem_cons, forall_eq_or_imp]
      exact ⟨fun h2 => ⟨h, h2⟩, fun h2 => h2.2⟩

theorem greedy_reference_nil (d : Nat → Nat → Int) (max_size : Nat) (kept : List Candidate) :
    greedy_reference d max_size [] kept = kept := rfl

theorem greedy_reference_cons (d : Nat → Nat → Int) (max_size : Nat) (c : Candidate)
    (rest kept : List Candidate) :
    greedy_reference d max_size (c :: rest) kept =
      if kept.length = max_size then kept
      else if ∀ k ∈ kept, d c.2 k.2 ≥ c.1 then greedy_reference d max_size rest (kept ++ [c])
      else greedy_reference d max_size rest kept := rfl

theorem greedy_reference_full (d : Nat → Nat → Int) (max_size : Nat)
    (rest kept : List Candidate) (h : kept.length = max_size) :
    greedy_reference d max_size rest kept = kept := by
  cases rest with
  | nil => rfl
  | cons r rs => rw [greedy_reference_cons, if_pos h]

theorem greedy_reference_append (d : Nat → Nat → Int) (max_size : Nat)
    (pre rest kept : List Candidate) :
    greedy_reference d max_size (pre ++ rest) kept =
      greedy_reference d max_size rest (greedy_reference d max_size pre kept) := by
  induction pre generalizing kept with
  | nil => rfl
  | cons c pre ih =>
    rw [List.cons_append, greedy_reference_cons, greedy_reference_cons]
    split_ifs with h1 h2
    · exact (greedy_reference_full d max_size rest kept h1).symm
    · exact ih _
    · exact ih _

theorem select_loop_nil (flatten : FlattenInterface) (max_size : Nat) (ret : List Candidate) :
    select_loop flatten max_size [] ret = ret := rfl

theorem select_loop_cons (flatten : FlattenInterface) (max_size : Nat) (c : Candidate)
    (rest : MaxHeap) (ret : List Candidate) :
    select_loop flatten max_size (c :: rest) ret =
      if ret.length ≥ max_size then ret
      else if is_good flatten c ret then select_loop flatten max_size rest (ret ++ [c])
      else select_loop flatten max_size rest ret := rfl

theorem select_loop_eq_greedy (flatten : FlattenInterface) (max_size : Nat)
    (hsym : ∀ a b, flatten.ComputePairVectors a b = flatten.ComputePairVectors b a)
    (queue : MaxHeap) (ret : List Candidate) (hlen : ret.length ≤ max_size) :
    select_loop flatten max_size queue ret =
      (greedy_reference flatten.ComputePairVectors max_size (queue.map negated)
        (ret.map negated)).map negated := by
  induction queue generalizing ret with
  | nil => rw [select_loop_nil, List.map_nil, greedy_reference_nil, map_negated_negated]
  | cons c rest ih =>
    rw [List.map_cons, select_loop_cons, greedy_reference_cons]
    by_cases h1 : ret.length ≥ max_size
    · have e1 : (ret.map negated).length = max_size := by
        rw [List.length_map]; omega
      rw [if_pos h1, if_pos e1, map_negated_negated]
    · have e1 : ¬ (ret.map negated).length = max_size := by
        rw [List.length_map]; omega
      rw [if_neg h1, if_neg e1]
      have hgood : is_good flatten c ret = true ↔
          ∀ k ∈ ret.map negated, flatten.ComputePairVectors (negated c).2 k.2 ≥ (negated c).1 := by
        rw [is_good_iff]
        simp only [List.mem_map, forall_exists_index, and_imp, forall_apply_eq_imp_iff₂,
          negated, not_lt, ge_iff_le]
        constructor
        · intro h s hs
          rw [hsym]
          exact h s hs
        · intro h s hs
          rw [hsym]
          exact h s hs
      by_cases h2 : is_good flatten c ret = true
      · rw [if_pos h2, if_pos (hgood.mp h2)]
        rw [ih (ret ++ [c]) (by simp only [List.length_append, List.length_singleton]; omega)]
        simp
      · rw [if_neg h2, if_neg (fun h => h2 (hgood.mpr h))]
        exact ih ret hlen

theorem processing_order_perm (edges : MaxHeap) : List.Perm (processing_order edges) edges := by
  have := (drain_negated_perm edges []).map negated
  rw [List.append_nil, map_negated_negated] at this
  exact this

theorem processing_order_sorted (edges : MaxHeap) :
    List.Sorted (fun a b : Candidate => a.1 ≤ b.1) (processing_order edges) := by
  unfold processing_order List.Sorted
  rw [List.pairwise_map]
  refine List.Pairwise.imp ?_ (drain_negated_valid edges [] MaxHeap.valid_nil)
  intro a b hab
  rw [pair_lt_eq_false_iff] at hab
  simp only [negated]
  rcases hab with h | ⟨h, _⟩ <;> omega

/-! ## Idempotence of the heuristic -/

theorem goodFrom_append (flatten : FlattenInterface) (pre mid : List Candidate) (c : Candidate)
    (h : GoodFrom flatten pre mid) (hc : is_good flatten c (pre ++ mid) = true) :
    GoodFrom flatten pre (mid ++ [c]) := by
  induction mid generalizing pre with
  | nil =>
    simp only [List.nil_append, GoodFrom, and_true]
    simpa using hc
  | cons m mid ih =>
    simp only [List.cons_append, GoodFrom] at h ⊢
    refine ⟨h.1, ih (pre ++ [m]) h.2 ?_⟩
    simpa using hc

theorem select_loop_good (flatten : FlattenInterface) (max_size : Nat) (queue : MaxHeap)
    (pre mid : List Candidate) (h : GoodFrom flatten pre mid) :
    ∃ mid', select_loop flatten max_size queue (pre ++ mid) = pre ++ mid' ∧
      GoodFrom flatten pre mid' := by
  induction queue generalizing mid with
  | nil => exact ⟨mid, rfl, h⟩
  | cons c rest ih =>
    rw [select_loop_cons]
    split_ifs with h1 h2
    · exact ⟨mid, rfl, h⟩
    · have := ih (mid ++ [c]) (goodFrom_append flatten pre mid c h h2)
      rw [← List.append_assoc] at this
      exact this
    · exact ih mid h

theorem select_loop_fixed (flatten : FlattenInterface) (max_size : Nat)
    (pre mid : List Candidate) (h : GoodFrom flatten pre mid)
    (hlen : (pre ++ mid).length ≤ max_size) :
    select_loop flatten max_size mid pre = pre ++ mid := by
  induction mid generalizing pre with
  | nil => simp [select_loop_nil]
  | cons c mid ih =>
    simp only [GoodFrom] at h
    simp only [List.length_append, List.length_cons] at hlen
    rw [select_loop_cons, if_neg (by omega), if_pos h.1, ih (pre ++ [c]) h.2 (by simp; omega)]
    simp

theorem valid_eq_of_perm {a b : MaxHeap} (hp : List.Perm a b) (ha : MaxHeap.Valid a)
    (hb : MaxHeap.Valid b) : a = b := by
  haveI : IsAntisymm Candidate (fun a b => pair_lt a b = false) :=
    ⟨fun _ _ h1 h2 => pair_lt_false_antisymm h1 h2⟩
  exact List.eq_of_perm_of_sorted hp ha hb

theorem select_edges_idem (edges : MaxHeap) (max_size : Nat) (flatten : FlattenInterface) :
    select_edges_by_heuristic (select_edges_by_heuristic edges max_size flatten) max_size flatten
      = select_edges_by_heuristic edges max_size flatten := by
  by_cases hsmall : edges.size < max_size
  · have : select_edges_by_heuristic edges max_size flatten = edges := by
      unfold select_edges_by_heuristic
      rw [if_pos hsmall]
    rw [this, this]
  · have hout : select_edges_by_heuristic edges max_size flatten =
        refill (select_loop flatten max_size (drain_negated edges []) []) [] := by
      unfold select_edges_by_heuristic
      rw [if_neg hsmall]
    obtain ⟨kept, hk, hgood⟩ :=
      select_loop_good flatten max_size (drain_negated edges []) [] [] trivial
    obtain ⟨kept', hk', hsub⟩ := select_loop_sublist flatten max_size (drain_negated edges []) []
    simp only [List.nil_append] at hk hk'
    have hkk : kept' = kept := by rw [← hk, ← hk']
    subst hkk
    have hlen : kept'.length ≤ max_size := by
      have := select_loop_length flatten max_size (drain_negated edges []) [] (Nat.zero_le _)
      rwa [hk] at this
    have hvalid : MaxHeap.Valid kept' :=
      List.Pairwise.sublist hsub (drain_negated_valid edges [] MaxHeap.valid_nil)
    rw [hout, hk]
    by_cases hsmall2 : (refill kept' []).size < max_size
    · unfold select_edges_by_heuristic
      rw [if_pos hsmall2]
    · have hq : drain_negated (refill kept' []) [] = kept' := by
        apply valid_eq_of_perm _ (drain_negated_valid _ [] MaxHeap.valid_nil) hvalid
        have h1 := drain_negated_perm (refill kept' []) []
        rw [List.append_nil] at h1
        have h2 := (refill_perm kept' []).map negated
        rw [List.append_nil, map_negated_negated] at h2
        exact h1.trans h2
      have hfix := select_loop_fixed flatten max_size [] kept' hgood (by simpa using hlen)
      rw [List.nil_append] at hfix
      have : select_edges_by_heuristic (refill kept' []) max_size flatten =
          refill (select_loop flatten max_size (drain_negated (refill kept' []) []) []) [] := by
        unfold select_edges_by_heuristic
        rw [if_neg hsmall2]
      rw [this, hq, hfix]

theorem select_edges_of_small (edges : MaxHeap) (max_size : Nat) (flatten : FlattenInterface)
    (h : edges.size < max_size) : select_edges_by_heuristic edges max_size flatten = edges := by
  unfold select_edges_by_heuristic
  rw [if_pos h]

/-! ## Connection of a new element -/

theorem pop_ids_eq_map (h : MaxHeap) : pop_ids h = h.map Prod.snd := by
  induction h with
  | nil => rfl
  | cons x xs ih => simp [pop_ids, ih]

theorem valid_last_le {h : MaxHeap} (hv : MaxHeap.Valid h) {last : Candidate}
    (hl : h.getLast? = some last) : ∀ c ∈ h, last.1 ≤ c.1 := by
  intro c hc
  obtain ⟨init, rfl⟩ : ∃ init, h = init ++ [last] := by
    rcases List.eq_nil_or_concat h with rfl | ⟨init, b, rfl⟩
    · simp at hl
    · rw [List.concat_eq_append] at hl ⊢
      rw [List.getLast?_append] at hl
      simp at hl
      exact ⟨init, by rw [hl]⟩
  unfold MaxHeap.Valid at hv
  rw [List.pairwise_append] at hv
  rcases List.mem_append.mp hc with h1 | h1
  · have := hv.2.2 c h1 last (List.mem_singleton_self _)
    rw [pair_lt_eq_false_iff] at this
    rcases this with h2 | ⟨h2, _⟩ <;> omega
  · rw [List.mem_singleton.mp h1]

theorem select_edges_valid (edges : MaxHeap) (max_size : Nat) (flatten : FlattenInterface)
    (hv : MaxHeap.Valid edges) :
    MaxHeap.Valid (select_edges_by_heuristic edges max_size flatten) := by
  unfold select_edges_by_heuristic
  split_ifs
  · exact hv
  · exact refill_valid _ [] MaxHeap.valid_nil

theorem select_edges_ne_nil (edges : MaxHeap) (max_size : Nat) (flatten : FlattenInterface)
    (hne : edges ≠ []) (hmax : 1 ≤ max_size) :
    select_edges_by_heuristic edges max_size flatten ≠ [] := by
  unfold select_edges_by_heuristic
  split_ifs
  · exact hne
  · have hq : drain_negated edges [] ≠ [] := by
      intro h
      have := (drain_negated_perm edges []).length_eq
      rw [h] at this
      simp at this
      exact hne (List.length_eq_zero.mp this.symm)
    obtain ⟨c, rest, hc⟩ := List.exists_cons_of_ne_nil hq
    rw [hc, select_loop_cons, if_neg (by simp; omega)]
    have hg : is_good flatten c [] = true := rfl
    rw [if_pos hg]
    obtain ⟨kept, hk, _⟩ := select_loop_sublist flatten max_size rest ([] ++ [c])
    rw [hk]
    intro h
    have := (refill_perm ([] ++ [c] ++ kept) []).length_eq
    rw [h] at this
    simp at this

theorem insert_degreeBounded {g : GraphInterface} (hg : DegreeBounded g) (id : Nat)
    (l : List Nat) (hl : l.length ≤ g.maximum_degree) :
    DegreeBounded (g.InsertNeighborsById id l) := by
  intro x
  unfold GraphInterface.GetNeighbors GraphInterface.InsertNeighborsById
  simp only [List.lookup_cons]
  by_cases hx : x = id
  · subst hx
    simpa using hl
  · have : (x == id) = false := by simpa using hx
    rw [this]
    exact hg x

theorem connect_neighbor_ok (cur_c max_size : Nat) (flatten : FlattenInterface)
    (is_update : Bool) (graph : GraphInterface) (s : Nat)
    (hmax : max_size = graph.maximum_degree) (hg : DegreeBounded graph) (hs : s ≠ cur_c) :
    ∃ g', connect_neighbor cur_c max_size flatten is_update graph s = .ok g' ∧
      DegreeBounded g' ∧ g'.maximum_degree = graph.maximum_degree := by
  unfold connect_neighbor
  have hlen := hg s
  simp only
  rw [if_neg (by omega), if_neg hs]
  split_ifs with h1 h2
  · refine ⟨_, rfl, insert_degreeBounded hg _ _ ?_, rfl⟩
    simp only [List.length_append, List.length_singleton]
    omega
  · refine ⟨_, rfl, insert_degreeBounded hg _ _ ?_, rfl⟩
    rw [pop_ids_eq_map, List.length_map, ← hmax]
    exact select_edges_length _ _ _
  · exact ⟨graph, rfl, hg, rfl⟩

theorem connect_neighbors_ok (cur_c max_size : Nat) (flatten : FlattenInterface)
    (is_update : Bool) (l : List Nat) (graph : GraphInterface)
    (hmax : max_size = graph.maximum_degree) (hg : DegreeBounded graph)
    (hl : ∀ s ∈ l, s ≠ cur_c) :
    ∃ g', connect_neighbors cur_c max_size flatten is_update l graph = .ok g' ∧
      DegreeBounded g' ∧ g'.maximum_degree = graph.maximum_degree := by
  induction l generalizing graph with
  | nil => exact ⟨graph, rfl, hg, rfl⟩
  | cons s rest ih =>
    obtain ⟨g1, h1, hb1, hm1⟩ := connect_neighbor_ok cur_c max_size flatten is_update graph s
      hmax hg (hl s (List.mem_cons_self _ _))
    obtain ⟨g2, h2, hb2, hm2⟩ := ih g1 (by rw [hm1]; exact hmax) hb1
      (fun x hx => hl x (List.mem_cons_of_mem _ hx))
    refine ⟨g2, ?_, hb2, by rw [hm2, hm1]⟩
    unfold connect_neighbors
    rw [h1]
    exact h2

/-! ## The concrete inputs -/

theorem s3_angle_lt (i0 i1 i2 i3 i4 id : Nat) : s3_angle i0 i1 i2 i3 i4 id < 6 := by
  unfold s3_angle
  split_ifs <;> omega

theorem s3_chord_symm : ∀ x < 6, ∀ y < 6, s3_chord x y = s3_chord y x := by
  decide

theorem s3_flatten_symm (i0 i1 i2 i3 i4 : Nat) (a b : Nat) :
    (s3_flatten i0 i1 i2 i3 i4).ComputePairVectors a b =
      (s3_flatten i0 i1 i2 i3 i4).ComputePairVectors b a :=
  s3_chord_symm _ (s3_angle_lt i0 i1 i2 i3 i4 a) _ (s3_angle_lt i0 i1 i2 i3 i4 b)

theorem triangle_graph_degreeBounded : DegreeBounded triangle_graph := by
  intro id
  match id with
  | 0 => decide
  | 1 => decide
  | 2 => decide
  | n + 3 =>
    have h : triangle_graph.GetNeighbors (n + 3) = [] := by
      simp [GraphInterface.GetNeighbors, triangle_graph, List.lookup]
    rw [h]
    exact Nat.zero_le _

/-! ## Scenario S3 -/

theorem s3_edges_perm (i0 i1 i2 i3 i4 : Nat) :
    List.Perm (s3_edges i0 i1 i2 i3 i4)
      [(1000, i4), (1000, i3), (1000, i2), (1000, i1), (1000, i0)] := by
  unfold s3_edges
  refine (MaxHeap.emplace_perm _ 1000 i4).trans (List.Perm.cons _ ?_)
  refine (MaxHeap.emplace_perm _ 1000 i3).trans (List.Perm.cons _ ?_)
  refine (MaxHeap.emplace_perm _ 1000 i2).trans (List.Perm.cons _ ?_)
  refine (MaxHeap.emplace_perm _ 1000 i1).trans (List.Perm.cons _ ?_)
  exact MaxHeap.emplace_perm _ 1000 i0

theorem s3_queue_perm (i0 i1 i2 i3 i4 : Nat) :
    List.Perm (drain_negated (s3_edges i0 i1 i2 i3 i4) [])
      [(-1000, i4), (-1000, i3), (-1000, i2), (-1000, i1), (-1000, i0)] := by
  have h1 := drain_negated_perm (s3_edges i0 i1 i2 i3 i4) []
  rw [List.append_nil] at h1
  exact h1.trans ((s3_edges_perm i0 i1 i2 i3 i4).map negated)

/-- The second loop of the heuristic in scenario S3: from a queue of candidates at distance 1
in descending id, in which the candidate of angle 0 comes before those of `pi/8` and `pi/4`,
the ids kept at the end are those of the angles 0, `pi/2` and `pi`. -/
theorem s3_select_loop (i0 i1 i2 i3 i4 : Nat) (h01 : i1 < i0) (h02 : i2 < i0)
    (h12 : i1 ≠ i2) (h03 : i0 ≠ i3) (h04 : i0 ≠ i4) (h13 : i1 ≠ i3) (h14 : i1 ≠ i4)
    (h23 : i2 ≠ i3) (h24 : i2 ≠ i4) (h34 : i3 ≠ i4)
    (q ret : List Candidate)
    (hq : ∀ c ∈ q, c.1 = -1000 ∧ (c.2 = i0 ∨ c.2 = i1 ∨ c.2 = i2 ∨ c.2 = i3 ∨ c.2 = i4))
    (hdesc : q.Pairwise (fun a b => b.2 < a.2))
    (hret : ∀ r ∈ ret, r.2 = i0 ∨ r.2 = i3 ∨ r.2 = i4)
    (hnd : (ret.map Prod.snd).Nodup)
    (hdisj : ∀ r ∈ ret, ∀ c ∈ q, r.2 ≠ c.2)
    (hall : ∀ k, (k = i0 ∨ k = i3 ∨ k = i4) → k ∈ ret.map Prod.snd ∨ k ∈ q.map Prod.snd) :
    ∀ x, x ∈ (select_loop (s3_flatten i0 i1 i2 i3 i4) 3 q ret).map Prod.snd ↔
      x = i0 ∨ x = i3 ∨ x = i4 := by
  have a0 : s3_angle i0 i1 i2 i3 i4 i0 = 0 := by simp [s3_angle]
  have a1 : s3_angle i0 i1 i2 i3 i4 i1 = 1 := by
    simp [s3_angle, Nat.ne_of_lt h01]
  have a2 : s3_angle i0 i1 i2 i3 i4 i2 = 2 := by
    simp [s3_angle, Nat.ne_of_lt h02, h12.symm]
  have a3 : s3_angle i0 i1 i2 i3 i4 i3 = 3 := by
    simp [s3_angle, h03.symm, h13.symm, h23.symm]
  have a4 : s3_angle i0 i1 i2 i3 i4 i4 = 4 := by
    simp [s3_angle, h04.symm, h14.symm, h24.symm, h34.symm]
  induction q generalizing ret with
  | nil =>
    intro x
    rw [select_loop_nil]
    constructor
    · intro hx
      obtain ⟨r, hr, rfl⟩ := List.mem_map.mp hx
      exact hret r hr
    · intro hx
      rcases hall x hx with h | h
      · exact h
      · simp at h
  | cons c q ih =>
    have hc := hq c (List.mem_cons_self _ _)
    have hq' : ∀ c' ∈ q, c'.1 = -1000 ∧
        (c'.2 = i0 ∨ c'.2 = i1 ∨ c'.2 = i2 ∨ c'.2 = i3 ∨ c'.2 = i4) :=
      fun c' h => hq c' (List.mem_cons_of_mem _ h)
    rw [List.pairwise_cons] at hdesc
    rw [select_loop_cons]
    by_cases hlen : ret.length ≥ 3
    · rw [if_pos hlen]
      intro x
      constructor
      · intro hx
        obtain ⟨r, hr, rfl⟩ := List.mem_map.mp hx
        exact hret r hr
      · intro hx
        have hsub : ret.map Prod.snd ⊆ [i0, i3, i4] := by
          intro y hy
          obtain ⟨r, hr, rfl⟩ := List.mem_map.mp hy
          simpa using hret r hr
        have hperm : List.Perm (ret.map Prod.snd) [i0, i3, i4] :=
          (List.subperm_of_subset hnd hsub).perm_of_length_le (by simpa using hlen)
        exact hperm.mem_iff.mpr (by simpa using hx)
    · rw [if_neg hlen]
      have hkeep : (c.2 = i0 ∨ c.2 = i3 ∨ c.2 = i4) →
          is_good (s3_flatten i0 i1 i2 i3 i4) c ret = true := by
        intro hcs
        rw [is_good_iff]
        intro s hs
        have hne := hdisj s hs c (List.mem_cons_self _ _)
        have hss := hret s hs
        simp only [s3_flatten, hc.1, neg_neg, not_lt]
        rcases hss with e | e | e <;> rcases hcs with f | f | f <;>
          first
          | exact absurd (e.trans f.symm) hne
          | (rw [e, f]; simp only [a0, a3, a4]; decide)
      have hdrop : (c.2 = i1 ∨ c.2 = i2) →
          is_good (s3_flatten i0 i1 i2 i3 i4) c ret = false := by
        intro hcs
        have hin : i0 ∈ ret.map Prod.snd := by
          rcases hall i0 (Or.inl rfl) with h | h
          · exact h
          · exfalso
            rw [List.map_cons, List.mem_cons] at h
            rcases h with h | h
            · rcases hcs with f | f <;> omega
            · obtain ⟨c', hc', hc'2⟩ := List.mem_map.mp h
              have := hdesc.1 c' hc'
              rcases hcs with f | f <;> omega
        obtain ⟨s, hs, hs2⟩ := List.mem_map.mp hin
        rw [← Bool.not_eq_true, is_good_iff]
        intro hall'
        apply hall' s hs
        simp only [s3_flatten, hc.1, neg_neg]
        rcases hcs with f | f
        · rw [hs2, f, a0, a1]; decide
        · rw [hs2, f, a0, a2]; decide
      have hnext_disj : ∀ c' ∈ q, c.2 ≠ c'.2 := by
        intro c' hc'
        have := hdesc.1 c' hc'
        omega
      rcases hc.2 with f | f | f | f | f
      · -- the candidate of angle 0
        rw [if_pos (hkeep (Or.inl f))]
        apply ih (ret ++ [c]) hq' hdesc.2
        · intro r hr
          rcases List.mem_append.mp hr with h | h
          · exact hret r h
          · rw [List.mem_singleton.mp h]; exact Or.inl f
        · rw [List.map_append, List.nodup_append]
          refine ⟨hnd, by simp, ?_⟩
          intro a ha hb
          obtain ⟨r, hr, rfl⟩ := List.mem_map.mp ha
          simp only [List.map_cons, List.map_nil, List.mem_singleton] at hb
          exact hdisj r hr c (List.mem_cons_self _ _) hb
        · intro r hr c' hc'
          rcases List.mem_append.mp hr with h | h
          · exact hdisj r h c' (List.mem_cons_of_mem _ hc')
          · rw [List.mem_singleton.mp h]; exact hnext_disj c' hc'
        · intro k hk
          rcases hall k hk with h | h
          · exact Or.inl (by rw [List.map_append]; exact List.mem_append_left _ h)
          · rw [List.map_cons, List.mem_cons] at h
            rcases h with h | h
            · exact Or.inl (by rw [List.map_append, h]; simp)
            · exact Or.inr h
      · -- the candidate of angle pi/8
        rw [hdrop (Or.inl f)]
        simp only [Bool.false_eq_true, if_false]
        apply ih ret hq' hdesc.2 hret hnd
        · intro r hr c' hc'
          exact hdisj r hr c' (List.mem_cons_of_mem _ hc')
        · intro k hk
          rcases hall k hk with h | h
          · exact Or.inl h
          · rw [List.map_cons, List.mem_cons] at h
            rcases h with h | h
            · exfalso; rcases hk with e | e | e <;> omega
            · exact Or.inr h
      · -- the candidate of angle pi/4
        rw [hdrop (Or.inr f)]
        simp only [Bool.false_eq_true, if_false]
        apply ih ret hq' hdesc.2 hret hnd
        · intro r hr c' hc'
          exact hdisj r hr c' (List.mem_cons_of_mem _ hc')
        · intro k hk
          rcases hall k hk with h | h
          · exact Or.inl h
          · rw [List.map_cons, List.mem_cons] at h
            rcases h with h | h
            · exfalso; rcases hk with e | e | e <;> omega
            · exact Or.inr h
      · -- the candidate of angle pi/2
        rw [if_pos (hkeep (Or.inr (Or.inl f)))]
        apply ih (ret ++ [c]) hq' hdesc.2
        · intro r hr
          rcases List.mem_append.mp hr with h | h
          · exact hret r h
          · rw [List.mem_singleton.mp h]; exact Or.inr (Or.inl f)
        · rw [List.map_append, List.nodup_append]
          refine ⟨hnd, by simp, ?_⟩
          intro a ha hb
          obtain ⟨r, hr, rfl⟩ := List.mem_map.mp ha
          simp only [List.map_cons, List.map_nil, List.mem_singleton] at hb
          exact hdisj r hr c (List.mem_cons_self _ _) hb
        · intro r hr c' hc'
          rcases List.mem_append.mp hr with h | h
          · exact hdisj r h c' (List.mem_cons_of_mem _ hc')
          · rw [List.mem_singleton.mp h]; exact hnext_disj c' hc'
        · intro k hk
          rcases hall k hk with h | h
          · exact Or.inl (by rw [List.map_append]; exact List.mem_append_left _ h)
          · rw [List.map_cons, List.mem_cons] at h
            rcases h with h | h
            · exact Or.inl (by rw [List.map_append, h]; simp)
            · exact Or.inr h
      · -- the candidate of angle pi
        rw [if_pos (hkeep (Or.inr (Or.inr f)))]
        apply ih (ret ++ [c]) hq' hdesc.2
        · intro r hr
          rcases List.mem_append.mp hr with h | h
          · exact hret r h
          · rw [List.mem_singleton.mp h]; exact Or.inr (Or.inr f)
        · rw [List.map_append, List.nodup_append]
          refine ⟨hnd, by simp, ?_⟩
          intro a ha hb
          obtain ⟨r, hr, rfl⟩ := List.mem_map.mp ha
          simp only [List.map_cons, List.map_nil, List.mem_singleton] at hb
          exact hdisj r hr c (List.mem_cons_self _ _) hb
        · intro r hr c' hc'
          rcases List.mem_append.mp hr with h | h
          · exact hdisj r h c' (List.mem_cons_of_mem _ hc')
          · rw [List.mem_singleton.mp h]; exact hnext_disj c' hc'
        · intro k hk
          rcases hall k hk with h | h
          · exact Or.inl (by rw [List.map_append]; exact List.mem_append_left _ h)
          · rw [List.map_cons, List.mem_cons] at h
            rcases h with h | h
            · exact Or.inl (by rw [List.map_append, h]; simp)
            · exact Or.inr h

/-! # The claims -/

/-- C1 (the code departs from the claim): `search_one_graph` never reads its filter.  With the
filter that rejects exactly the inner id 1, the search of `triangle_graph` from the entry point
0 with `ef = 2` returns a heap that holds the id 1, and `knn_search` under the same filter
returns the id 1 as well. -/
theorem search_one_graph_keeps_filtered_id :
    (fun id => decide (id ≠ 1)) 1 = false ∧
    (search_one_graph fresh_pool [0] triangle_graph spaced_line 0 2
      (some (fun id => decide (id ≠ 1)))).1 = [(10, 1), (0, 0)] ∧
    knn_search triangle_index [0] 2 10 (fun id => decide (id ≠ 1)) =
      Except.ok { dim := 2, ids := [0, 1], distances := [0, 10] } := by
  refine ⟨by decide, by decide, by rfl⟩

/-- C2 (the code departs from the claim): `knn_search` writes inner ids, not labels.  After
`hnsw_add` of the labels 100, 200, 300 into an empty index the label map sends 300 to the inner
id 2 and 200 to the inner id 1; the query at 19 with `k = 2` returns the ids 2 and 1. -/
theorem knn_search_returns_inner_ids :
    (hnsw_add (empty_index spaced_line 4 10) three_points (fun _ => 1)).toOption.map
        (fun index => (index.label_lookup_, (knn_search index [19] 2 10 (fun _ => true)).toOption))
      = some ([(300, 2), (200, 1), (100, 0)],
          some { dim := 2, ids := [2, 1], distances := [1, 9] }) := by
  rfl

/-- C3: for every `k >= 1` (an `int64_t`), `knn_search` returns a data set whose number of
entries is exactly the minimum of `k` and the size of the heap that the search of the bottom
graph returned, hence at most `k`, and whose distances are in non-decreasing order from
position 0 upward. -/
theorem knn_search_count_and_order (index : HGraphIndex) (query : List Int) (k : Int)
    (ef_search : Nat) (filter : Nat → Bool) (hk : 1 ≤ k) (hk64 : k < 9223372036854775808) :
    ∃ ds : Dataset, knn_search index query k ef_search filter = Except.ok ds ∧
      ds.ids.length = min k.toNat (knn_base_results index query ef_search filter).1.size ∧
      ds.distances.length = ds.ids.length ∧
      ds.ids.length ≤ k.toNat ∧
      List.Sorted (· ≤ ·) ds.distances := by
  refine ⟨_, rfl, ?_, ?_, ?_, ?_⟩
  · simp only [List.length_map, fill_positions_eq_reverse, List.length_reverse,
      pop_down_to_length, MaxHeap.size]
    rw [as_unsigned_of_nonneg k (by omega) (by omega)]
  · simp only [List.length_map]
  · simp only [List.length_map, fill_positions_eq_reverse, List.length_reverse,
      pop_down_to_length]
    rw [as_unsigned_of_nonneg k (by omega) (by omega)]
    exact min_le_left _ _
  · simp only [fill_positions_eq_reverse]
    apply valid_reverse_sorted
    exact List.Pairwise.sublist (pop_down_to_sublist _ _)
      (search_one_graph_inv _ _ _ _ _ _ (some filter)).1

/-- The theorem of C3 at `triangle_index`, the query at 0 and `k = 2`. -/
theorem knn_search_count_and_order_witness :
    (1 : Int) ≤ 2 ∧ (2 : Int) < 9223372036854775808 ∧
    ∃ ds : Dataset, knn_search triangle_index [0] 2 10 (fun _ => true) = Except.ok ds ∧
      ds.ids.length = min (2 : Int).toNat
        (knn_base_results triangle_index [0] 10 (fun _ => true)).1.size ∧
      ds.distances.length = ds.ids.length ∧
      ds.ids.length ≤ (2 : Int).toNat ∧
      List.Sorted (· ≤ ·) ds.distances :=
  ⟨by decide, by decide,
    knn_search_count_and_order triangle_index [0] 2 10 (fun _ => true) (by decide) (by decide)⟩
/-- C4 (the code departs from the claim): `knn_search` has no check of `k`.  On
`triangle_index` it returns an empty data set for `k = 0`, and for `k = -1`, which the
comparison with `size()` reads as a huge unsigned number, it returns all three candidates of the
search; in neither case an error. -/
theorem knn_search_accepts_k_below_one :
    knn_search triangle_index [0] 0 10 (fun _ => true) =
      Except.ok { dim := 0, ids := [], distances := [] } ∧
    knn_search triangle_index [0] (-1) 10 (fun _ => true) =
      Except.ok { dim := 3, ids := [0, 1, 2], distances := [0, 10, 20] } := by
  refine ⟨by rfl, by rfl⟩

/-- C5 (as stated, refuted): with `ef = 0` the heap returned for the graph of one id holds one
candidate, which is more than `ef`. -/
theorem search_one_graph_ef_zero_exceeds :
    ¬ ((search_one_graph fresh_pool [0] single_graph spaced_line 0 0 none).1.size ≤ 0) := by
  decide

/-- C5 (amended): for every graph, query, entry point, pool state and every `ef`, the heap
returned by `search_one_graph` holds at least one and at most `max ef 1` candidates: at most
`ef` when `ef >= 1`, exactly one when `ef = 0`. -/
theorem search_one_graph_size_le (pool : VisitedListPool) (query : List Int)
    (graph : GraphInterface) (flatten : FlattenInterface) (ep ef : Nat)
    (isIdAllowed : Option (Nat → Bool)) :
    1 ≤ (search_one_graph pool query graph flatten ep ef isIdAllowed).1.size ∧
    (search_one_graph pool query graph flatten ep ef isIdAllowed).1.size ≤ max ef 1 :=
  ⟨List.length_pos.mpr (search_one_graph_inv pool query graph flatten ep ef isIdAllowed).2.1,
    (search_one_graph_inv pool query graph flatten ep ef isIdAllowed).2.2⟩

/-- C6: for every heap `edges` and every `max_size`, the heap that
`select_edges_by_heuristic` leaves holds at most `max_size` candidates, and it is a
sub-multiset of the input: every pair `(distance, id)` in it was in the input, with the same
distance and not more often. -/
theorem select_edges_by_heuristic_bounded_subset (edges : MaxHeap) (max_size : Nat)
    (flatten : FlattenInterface) :
    (select_edges_by_heuristic edges max_size flatten).size ≤ max_size ∧
    List.Subperm (select_edges_by_heuristic edges max_size flatten) edges ∧
    ∀ c ∈ select_edges_by_heuristic edges max_size flatten, c ∈ edges :=
  ⟨select_edges_length edges max_size flatten, select_edges_subperm edges max_size flatten,
    fun _ hc => (select_edges_subperm edges max_size flatten).subset hc⟩
/-- C7: on a heap of at least `max_size` candidates and a symmetric pairwise distance,
`select_edges_by_heuristic` processes the candidates in ascending distance to the pivot (the
processing order is a rearrangement of the input, sorted by distance), and what it leaves is
what the greedy reference keeps on that order: `c` is kept iff every `k` kept before it has
`d(c, k) >= d(c, u)`, until `max_size` are kept.  Hence a candidate processed before the stop
and not kept has an earlier kept `k` with `d(c, k) < d(c, u)`. -/
theorem select_edges_by_heuristic_eq_greedy (edges : MaxHeap) (max_size : Nat)
    (flatten : FlattenInterface) (hsize : max_size ≤ edges.size)
    (hsym : ∀ a b, flatten.ComputePairVectors a b = flatten.ComputePairVectors b a) :
    List.Perm (processing_order edges) edges ∧
    List.Sorted (fun a b : Candidate => a.1 ≤ b.1) (processing_order edges) ∧
    List.Perm (select_edges_by_heuristic edges max_size flatten)
      (greedy_reference flatten.ComputePairVectors max_size (processing_order edges) []) ∧
    ∀ pre c post, processing_order edges = pre ++ c :: post →
      (greedy_reference flatten.ComputePairVectors max_size pre []).length < max_size →
      greedy_reference flatten.ComputePairVectors max_size (pre ++ [c]) [] =
        greedy_reference flatten.ComputePairVectors max_size pre [] →
      ∃ k ∈ greedy_reference flatten.ComputePairVectors max_size pre [],
        flatten.ComputePairVectors c.2 k.2 < c.1 := by
  refine ⟨processing_order_perm edges, processing_order_sorted edges, ?_, ?_⟩
  · unfold select_edges_by_heuristic
    rw [if_neg (by simp only [MaxHeap.size] at *; omega)]
    rw [select_loop_eq_greedy flatten max_size hsym _ [] (Nat.zero_le _)]
    have := refill_perm ((greedy_reference flatten.ComputePairVectors max_size
      ((drain_negated edges []).map negated) ([] : List Candidate)).map negated) []
    rw [List.append_nil, map_negated_negated] at this
    exact this
  · intro pre c post _ hlt hrej
    rw [greedy_reference_append, greedy_reference_cons, if_neg (by omega)] at hrej
    by_contra hno
    push_neg at hno
    rw [if_pos (fun k hk => hno k hk), greedy_reference_nil] at hrej
    have := congrArg List.length hrej
    simp at this

/-- The theorem of C7 at the five candidates of scenario S3 with the ids 4, 3, 2, 1, 0 and
`max_size = 3`. -/
theorem select_edges_by_heuristic_eq_greedy_witness :
    3 ≤ (s3_edges 4 3 2 1 0).size ∧
    List.Perm (select_edges_by_heuristic (s3_edges 4 3 2 1 0) 3 (s3_flatten 4 3 2 1 0))
      (greedy_reference (s3_flatten 4 3 2 1 0).ComputePairVectors 3
        (processing_order (s3_edges 4 3 2 1 0)) []) :=
  ⟨by decide,
    (select_edges_by_heuristic_eq_greedy (s3_edges 4 3 2 1 0) 3 (s3_flatten 4 3 2 1 0)
      (by decide) (s3_flatten_symm 4 3 2 1 0)).2.2.1⟩

/-- C8: applying `select_edges_by_heuristic` with size `max_size` to its own output (of size
below or exactly `max_size`) returns that output again, and applied to any heap of size below
`max_size` it returns the heap unchanged; this holds for every pairwise distance. -/
theorem select_edges_by_heuristic_idempotent (edges : MaxHeap) (max_size : Nat)
    (flatten : FlattenInterface) :
    select_edges_by_heuristic (select_edges_by_heuristic edges max_size flatten) max_size flatten
      = select_edges_by_heuristic edges max_size flatten ∧
    (edges.size < max_size → select_edges_by_heuristic edges max_size flatten = edges) :=
  ⟨select_edges_idem edges max_size flatten, select_edges_of_small edges max_size flatten⟩

/-- The theorem of C8 at the five candidates of scenario S3 with `max_size = 3` (the output
has exactly three candidates), and at a heap of two candidates with `max_size = 3`. -/
theorem select_edges_by_heuristic_idempotent_witness :
    (select_edges_by_heuristic (s3_edges 0 1 2 3 4) 3 (s3_flatten 0 1 2 3 4)).size = 3 ∧
    select_edges_by_heuristic
        (select_edges_by_heuristic (s3_edges 0 1 2 3 4) 3 (s3_flatten 0 1 2 3 4)) 3
        (s3_flatten 0 1 2 3 4)
      = select_edges_by_heuristic (s3_edges 0 1 2 3 4) 3 (s3_flatten 0 1 2 3 4) ∧
    MaxHeap.size [(5, 1), (1, 2)] < 3 ∧
    select_edges_by_heuristic [(5, 1), (1, 2)] 3 spaced_line = [(5, 1), (1, 2)] :=
  ⟨by decide,
    (select_edges_by_heuristic_idempotent (s3_edges 0 1 2 3 4) 3 (s3_flatten 0 1 2 3 4)).1,
    by decide,
    (select_edges_by_heuristic_idempotent [(5, 1), (1, 2)] 3 spaced_line).2 (by decide)⟩

/-- Scenario S3 under the pair order (ties broken by inner id, the variant that section 4.4 of
the spec leaves to implementers): with the ids 0, 1, 2, 3, 4 in the listed order the heuristic
keeps the candidates of the ids 4, 3 and 1, the angles `pi`, `pi/2` and `pi/8`; the candidate
at angle 0 is not kept.  Under that variant the outcome depends on the ids. -/
theorem s3_listed_ids_keep_other_set :
    ¬ (∀ x, x ∈ pop_ids (select_edges_by_heuristic (s3_edges 0 1 2 3 4) 3
        (s3_flatten 0 1 2 3 4)) ↔ x = 0 ∨ x = 3 ∨ x = 4) := by
  intro h
  have h1 : (1 : Nat) ∈ pop_ids (select_edges_by_heuristic (s3_edges 0 1 2 3 4) 3
      (s3_flatten 0 1 2 3 4)) := by decide
  have := (h 1).mp h1
  omega

/-- Scenario S3 under the pair order, with `max_size = 3`: whenever the five candidates carry
distinct inner ids and the candidate at angle 0 carries a larger id than the candidates at
`pi/8` and `pi/4`, the ids that `select_edges_by_heuristic` keeps are exactly those of the
angles 0, `pi/2` and `pi`. -/
theorem s3_kept (i0 i1 i2 i3 i4 : Nat) (h01 : i1 < i0) (h02 : i2 < i0)
    (h12 : i1 ≠ i2) (h03 : i0 ≠ i3) (h04 : i0 ≠ i4) (h13 : i1 ≠ i3) (h14 : i1 ≠ i4)
    (h23 : i2 ≠ i3) (h24 : i2 ≠ i4) (h34 : i3 ≠ i4) :
    ∀ x, x ∈ pop_ids (select_edges_by_heuristic (s3_edges i0 i1 i2 i3 i4) 3
        (s3_flatten i0 i1 i2 i3 i4)) ↔ x = i0 ∨ x = i3 ∨ x = i4 := by
  intro x
  have hsize : ¬ (s3_edges i0 i1 i2 i3 i4).size < 3 := by
    have := (s3_edges_perm i0 i1 i2 i3 i4).length_eq
    simp only [MaxHeap.size, this, List.length_cons, List.length_nil]
    omega
  have hmem : ∀ c, c ∈ drain_negated (s3_edges i0 i1 i2 i3 i4) [] ↔
      c = (-1000, i4) ∨ c = (-1000, i3) ∨ c = (-1000, i2) ∨ c = (-1000, i1) ∨
        c = (-1000, i0) := by
    intro c
    rw [(s3_queue_perm i0 i1 i2 i3 i4).mem_iff]
    simp
  have hnodup : (drain_negated (s3_edges i0 i1 i2 i3 i4) []).Nodup := by
    rw [(s3_queue_perm i0 i1 i2 i3 i4).nodup_iff]
    simp
    omega
  have hvalid := drain_negated_valid (s3_edges i0 i1 i2 i3 i4) [] MaxHeap.valid_nil
  have hdesc : (drain_negated (s3_edges i0 i1 i2 i3 i4) []).Pairwise
      (fun a b => b.2 < a.2) := by
    refine List.Pairwise.imp_of_mem ?_ (List.Pairwise.and hvalid hnodup)
    intro a b ha hb hab
    have ha1 : a.1 = -1000 := by
      rcases (hmem a).mp ha with h | h | h | h | h <;> rw [h]
    have hb1 : b.1 = -1000 := by
      rcases (hmem b).mp hb with h | h | h | h | h <;> rw [h]
    have hlt := (pair_lt_eq_false_iff a b).mp hab.1
    have hne : a.2 ≠ b.2 := fun h => hab.2 (Prod.ext (by rw [ha1, hb1]) h)
    rcases hlt with h | ⟨_, h⟩ <;> omega
  unfold select_edges_by_heuristic
  rw [if_neg hsize, pop_ids_eq_map]
  have hperm := (refill_perm (select_loop (s3_flatten i0 i1 i2 i3 i4) 3
    (drain_negated (s3_edges i0 i1 i2 i3 i4) []) []) []).map Prod.snd
  rw [hperm.mem_iff, List.append_nil, List.map_map]
  have hcomp : (Prod.snd ∘ negated : Candidate → Nat) = Prod.snd := rfl
  rw [hcomp]
  apply s3_select_loop i0 i1 i2 i3 i4 h01 h02 h12 h03 h04 h13 h14 h23 h24 h34
  · intro c hc
    rcases (hmem c).mp hc with h | h | h | h | h <;> rw [h] <;> simp
  · exact hdesc
  · intro r hr
    simp at hr
  · simp
  · intro r hr
    simp at hr
  · intro k hk
    right
    rw [List.mem_map]
    rcases hk with h | h | h
    · exact ⟨(-1000, i0), (hmem _).mpr (by simp), h.symm⟩
    · exact ⟨(-1000, i3), (hmem _).mpr (by simp), h.symm⟩
    · exact ⟨(-1000, i4), (hmem _).mpr (by simp), h.symm⟩

/-- The lemma `s3_kept` at the ids 4, 3, 2, 1, 0 in the listed order. -/
theorem s3_kept_witness :
    (3 : Nat) < 4 ∧ (2 : Nat) < 4 ∧
    ∀ x, x ∈ pop_ids (select_edges_by_heuristic (s3_edges 4 3 2 1 0) 3
        (s3_flatten 4 3 2 1 0)) ↔ x = 4 ∨ x = 1 ∨ x = 0 :=
  ⟨by decide, by decide,
    s3_kept 4 3 2 1 0 (by decide) (by decide) (by decide) (by decide) (by decide) (by decide)
      (by decide) (by decide) (by decide) (by decide)⟩

/-- C10 (as stated, refuted): for the candidates `(5, 1)` and `(1, 2)` both are selected and
the function returns the id 2, whose distance 1 is the smallest, while the farthest selected
neighbour is the id 1 at distance 5. -/
theorem mutually_connect_new_element_not_farthest :
    ∃ ep, (mutually_connect_new_element 9 [(5, 1), (1, 2)] triangle_graph spaced_line
        false).toOption.map Prod.fst = some ep ∧
      ¬ ∃ d, (d, ep) ∈ select_edges_by_heuristic [(5, 1), (1, 2)]
            triangle_graph.MaximumDegree spaced_line ∧
          ∀ c ∈ select_edges_by_heuristic [(5, 1), (1, 2)] triangle_graph.MaximumDegree
            spaced_line, c.1 ≤ d := by
  refine ⟨2, by decide, ?_⟩
  have hsel : select_edges_by_heuristic [(5, 1), (1, 2)] triangle_graph.MaximumDegree
      spaced_line = [(5, 1), (1, 2)] := by decide
  rw [hsel]
  rintro ⟨d, hmem, hmax⟩
  have h5 := hmax (5, 1) (by simp)
  simp at hmem
  simp at h5
  omega

/-- C10 (amended): for every non-empty valid candidate heap, whenever
`mutually_connect_new_element` returns, the entry point it returns is the nearest of the
neighbours it selected: a selected id whose distance is the smallest among the selected.  And
it does return when the maximum degree is at least 1, no candidate is the new element itself
and the graph satisfies the degree bound. -/
theorem mutually_connect_new_element_returns_nearest (cur_c : Nat) (top_candidates : MaxHeap)
    (graph : GraphInterface) (flatten : FlattenInterface) (is_update : Bool)
    (hv : MaxHeap.Valid top_candidates) (hne : top_candidates ≠ []) :
    (∀ ep g', mutually_connect_new_element cur_c top_candidates graph flatten is_update
        = .ok (ep, g') →
      ∃ d, (d, ep) ∈ select_edges_by_heuristic top_candidates graph.MaximumDegree flatten ∧
        ∀ c ∈ select_edges_by_heuristic top_candidates graph.MaximumDegree flatten, d ≤ c.1) ∧
    (1 ≤ graph.MaximumDegree → (∀ c ∈ top_candidates, c.2 ≠ cur_c) → DegreeBounded graph →
      ∃ ep g', mutually_connect_new_element cur_c top_candidates graph flatten is_update
        = .ok (ep, g')) := by
  constructor
  · intro ep g' hret
    unfold mutually_connect_new_element at hret
    simp only at hret
    split_ifs at hret with hsz
    split at hret
    · exact absurd hret (by simp)
    · next last hlast =>
      split at hret
      · exact absurd hret (by simp)
      · next gfin _ =>
        simp only [Except.ok.injEq, Prod.mk.injEq] at hret
        obtain ⟨rfl, _⟩ := hret
        rw [pop_ids_eq_map, List.getLast?_map] at hlast
        cases hsel : (select_edges_by_heuristic top_candidates graph.MaximumDegree
            flatten).getLast? with
        | none => rw [hsel] at hlast; simp at hlast
        | some lastc =>
          rw [hsel] at hlast
          simp only [Option.map_some', Option.some.injEq] at hlast
          subst hlast
          refine ⟨lastc.1, List.mem_of_getLast?_eq_some hsel, ?_⟩
          exact valid_last_le (select_edges_valid _ _ _ hv) hsel
  · intro hmax hself hdeg
    have hsel_ne := select_edges_ne_nil top_candidates graph.MaximumDegree flatten hne hmax
    have hsel_len := select_edges_length top_candidates graph.MaximumDegree flatten
    unfold mutually_connect_new_element
    simp only
    rw [if_neg (by simp only [MaxHeap.size]; omega)]
    have hids_ne : pop_ids (select_edges_by_heuristic top_candidates graph.MaximumDegree
        flatten) ≠ [] := by
      rw [pop_ids_eq_map]
      simpa using hsel_ne
    obtain ⟨last, hlast⟩ : ∃ last, (pop_ids (select_edges_by_heuristic top_candidates
        graph.MaximumDegree flatten)).getLast? = some last := by
      cases h : (pop_ids (select_edges_by_heuristic top_candidates
        graph.MaximumDegree flatten)).getLast? with
      | none => exact absurd (List.getLast?_eq_none_iff.mp h) hids_ne
      | some l => exact ⟨l, rfl⟩
    rw [hlast]
    obtain ⟨g2, h2, _, _⟩ := connect_neighbors_ok cur_c graph.MaximumDegree flatten is_update
      (pop_ids (select_edges_by_heuristic top_candidates graph.MaximumDegree flatten))
      (graph.InsertNeighborsById cur_c
        (pop_ids (select_edges_by_heuristic top_candidates graph.MaximumDegree flatten)))
      rfl
      (insert_degreeBounded hdeg _ _ (by
        rw [pop_ids_eq_map, List.length_map]; exact hsel_len))
      (by
        intro s hs
        rw [pop_ids_eq_map, List.mem_map] at hs
        obtain ⟨c, hc, rfl⟩ := hs
        exact hself c ((select_edges_subperm _ _ _).subset hc))
    simp only [h2]
    exact ⟨_, _, rfl⟩

/-- The theorem of C10 (amended) at the candidates `(5, 1)` and `(1, 2)` for the new id 9 on
`triangle_graph`. -/
theorem mutually_connect_new_element_returns_nearest_witness :
    MaxHeap.Valid [(5, 1), (1, 2)] ∧ ([(5, 1), (1, 2)] : MaxHeap) ≠ [] ∧
    ∃ ep g', mutually_connect_new_element 9 [(5, 1), (1, 2)] triangle_graph spaced_line false
      = .ok (ep, g') :=
  ⟨by unfold MaxHeap.Valid; decide, by decide,
    (mutually_connect_new_element_returns_nearest 9 [(5, 1), (1, 2)] triangle_graph spaced_line
      false (by unfold MaxHeap.Valid; decide) (by decide)).2 (by decide)
      (by decide) triangle_graph_degreeBounded⟩

/-! ## The NN-descent builder -/

theorem mem_ordered_insert {n x : Node} {l : List Node} :
    x ∈ ordered_insert n l ↔ x = n ∨ x ∈ l := by
  induction l with
  | nil => simp [ordered_insert]
  | cons y ys ih =>
    unfold ordered_insert
    split_ifs
    · rw [List.mem_cons, ih, List.mem_cons]
      tauto
    · simp [List.mem_cons]

theorem mem_std_sort {x : Node} {l : List Node} : x ∈ std_sort l ↔ x ∈ l := by
  induction l with
  | nil => simp [std_sort]
  | cons y ys ih =>
    unfold std_sort
    rw [mem_ordered_insert, ih, List.mem_cons]

theorem mem_unique_after {last x : Node} {l : List Node} (h : x ∈ unique_after last l) :
    x ∈ l := by
  induction l generalizing last with
  | nil => simp [unique_after] at h
  | cons y ys ih =>
    unfold unique_after at h
    split_ifs at h
    · exact List.mem_cons_of_mem _ (ih h)
    · rcases List.mem_cons.mp h with rfl | h
      · exact List.mem_cons_self _ _
      · exact List.mem_cons_of_mem _ (ih h)

theorem mem_std_unique {x : Node} {l : List Node} (h : x ∈ std_unique l) : x ∈ l := by
  cases l with
  | nil => simp [std_unique] at h
  | cons y ys =>
    unfold std_unique at h
    rcases List.mem_cons.mp h with rfl | h
    · exact List.mem_cons_self _ _
    · exact List.mem_cons_of_mem _ (mem_unique_after h)

namespace Graph

theorem reduce_graph_at (g : Graph) (loc : Nat) :
    (reduce_graph g loc).graph loc =
      if (std_unique (std_sort (g.graph loc))).length > g.max_degree_ then
        (std_unique (std_sort (g.graph loc))).take g.max_degree_
      else std_unique (std_sort (g.graph loc)) := by
  simp [reduce_graph]

theorem reduce_graph_other (g : Graph) (loc u : Nat) (h : u ≠ loc) :
    (reduce_graph g loc).graph u = g.graph u := by
  simp [reduce_graph, Function.update_noteq h]

theorem reduce_graph_length (g : Graph) (loc : Nat) :
    ((reduce_graph g loc).graph loc).length ≤ g.max_degree_ := by
  rw [reduce_graph_at]
  split_ifs with h
  · rw [List.length_take]
    exact min_le_left _ _
  · omega

theorem mem_reduce_graph {g : Graph} {loc u : Nat} {n : Node}
    (h : n ∈ (reduce_graph g loc).graph u) : n ∈ g.graph u := by
  by_cases hu : u = loc
  · subst hu
    rw [reduce_graph_at] at h
    split_ifs at h
    · exact mem_std_sort.mp (mem_std_unique (List.mem_of_mem_take h))
    · exact mem_std_sort.mp (mem_std_unique h)
  · rwa [reduce_graph_other g loc u hu] at h

/-- The members that no step of the refinement changes. -/
theorem reduce_graph_params (g : Graph) (loc : Nat) :
    (reduce_graph g loc).max_degree_ = g.max_degree_ ∧
    (reduce_graph g loc).data_num_ = g.data_num_ ∧
    (reduce_graph g loc).get_distance = g.get_distance := ⟨rfl, rfl, rfl⟩

theorem foldl_params (body : Graph → Nat → Graph)
    (hbody : ∀ g i, (body g i).max_degree_ = g.max_degree_ ∧
      (body g i).data_num_ = g.data_num_ ∧ (body g i).get_distance = g.get_distance)
    (l : List Nat) (g : Graph) :
    (l.foldl body g).max_degree_ = g.max_degree_ ∧
    (l.foldl body g).data_num_ = g.data_num_ ∧
    (l.foldl body g).get_distance = g.get_distance := by
  induction l generalizing g with
  | nil => exact ⟨rfl, rfl, rfl⟩
  | cons i rest ih =>
    rw [List.foldl_cons]
    obtain ⟨h1, h2, h3⟩ := ih (body g i)
    obtain ⟨h4, h5, h6⟩ := hbody g i
    exact ⟨h1.trans h4, h2.trans h5, h3.trans h6⟩

theorem update_neighbors_at_params (g : Graph) (i : Nat) :
    (update_neighbors_at g i).max_degree_ = g.max_degree_ ∧
    (update_neighbors_at g i).data_num_ = g.data_num_ ∧
    (update_neighbors_at g i).get_distance = g.get_distance := ⟨rfl, rfl, rfl⟩

theorem update_neighbors_params (g : Graph) :
    (update_neighbors g).max_degree_ = g.max_degree_ ∧
    (update_neighbors g).data_num_ = g.data_num_ ∧
    (update_neighbors g).get_distance = g.get_distance :=
  foldl_params _ update_neighbors_at_params _ g

theorem add_reverse_edges_params (g : Graph) :
    (add_reverse_edges g).max_degree_ = g.max_degree_ ∧
    (add_reverse_edges g).data_num_ = g.data_num_ ∧
    (add_reverse_edges g).get_distance = g.get_distance := by
  exact foldl_params (merge_reverse_at (reverse_graph g)) (fun _ _ => ⟨rfl, rfl, rfl⟩) _ g

theorem refine_rounds_params (last : Nat) (rounds : List Nat) (g : Graph) :
    (refine_rounds last rounds g).max_degree_ = g.max_degree_ ∧
    (refine_rounds last rounds g).data_num_ = g.data_num_ ∧
    (refine_rounds last rounds g).get_distance = g.get_distance := by
  induction rounds generalizing g with
  | nil => exact ⟨rfl, rfl, rfl⟩
  | cons i rest ih =>
    unfold refine_rounds
    obtain ⟨a1, a2, a3⟩ := update_neighbors_params g
    split_ifs
    · obtain ⟨b1, b2, b3⟩ := add_reverse_edges_params (update_neighbors g)
      obtain ⟨c1, c2, c3⟩ := ih (add_reverse_edges (update_neighbors g))
      exact ⟨c1.trans (b1.trans a1), c2.trans (b2.trans a2), c3.trans (b3.trans a3)⟩
    · obtain ⟨c1, c2, c3⟩ := ih (update_neighbors g)
      exact ⟨c1.trans a1, c2.trans a2, c3.trans a3⟩

/-- After the loop that prunes the ids below `n`, their lists respect the degree. -/
theorem final_prune_length (n : Nat) (g : Graph) :
    ((List.range n).foldl reduce_graph g).max_degree_ = g.max_degree_ ∧
    ∀ i < n, (((List.range n).foldl reduce_graph g).graph i).length ≤ g.max_degree_ := by
  induction n with
  | zero => exact ⟨rfl, fun i hi => absurd hi (Nat.not_lt_zero i)⟩
  | succ n ih =>
    rw [List.range_succ, List.foldl_append, List.foldl_cons, List.foldl_nil]
    obtain ⟨h1, h2⟩ := ih
    refine ⟨h1, ?_⟩
    intro i hi
    by_cases hin : i = n
    · subst hin
      have := reduce_graph_length ((List.range i).foldl reduce_graph g) i
      rwa [h1] at this
    · rw [reduce_graph_other _ _ _ hin]
      exact h2 i (by omega)

theorem getGraph_getElem? {g : Graph} {u : Nat} {l : List Nat}
    (h : g.GetGraph[u]? = some l) : u < g.data_num_ ∧ l = (g.graph u).map (fun n => n.id) := by
  unfold GetGraph at h
  rw [List.getElem?_map] at h
  by_cases hu : u < g.data_num_
  · rw [List.getElem?_range hu] at h
    simp only [Option.map_some', Option.some.injEq] at h
    exact ⟨hu, h.symm⟩
  · rw [List.getElem?_eq_none (by simpa using hu)] at h
    simp at h

/-- The final pruning loop leaves every list that `GetGraph` returns within the degree. -/
theorem final_prune_getGraph (g : Graph) :
    (for_each_id reduce_graph g).GetGraph.length = g.data_num_ ∧
    ∀ l ∈ (for_each_id reduce_graph g).GetGraph, l.length ≤ g.max_degree_ := by
  obtain ⟨_, q2, _⟩ := foldl_params reduce_graph reduce_graph_params (List.range g.data_num_) g
  have hfinal := final_prune_length g.data_num_ g
  have hd : (for_each_id reduce_graph g).data_num_ = g.data_num_ := q2
  constructor
  · unfold GetGraph
    rw [List.length_map, List.length_range, hd]
  · intro l hl
    obtain ⟨u, hu⟩ := List.getElem?_of_mem hl
    obtain ⟨hlt, hl2⟩ := getGraph_getElem? hu
    rw [hl2, List.length_map]
    rw [hd] at hlt
    exact hfinal.2 u hlt

/-- The graph that `Build` hands to its rounds on a new builder. -/
theorem Build_fresh (max_degree : Nat) (turn : Int) (data_num : Nat)
    (get_distance : Nat → Nat → Int) (draw : Nat → Nat → Nat) :
    Build (create max_degree turn) data_num get_distance draw =
      (true, for_each_id reduce_graph (refine_rounds 9 (List.range 10)
        (init_graph { create max_degree turn with
          is_build_ := true, data_num_ := data_num, get_distance := get_distance } draw))) := by
  rfl

theorem Build_fresh_snd (max_degree : Nat) (turn : Int) (data_num : Nat)
    (get_distance : Nat → Nat → Int) (draw : Nat → Nat → Nat) :
    (Build (create max_degree turn) data_num get_distance draw).2 =
      for_each_id reduce_graph (refine_rounds 9 (List.range 10)
        (init_graph { create max_degree turn with
          is_build_ := true, data_num_ := data_num, get_distance := get_distance } draw)) := by
  rw [Build_fresh]

end Graph

/-- C17: for every data set, every maximum degree and every outcome of the random
initialisation, `Build` on a new builder returns true, `GetGraph` then returns one list per
vector, and every list that `GetGraph` returns has at most `max_degree` ids. -/
theorem Graph_Build_degree_bound (max_degree : Nat) (turn : Int) (data_num : Nat)
    (get_distance : Nat → Nat → Int) (draw : Nat → Nat → Nat) :
    (Graph.Build (Graph.create max_degree turn) data_num get_distance draw).1 = true ∧
    (Graph.Build (Graph.create max_degree turn) data_num get_distance draw).2.GetGraph.length
      = data_num ∧
    ∀ l ∈ (Graph.Build (Graph.create max_degree turn) data_num get_distance draw).2.GetGraph,
      l.length ≤ max_degree := by
  rw [Graph.Build_fresh]
  obtain ⟨p1, p2, _⟩ := Graph.refine_rounds_params 9 (List.range 10)
    (Graph.init_graph { Graph.create max_degree turn with
      is_build_ := true, data_num_ := data_num, get_distance := get_distance } draw)
  obtain ⟨h1, h2⟩ := Graph.final_prune_getGraph (Graph.refine_rounds 9 (List.range 10)
    (Graph.init_graph { Graph.create max_degree turn with
      is_build_ := true, data_num_ := data_num, get_distance := get_distance } draw))
  rw [p2] at h1
  rw [p1] at h2
  dsimp only
  exact ⟨rfl, h1, h2⟩

/-! ## Self-loops in the NN-descent builder -/

namespace Graph

theorem noSelfLoop_emplace_back {graph : Nat → List Node} {loc id : Nat} {d : Int}
    (h : NoSelfLoop graph) (hne : id ≠ loc) : NoSelfLoop (emplace_back graph loc id d) := by
  intro u n hn
  unfold emplace_back at hn
  by_cases hu : u = loc
  · subst hu
    rw [Function.update_same, List.mem_append, List.mem_singleton] at hn
    rcases hn with hn | rfl
    · exact h u n hn
    · exact hne
  · rw [Function.update_noteq hu] at hn
    exact h u n hn

theorem noSelfLoop_update {graph : Nat → List Node} {loc : Nat} {l : List Node}
    (h : NoSelfLoop graph) (hl : ∀ n ∈ l, n.id ≠ loc) :
    NoSelfLoop (Function.update graph loc l) := by
  intro u n hn
  by_cases hu : u = loc
  · subst hu
    rw [Function.update_same] at hn
    exact hl n hn
  · rw [Function.update_noteq hu] at hn
    exact h u n hn

theorem noSelfLoop_reduce_graph {g : Graph} {loc : Nat} (h : NoSelfLoop g.graph) :
    NoSelfLoop (reduce_graph g loc).graph :=
  fun u n hn => h u n (mem_reduce_graph hn)

theorem noSelfLoop_join_candidate (get_distance : Nat → Nat → Int) (oj : Node)
    (new_neighbors : List Node) (graph : Nat → List Node) (h : NoSelfLoop graph) :
    NoSelfLoop (join_candidate get_distance oj new_neighbors graph).2 := by
  induction new_neighbors with
  | nil => exact h
  | cons nk rest ih =>
    unfold join_candidate
    dsimp only
    split_ifs with h1 h2 h3
    · exact ih
    · exact h
    · exact noSelfLoop_emplace_back h h2
    · exact ih

theorem noSelfLoop_local_join (get_distance : Nat → Nat → Int) (old_neighbors : List Node)
    (j last_id : Nat) (new_neighbors : List Node) (graph : Nat → List Node)
    (h : NoSelfLoop graph) :
    NoSelfLoop (local_join get_distance old_neighbors j last_id new_neighbors graph).2 ∧
    ∀ n ∈ (local_join get_distance old_neighbors j last_id new_neighbors graph).1,
      n ∈ new_neighbors ∨ n ∈ old_neighbors := by
  induction old_neighbors generalizing j last_id new_neighbors graph with
  | nil => exact ⟨h, fun n hn => Or.inl hn⟩
  | cons oj rest ih =>
    unfold local_join
    split_ifs with h1
    · obtain ⟨a, b⟩ := ih (j + 1) last_id new_neighbors graph h
      refine ⟨a, fun n hn => ?_⟩
      rcases b n hn with hb | hb
      · exact Or.inl hb
      · exact Or.inr (List.mem_cons_of_mem _ hb)
    · obtain ⟨a, b⟩ := ih (j + 1) oj.id
        (if (join_candidate get_distance oj new_neighbors graph).1 then new_neighbors ++ [oj]
          else new_neighbors)
        (join_candidate get_distance oj new_neighbors graph).2
        (noSelfLoop_join_candidate get_distance oj new_neighbors graph h)
      refine ⟨a, fun n hn => ?_⟩
      rcases b n hn with hb | hb
      · split_ifs at hb
        · rcases List.mem_append.mp hb with hb | hb
          · exact Or.inl hb
          · rw [List.mem_singleton] at hb
            subst hb
            exact Or.inr (List.mem_cons_self _ _)
        · exact Or.inl hb
      · exact Or.inr (List.mem_cons_of_mem _ hb)

theorem noSelfLoop_update_neighbors_at (g : Graph) (i : Nat) (h : NoSelfLoop g.graph) :
    NoSelfLoop (update_neighbors_at g i).graph := by
  unfold update_neighbors_at
  apply noSelfLoop_reduce_graph
  obtain ⟨a, b⟩ := noSelfLoop_local_join g.get_distance (std_sort (g.graph i)) 0 4294967295 []
    (Function.update g.graph i []) (noSelfLoop_update h (fun n hn => by simp at hn))
  apply noSelfLoop_update a
  intro n hn
  rcases List.mem_append.mp hn with hn | hn
  · exact a i n hn
  · obtain ⟨m, hm, rfl⟩ := List.mem_map.mp hn
    rcases b m hm with hb | hb
    · simp at hb
    · exact h i m (mem_std_sort.mp hb)

theorem noSelfLoop_foldl (body : Graph → Nat → Graph)
    (hbody : ∀ g i, NoSelfLoop g.graph → NoSelfLoop (body g i).graph)
    (l : List Nat) (g : Graph) (h : NoSelfLoop g.graph) : NoSelfLoop (l.foldl body g).graph := by
  induction l generalizing g with
  | nil => exact h
  | cons i rest ih => exact ih (body g i) (hbody g i h)

theorem noSelfLoop_for_each_id (body : Graph → Nat → Graph)
    (hbody : ∀ g i, NoSelfLoop g.graph → NoSelfLoop (body g i).graph)
    (g : Graph) (h : NoSelfLoop g.graph) : NoSelfLoop (for_each_id body g).graph :=
  noSelfLoop_foldl body hbody _ g h

theorem noSelfLoop_update_neighbors (g : Graph) (h : NoSelfLoop g.graph) :
    NoSelfLoop (update_neighbors g).graph :=
  noSelfLoop_foldl update_neighbors_at noSelfLoop_update_neighbors_at _ g h

theorem noSelfLoop_reverse_inner (i : Nat) (l : List Node) (rev : Nat → List Node)
    (hl : ∀ n ∈ l, n.id ≠ i) (h : NoSelfLoop rev) :
    NoSelfLoop (l.foldl (fun rev node => emplace_back rev node.id i node.distance) rev) := by
  induction l generalizing rev with
  | nil => exact h
  | cons n rest ih =>
    rw [List.foldl_cons]
    exact ih _ (fun m hm => hl m (List.mem_cons_of_mem _ hm))
      (noSelfLoop_emplace_back h (fun e => hl n (List.mem_cons_self _ _) e.symm))

theorem noSelfLoop_reverse_graph (g : Graph) (h : NoSelfLoop g.graph) :
    NoSelfLoop (reverse_graph g) := by
  unfold reverse_graph
  generalize List.range g.data_num_ = ids
  have key : ∀ (rev : Nat → List Node), NoSelfLoop rev →
      NoSelfLoop (ids.foldl (fun rev i => (g.graph i).foldl
        (fun rev node => emplace_back rev node.id i node.distance) rev) rev) := by
    induction ids with
    | nil => exact fun rev hrev => hrev
    | cons i rest ih =>
      intro rev hrev
      rw [List.foldl_cons]
      exact ih _ (noSelfLoop_reverse_inner i (g.graph i) rev (h i) hrev)
  exact key _ (fun u n hn => by simp at hn)

theorem noSelfLoop_add_reverse_edges (g : Graph) (h : NoSelfLoop g.graph) :
    NoSelfLoop (add_reverse_edges g).graph := by
  have hrev := noSelfLoop_reverse_graph g h
  refine noSelfLoop_foldl (merge_reverse_at (reverse_graph g)) ?_ _ g h
  intro g1 i h1
  unfold merge_reverse_at
  apply noSelfLoop_reduce_graph
  apply noSelfLoop_update h1
  intro n hn
  rcases List.mem_append.mp hn with hn | hn
  · exact h1 i n hn
  · exact hrev i n hn

theorem noSelfLoop_refine_rounds (last : Nat) (rounds : List Nat) (g : Graph)
    (h : NoSelfLoop g.graph) : NoSelfLoop (refine_rounds last rounds g).graph := by
  induction rounds generalizing g with
  | nil => exact h
  | cons i rest ih =>
    unfold refine_rounds
    split_ifs
    · exact ih _ (noSelfLoop_add_reverse_edges _ (noSelfLoop_update_neighbors g h))
    · exact ih _ (noSelfLoop_update_neighbors g h)

theorem noSelfLoop_init_graph (g : Graph) (draw : Nat → Nat → Nat)
    (h : NoSelfLoop g.graph) (hdraw : ∀ i j, draw i j ≠ i) :
    NoSelfLoop (init_graph g draw).graph := by
  intro u n hn
  unfold init_graph at hn
  dsimp only at hn
  split_ifs at hn
  · rcases List.mem_append.mp hn with hn | hn
    · exact h u n hn
    · unfold init_entries at hn
      obtain ⟨j, _, rfl⟩ := List.mem_map.mp hn
      exact hdraw u j
  · exact h u n hn

theorem getGraph_getD (g : Graph) (u : Nat) :
    g.GetGraph.getD u [] = if u < g.data_num_ then (g.graph u).map (fun n => n.id) else [] := by
  unfold GetGraph
  rw [List.getD_eq_getElem?_getD, List.getElem?_map]
  split_ifs with hu
  · rw [List.getElem?_range hu]
    rfl
  · rw [List.getElem?_eq_none (by simpa using hu)]
    rfl

theorem noSelfLoop_getGraph (g : Graph) (h : NoSelfLoop g.graph) (u : Nat) :
    u ∉ g.GetGraph.getD u [] := by
  rw [getGraph_getD]
  split_ifs
  · intro hu
    obtain ⟨n, hn, hid⟩ := List.mem_map.mp hu
    exact h u n hn hid
  · simp

end Graph

set_option maxRecDepth 100000 in
/-- C18 (counterexample): on a data set of one vector the random initialisation can only draw
id 0, and the list that `GetGraph` returns for id 0 after `Build` holds id 0 itself. -/
theorem Graph_Build_self_loop :
    (Graph.Build (Graph.create 2 10) 1 (line_distance [0]) (fun _ _ => 0)).1 = true ∧
    (0 : Nat) ∈ ((Graph.Build (Graph.create 2 10) 1 (line_distance [0])
      (fun _ _ => 0)).2.GetGraph).getD 0 [] := by
  decide

/-- C18 (amended): when the random initialisation never draws the id of the list it fills,
the graph produced by `Build` on a new builder has no self-loop: no id `u` occurs in the list
that `GetGraph` returns at position `u`. -/
theorem Graph_Build_no_self_loop (max_degree : Nat) (turn : Int) (data_num : Nat)
    (get_distance : Nat → Nat → Int) (draw : Nat → Nat → Nat)
    (hdraw : ∀ i j, draw i j ≠ i) (u : Nat) :
    u ∉ (Graph.Build (Graph.create max_degree turn) data_num get_distance draw).2.GetGraph.getD
      u [] := by
  rw [Graph.Build_fresh_snd]
  have h1 := Graph.noSelfLoop_init_graph { Graph.create max_degree turn with
      is_build_ := true, data_num_ := data_num, get_distance := get_distance } draw
    (fun u n hn => absurd hn (List.not_mem_nil n)) hdraw
  have h2 := Graph.noSelfLoop_refine_rounds 9 (List.range 10) _ h1
  have h3 := Graph.noSelfLoop_for_each_id Graph.reduce_graph
    (fun g i hg => Graph.noSelfLoop_reduce_graph hg) _ h2
  exact Graph.noSelfLoop_getGraph _ h3 u

set_option maxRecDepth 100000 in
/-- C18 (amended), an instance: three vectors at 0, 1 and 3, every list initialised with the
next id; the list of id 1 after `Build` is `[0]`. -/
theorem Graph_Build_no_self_loop_witness :
    (Graph.Build (Graph.create 1 1) 3 (line_distance [0, 1, 3]) ring_draw).2.GetGraph.getD 1 []
      = [0] ∧
    1 ∉ (Graph.Build (Graph.create 1 1) 3 (line_distance [0, 1, 3]) ring_draw).2.GetGraph.getD
      1 [] :=
  ⟨by decide, Graph_Build_no_self_loop 1 1 3 (line_distance [0, 1, 3]) ring_draw
    (fun i j => by unfold ring_draw; omega) 1⟩

/-! ## Pruning and the number of rounds of the NN-descent builder -/

namespace Graph

/-- A loop whose body does not read the configured number of turns does not read it either. -/
theorem foldl_turn (body : Graph → Nat → Graph) (t : Int)
    (hbody : ∀ g i, body { g with turn_ := t } i = { body g i with turn_ := t })
    (l : List Nat) (g : Graph) :
    l.foldl body { g with turn_ := t } = { l.foldl body g with turn_ := t } := by
  induction l generalizing g with
  | nil => rfl
  | cons i rest ih => rw [List.foldl_cons, List.foldl_cons, hbody, ih]

theorem update_neighbors_turn (t : Int) (g : Graph) :
    update_neighbors { g with turn_ := t } = { update_neighbors g with turn_ := t } :=
  foldl_turn update_neighbors_at t (fun _ _ => rfl) _ g

theorem add_reverse_edges_turn (t : Int) (g : Graph) :
    add_reverse_edges { g with turn_ := t } = { add_reverse_edges g with turn_ := t } :=
  foldl_turn (merge_reverse_at (reverse_graph g)) t (fun _ _ => rfl) _ g

theorem refine_rounds_turn (t : Int) (last : Nat) (rounds : List Nat) (g : Graph) :
    refine_rounds last rounds { g with turn_ := t } =
      { refine_rounds last rounds g with turn_ := t } := by
  induction rounds generalizing g with
  | nil => rfl
  | cons i rest ih =>
    unfold refine_rounds
    dsimp only
    rw [update_neighbors_turn]
    split_ifs
    · rw [add_reverse_edges_turn, ih]
    · rw [ih]

theorem final_prune_turn (t : Int) (g : Graph) :
    for_each_id reduce_graph { g with turn_ := t } =
      { for_each_id reduce_graph g with turn_ := t } :=
  foldl_turn reduce_graph t (fun _ _ => rfl) _ g

theorem getGraph_turn (t : Int) (g : Graph) : GetGraph { g with turn_ := t } = GetGraph g :=
  rfl

end Graph

set_option maxRecDepth 100000 in
/-- C19 (failing input): the list of id 0 holds id 1, id 2 and id 1 again, all at distance 5;
after `reduce_graph` it still holds id 1 twice.  The same list comes out of `Build` on the
points 0, -5 and 5 when the initialisation draws 1, 2, 1 for id 0. -/
theorem Graph_reduce_graph_keeps_duplicate :
    ((Graph.reduce_graph tied_graph 0).graph 0).map (fun n => (n.id, n.distance))
      = [(1, 5), (2, 5), (1, 5)] ∧
    ¬ (((Graph.reduce_graph tied_graph 0).graph 0).map (fun n => n.id)).Nodup ∧
    (Graph.Build (Graph.create 3 10) 3 (line_distance [0, -5, 5]) tied_draw).2.GetGraph
      = [[1, 2, 1], [0], [0]] := by
  decide

set_option maxRecDepth 100000 in
/-- C20 (failing input): the result of `Build` is the same for every configured number of
turns, and with one turn configured on the points 0, 1 and 3 (every list initialised with the
next id) it is `[[1], [0], [1]]`, while init, one refinement round and the final prune give
`[[1], [2], [0]]`. -/
theorem Graph_Build_ignores_turn :
    (∀ (max_degree : Nat) (t1 t2 : Int) (data_num : Nat) (get_distance : Nat → Nat → Int)
      (draw : Nat → Nat → Nat),
      (Graph.Build (Graph.create max_degree t1) data_num get_distance draw).2.GetGraph =
        (Graph.Build (Graph.create max_degree t2) data_num get_distance draw).2.GetGraph) ∧
    (Graph.Build (Graph.create 1 1) 3 (line_distance [0, 1, 3]) ring_draw).2.GetGraph
      = [[1], [0], [1]] ∧
    (Build_reference (Graph.create 1 1) 3 (line_distance [0, 1, 3]) ring_draw).GetGraph
      = [[1], [2], [0]] := by
  refine ⟨?_, by decide, by decide⟩
  intro max_degree t1 t2 data_num get_distance draw
  rw [Graph.Build_fresh_snd, Graph.Build_fresh_snd]
  have e : Graph.init_graph { Graph.create max_degree t1 with
      is_build_ := true, data_num_ := data_num, get_distance := get_distance } draw =
      { Graph.init_graph { Graph.create max_degree t2 with
      is_build_ := true, data_num_ := data_num, get_distance := get_distance } draw with
        turn_ := t1 } := rfl
  rw [e, Graph.refine_rounds_turn, Graph.final_prune_turn, Graph.getGraph_turn]


/-! ## The ids whose distance the search computes -/

theorem valid_head_max {x : Candidate} {xs : MaxHeap} (hv : MaxHeap.Valid (x :: xs)) :
    ∀ c ∈ x :: xs, c.1 ≤ x.1 := by
  intro c hc
  rcases List.mem_cons.mp hc with rfl | hc
  · exact le_refl _
  · unfold MaxHeap.Valid at hv
    have := (List.pairwise_cons.mp hv).1 c hc
    rw [pair_lt_eq_false_iff] at this
    rcases this with h | ⟨h, _⟩ <;> omega

theorem offer_lower_bound (ef : Nat) (dist : Int) (v : Nat) (s : MaxHeap × MaxHeap × Int) :
    (offer ef dist v s).2.2 =
      if s.2.1.size < ef ∨ s.2.2 > dist then
        (match (offer ef dist v s).2.1.top? with
          | some t => t.1
          | none => s.2.2)
      else s.2.2 := by
  unfold offer
  by_cases hc : s.2.1.size < ef ∨ s.2.2 > dist
  · simp only [if_pos hc]
  · simp only [if_neg hc]

theorem offer_track (ef : Nat) (hef : 1 ≤ ef) (dist : Int) (v : Nat)
    (s : MaxHeap × MaxHeap × Int) (P D : List Candidate)
    (h : OfferTrack ef P D s.2.1 s.2.2) :
    ∃ D', OfferTrack ef (P ++ [(dist, v)]) D' (offer ef dist v s).2.1 (offer ef dist v s).2.2 := by
  obtain ⟨hv, hne, hlen, hlb, hperm, hD, hfull⟩ := h
  obtain ⟨x, xs, hx⟩ := List.exists_cons_of_ne_nil hne
  have hlbx : s.2.2 = x.1 := by
    rw [hx] at hlb
    simpa using hlb.symm
  have hmax : ∀ c ∈ s.2.1, c.1 ≤ s.2.2 := by
    rw [hlbx, hx]
    rw [hx] at hv
    exact valid_head_max hv
  have hl := MaxHeap.emplace_length s.2.1 dist v
  have hpv := MaxHeap.emplace_valid hv dist v
  have hpp := MaxHeap.emplace_perm s.2.1 dist v
  rw [offer_lower_bound, offer_cur_result]
  by_cases hc : s.2.1.size < ef ∨ s.2.2 > dist
  · rw [if_pos hc, if_pos hc]
    by_cases hsz : (MaxHeap.emplace s.2.1 dist v).size > ef
    · rw [if_pos hsz]
      simp only [MaxHeap.size, hl] at hsz hc
      have hlen_eq : s.2.1.length = ef := by omega
      have hgt : s.2.2 > dist := by
        rcases hc with hc | hc
        · omega
        · exact hc
      obtain ⟨t, w, htw⟩ := List.exists_cons_of_ne_nil (MaxHeap.emplace_ne_nil s.2.1 dist v)
      have hwlen : w.length = ef := by
        have := congrArg List.length htw
        rw [hl, List.length_cons] at this
        omega
      obtain ⟨y, ys, hy⟩ := List.exists_cons_of_ne_nil
        (show w ≠ [] from fun hw => by rw [hw] at hwlen; simp at hwlen; omega)
      rw [htw] at hpv hpp
      have htmax := valid_head_max hpv
      refine ⟨t :: D, ?_⟩
      simp only [MaxHeap.pop, htw, List.tail_cons, MaxHeap.top?]
      refine ⟨?_, ?_, ?_, ?_, ?_, ?_, ?_⟩
      · exact (List.pairwise_cons.mp hpv).2
      · rw [hy]; simp
      · omega
      · rw [hy]; simp
      · have h1 : List.Perm (w ++ t :: D) ((t :: w) ++ D) := by
          simp
        refine h1.trans ?_
        refine (List.Perm.append_right D hpp).trans ?_
        simp only [List.cons_append]
        refine List.Perm.trans (List.Perm.cons _ hperm) ?_
        exact (List.perm_append_singleton _ _).symm
      · intro d hd c hcw
        rcases List.mem_cons.mp hd with rfl | hd
        · exact htmax c (List.mem_cons_of_mem _ hcw)
        · have hcm : c ∈ (dist, v) :: s.2.1 := hpp.subset (List.mem_cons_of_mem _ hcw)
          rcases List.mem_cons.mp hcm with rfl | hcm
          · have := hD d hd x (by rw [hx]; exact List.mem_cons_self _ _)
            simp only
            omega
          · exact hD d hd c hcm
      · intro _; exact hwlen
    · rw [if_neg hsz]
      simp only [MaxHeap.size, hl, gt_iff_lt, not_lt] at hsz
      have hDnil : D = [] := by
        by_contra hDne
        have := hfull hDne
        omega
      subst hDnil
      obtain ⟨t, w, htw⟩ := List.exists_cons_of_ne_nil (MaxHeap.emplace_ne_nil s.2.1 dist v)
      refine ⟨[], hpv, MaxHeap.emplace_ne_nil _ _ _, by omega, ?_, ?_, ?_, ?_⟩
      · simp only [MaxHeap.top?, htw, List.head?_cons, Option.map_some']
      · simp only [List.append_nil] at hperm ⊢
        exact hpp.trans ((List.Perm.cons _ hperm).trans (List.perm_append_singleton _ _).symm)
      · intro d hd; simp at hd
      · intro hc2; exact absurd rfl hc2
  · rw [if_neg hc, if_neg hc]
    simp only [MaxHeap.size, gt_iff_lt, not_or, not_lt] at hc
    refine ⟨(dist, v) :: D, hv, hne, hlen, hlb, ?_, ?_, ?_⟩
    · refine List.perm_middle.trans ?_
      exact (List.Perm.cons _ hperm).trans (List.perm_append_singleton _ _).symm
    · intro d hd c hcw
      rcases List.mem_cons.mp hd with rfl | hd
      · have := hmax c hcw
        simp only
        omega
      · exact hD d hd c hcw
    · intro _; omega

theorem offer_all_track (qdist : Nat → Int) (ef : Nat) (hef : 1 ≤ ef) (l : List Nat)
    (s : MaxHeap × MaxHeap × Int) (P D : List Candidate)
    (h : OfferTrack ef P D s.2.1 s.2.2) :
    ∃ D', OfferTrack ef (P ++ l.map (fun u => (qdist u, u))) D'
      (offer_all qdist ef l s).2.1 (offer_all qdist ef l s).2.2 := by
  induction l generalizing s P D with
  | nil => exact ⟨D, by simpa using h⟩
  | cons v rest ih =>
    obtain ⟨D1, h1⟩ := offer_track ef hef (qdist v) v s P D h
    obtain ⟨D2, h2⟩ := ih (offer ef (qdist v) v s) (P ++ [(qdist v, v)]) D1 h1
    refine ⟨D2, ?_⟩
    simpa [offer_all] using h2

theorem collect_unvisited_spec (tag : Nat) (nbrs : List Nat) (va : Nat → Nat) (acc : List Nat) :
    ∃ fresh, (collect_unvisited tag nbrs va acc).1 = acc ++ fresh ∧ fresh.Nodup ∧
      (∀ u ∈ fresh, va u ≠ tag ∧ u ∈ nbrs) ∧
      (∀ u, (collect_unvisited tag nbrs va acc).2 u = tag ↔ va u = tag ∨ u ∈ fresh) ∧
      (∀ u, u ∉ fresh → (collect_unvisited tag nbrs va acc).2 u = va u) := by
  induction nbrs generalizing va acc with
  | nil => exact ⟨[], by simp [collect_unvisited]⟩
  | cons n rest ih =>
    unfold collect_unvisited
    split_ifs with h
    · obtain ⟨fresh, h1, h2, h3, h4, h5⟩ := ih (Function.update va n tag) (acc ++ [n])
      have hn : n ∉ fresh := fun hmem => (h3 n hmem).1 (by simp)
      refine ⟨n :: fresh, by rw [h1]; simp, List.nodup_cons.mpr ⟨hn, h2⟩, ?_, ?_, ?_⟩
      · intro u hu
        rcases List.mem_cons.mp hu with rfl | hu
        · exact ⟨h, List.mem_cons_self _ _⟩
        · have hun : u ≠ n := fun e => hn (e ▸ hu)
          have := (h3 u hu).1
          rw [Function.update_noteq hun] at this
          exact ⟨this, List.mem_cons_of_mem _ (h3 u hu).2⟩
      · intro u
        rw [h4 u, List.mem_cons]
        by_cases hun : u = n
        · subst hun; simp
        · rw [Function.update_noteq hun]
          constructor
          · rintro (h6 | h6)
            · exact Or.inl h6
            · exact Or.inr (Or.inr h6)
          · rintro (h6 | h6 | h6)
            · exact Or.inl h6
            · exact absurd h6 hun
            · exact Or.inr h6
      · intro u hu
        rw [List.mem_cons, not_or] at hu
        rw [h5 u hu.2, Function.update_noteq hu.1]
    · obtain ⟨fresh, h1, h2, h3, h4, h5⟩ := ih va acc
      exact ⟨fresh, h1, h2, fun u hu => ⟨(h3 u hu).1, List.mem_cons_of_mem _ (h3 u hu).2⟩,
        h4, h5⟩

theorem offer_all_tracked (qdist : Nat → Int) (ef : Nat) (hef : 1 ≤ ef) (l : List Nat)
    (s : MaxHeap × MaxHeap × Int) (V : List Nat) (h : OfferTracked qdist ef V s.2.1 s.2.2) :
    OfferTracked qdist ef (V ++ l) (offer_all qdist ef l s).2.1 (offer_all qdist ef l s).2.2 := by
  obtain ⟨D, hD⟩ := h
  obtain ⟨D', hD'⟩ := offer_all_track qdist ef hef l s _ D hD
  exact ⟨D', by rw [List.map_append]; exact hD'⟩

theorem search_step_track (T : List Nat → MaxHeap → Int → Prop) (qdist : Nat → Int)
    (graph : GraphInterface) (ep ef tag : Nat)
    (hT : ∀ l s V, T V s.2.1 s.2.2 →
      T (V ++ l) (offer_all qdist ef l s).2.1 (offer_all qdist ef l s).2.2)
    (mass0 : Nat → Nat) (V : List Nat)
    (st st' : SearchState) (hstep : search_step qdist graph ef tag st = some st')
    (h : SearchTrack T graph ep tag mass0 V st) :
    ∃ V', SearchTrack T graph ep tag mass0 V' st' := by
  unfold search_step at hstep
  split at hstep
  · exact absurd hstep (by simp)
  · next top htop =>
    split_ifs at hstep
    simp only [Option.some.injEq] at hstep
    subst hstep
    obtain ⟨hnd, hmem, hep, hmono, hreach, htrack⟩ := h
    obtain ⟨fresh, h1, h2, h3, h4, h5⟩ :=
      collect_unvisited_spec tag (graph.GetNeighbors top.2) st.visited_array []
    rw [List.nil_append] at h1
    have hD' := hT fresh (MaxHeap.pop st.candidate_set, st.cur_result, st.lower_bound) V htrack
    refine ⟨V ++ fresh, ?_, ?_, ?_, ?_, ?_, ?_⟩
    · rw [List.nodup_append]
      refine ⟨hnd, h2, ?_⟩
      intro u hu hf
      have hva : st.visited_array u = tag := by
        rcases (hmem u).mp hu with rfl | ⟨_, h6⟩
        · exact hep
        · exact h6
      exact (h3 u hf).1 hva
    · intro u
      simp only
      rw [List.mem_append, hmem u, h4 u]
      constructor
      · rintro (h6 | h6)
        · rcases h6 with h6 | ⟨h6, h7⟩
          · exact Or.inl h6
          · exact Or.inr ⟨h6, Or.inl h7⟩
        · refine Or.inr ⟨fun h7 => (h3 u h6).1 (hmono u h7), Or.inr h6⟩
      · rintro (h6 | ⟨h6, h7 | h7⟩)
        · exact Or.inl (Or.inl h6)
        · exact Or.inl (Or.inr ⟨h6, h7⟩)
        · exact Or.inr h7
    · simp only
      rw [h4 ep]
      exact Or.inl hep
    · intro u hu
      simp only
      rw [h4 u]
      exact Or.inl (hmono u hu)
    · intro u hu
      rcases List.mem_append.mp hu with hu | hu
      · exact hreach u hu
      · exact Or.inr ⟨top.2, (h3 u hu).2⟩
    · simp only
      rw [h1]
      exact hD'

theorem search_loop_track (T : List Nat → MaxHeap → Int → Prop) (qdist : Nat → Int)
    (graph : GraphInterface) (ep ef tag : Nat)
    (hT : ∀ l s V, T V s.2.1 s.2.2 →
      T (V ++ l) (offer_all qdist ef l s).2.1 (offer_all qdist ef l s).2.2)
    (mass0 : Nat → Nat) (fuel : Nat) (V : List Nat)
    (st : SearchState) (h : SearchTrack T graph ep tag mass0 V st) :
    ∃ V', SearchTrack T graph ep tag mass0 V' (search_loop qdist graph ef tag fuel st) := by
  induction fuel generalizing st V with
  | zero => exact ⟨V, h⟩
  | succ n ih =>
    unfold search_loop
    split
    · exact ⟨V, h⟩
    · next st' hstep =>
      obtain ⟨V1, h1⟩ := search_step_track T qdist graph ep ef tag hT mass0 V st st' hstep h
      exact ih V1 st' h1

theorem search_init_track (T : List Nat → MaxHeap → Int → Prop) (qdist : Nat → Int)
    (graph : GraphInterface) (ep : Nat) (vl : VisitedList)
    (hinit : T [ep] [(qdist ep, ep)] (qdist ep)) :
    SearchTrack T graph ep vl.curV vl.mass [ep] (search_init qdist ep vl) := by
  refine ⟨by simp, ?_, by simp [search_init], ?_, ?_, ?_⟩
  · intro u
    simp only [search_init, List.mem_singleton]
    constructor
    · intro h; exact Or.inl h
    · rintro (h | ⟨h1, h2⟩)
      · exact h
      · by_contra hne
        rw [Function.update_noteq hne] at h2
        exact h1 h2
  · intro u hu
    simp only [search_init]
    by_cases hne : u = ep
    · subst hne; simp
    · rw [Function.update_noteq hne]; exact hu
  · intro u hu
    exact Or.inl (List.mem_singleton.mp hu)
  · exact hinit

theorem offerTracked_init (qdist : Nat → Int) (ep ef : Nat) (hef : 1 ≤ ef) :
    OfferTracked qdist ef [ep] [(qdist ep, ep)] (qdist ep) := by
  refine ⟨[], ?_, ?_, ?_, ?_, ?_, ?_, ?_⟩
  · simp [MaxHeap.Valid]
  · simp
  · simpa using hef
  · simp
  · simp
  · intro d hd; simp at hd
  · intro hc; exact absurd rfl hc

/-- The ids whose distance `search_one_graph` computed, and what the returned heap holds of
them. -/
theorem search_one_graph_track (T : List Nat → MaxHeap → Int → Prop) (pool : VisitedListPool)
    (query : List Int) (graph : GraphInterface) (flatten : FlattenInterface) (ep ef : Nat)
    (isIdAllowed : Option (Nat → Bool))
    (hT : ∀ l s V, T V s.2.1 s.2.2 →
      T (V ++ l) (offer_all (flatten.Query query) ef l s).2.1
        (offer_all (flatten.Query query) ef l s).2.2)
    (hinit : T [ep] [(flatten.Query query ep, ep)] (flatten.Query query ep)) :
    ∃ V, SearchTrack T graph ep pool.getFreeVisitedList.curV
      pool.getFreeVisitedList.mass V
      (search_final query graph flatten ep ef pool.getFreeVisitedList) ∧
      (search_one_graph pool query graph flatten ep ef isIdAllowed).1 =
        (search_final query graph flatten ep ef pool.getFreeVisitedList).cur_result ∧
      (search_one_graph pool query graph flatten ep ef isIdAllowed).2.buffer.mass =
        (search_final query graph flatten ep ef pool.getFreeVisitedList).visited_array := by
  obtain ⟨V, h⟩ := search_loop_track T (flatten.Query query) graph ep ef
    pool.getFreeVisitedList.curV hT pool.getFreeVisitedList.mass (search_fuel graph) [ep]
    _ (search_init_track T (flatten.Query query) graph ep pool.getFreeVisitedList hinit)
  exact ⟨V, h, rfl, rfl⟩

theorem reverse_eq_take_sorted {W D : List Candidate} {L : List Int} (hv : MaxHeap.Valid W)
    (hperm : List.Perm ((W ++ D).map Prod.fst) L)
    (hD : ∀ d ∈ D, ∀ c ∈ W, c.1 ≤ d.1) :
    W.reverse.map Prod.fst = (L.insertionSort (· ≤ ·)).take W.length := by
  have hA : List.Sorted (· ≤ ·) (W.reverse.map Prod.fst) := valid_reverse_sorted hv
  have hB : List.Sorted (· ≤ ·) ((D.map Prod.fst).insertionSort (· ≤ ·)) :=
    List.sorted_insertionSort _ _
  have hAB : List.Sorted (· ≤ ·)
      (W.reverse.map Prod.fst ++ (D.map Prod.fst).insertionSort (· ≤ ·)) := by
    unfold List.Sorted
    rw [List.pairwise_append]
    refine ⟨hA, hB, ?_⟩
    intro a ha b hb
    rw [List.mem_map] at ha
    obtain ⟨c, hc, rfl⟩ := ha
    have hb2 : b ∈ D.map Prod.fst := (List.perm_insertionSort _ _).subset hb
    rw [List.mem_map] at hb2
    obtain ⟨d, hd, rfl⟩ := hb2
    exact hD d hd c (List.mem_reverse.mp hc)
  have hp : List.Perm (W.reverse.map Prod.fst ++ (D.map Prod.fst).insertionSort (· ≤ ·))
      (L.insertionSort (· ≤ ·)) := by
    refine List.Perm.trans ?_ (List.perm_insertionSort _ _).symm
    refine List.Perm.trans ?_ hperm
    rw [List.map_append]
    exact List.Perm.append ((List.reverse_perm W).map _) (List.perm_insertionSort _ _)
  have heq := List.eq_of_perm_of_sorted hp hAB (List.sorted_insertionSort _ _)
  rw [← heq]
  have hlen : W.length = (W.reverse.map Prod.fst).length := by simp
  rw [hlen, List.take_left']
  rfl

theorem pop_down_to_reverse (k : Nat) (h : MaxHeap) :
    (pop_down_to k h).reverse = h.reverse.take k := by
  induction h with
  | nil => simp [pop_down_to]
  | cons x xs ih =>
    unfold pop_down_to
    split_ifs with hc
    · simp only [MaxHeap.size, List.length_cons] at hc
      rw [ih, List.reverse_cons, List.take_append_of_le_length (by simp; omega)]
    · simp only [MaxHeap.size, List.length_cons, not_lt] at hc
      rw [List.take_of_length_le (by simp; omega)]

/-- C16: for `ef >= 1` there is a duplicate-free list `V` of the ids whose distance to the
query `search_one_graph` computed: the entry point, and every id that did not carry the current
tag before the search and carries it after.  The returned heap has exactly `min ef |V|`
entries, and its distances, read in ascending order, are the first `min ef |V|` entries of the
sorted list of the distances of `V`: the smallest ones.  After the truncation loop of
`knn_search` to `k` entries and the filling of the positions, the distances are the first
`min k (min ef |V|)` entries of that sorted list. -/
theorem search_one_graph_smallest_computed (pool : VisitedListPool) (query : List Int)
    (graph : GraphInterface) (flatten : FlattenInterface) (ep ef : Nat)
    (isIdAllowed : Option (Nat → Bool)) (k : Nat) (hef : 1 ≤ ef) :
    ∃ V : List Nat, V.Nodup ∧
      (∀ u, u ∈ V ↔ u = ep ∨
        (pool.getFreeVisitedList.mass u ≠ pool.getFreeVisitedList.curV ∧
          (search_one_graph pool query graph flatten ep ef isIdAllowed).2.buffer.mass u =
            pool.getFreeVisitedList.curV)) ∧
      (search_one_graph pool query graph flatten ep ef isIdAllowed).1.size = min ef V.length ∧
      (search_one_graph pool query graph flatten ep ef isIdAllowed).1.reverse.map Prod.fst =
        ((V.map (flatten.Query query)).insertionSort (· ≤ ·)).take (min ef V.length) ∧
      (fill_positions (pop_down_to k
          (search_one_graph pool query graph flatten ep ef isIdAllowed).1)).map Prod.fst =
        ((V.map (flatten.Query query)).insertionSort (· ≤ ·)).take (min k (min ef V.length)) := by
  obtain ⟨V, ⟨hnd, hmem, _, _, _, D, htrack⟩, hres, hmass⟩ :=
    search_one_graph_track (OfferTracked (flatten.Query query) ef) pool query graph flatten ep ef
      isIdAllowed (offer_all_tracked (flatten.Query query) ef hef)
      (offerTracked_init (flatten.Query query) ep ef hef)
  obtain ⟨hv, hne, hlen, _, hperm, hD, hfull⟩ := htrack
  rw [← hres] at hv hlen hperm hD hfull
  have hsize : (search_one_graph pool query graph flatten ep ef isIdAllowed).1.length =
      min ef V.length := by
    have h1 := hperm.length_eq
    rw [List.length_append, List.length_map] at h1
    by_cases hDn : D = []
    · subst hDn
      simp only [List.length_nil, Nat.add_zero] at h1
      omega
    · have := hfull hDn
      omega
  have hp2 : List.Perm (((search_one_graph pool query graph flatten ep ef isIdAllowed).1 ++
      D).map Prod.fst) (V.map (flatten.Query query)) := by
    have := hperm.map Prod.fst
    rwa [List.map_map] at this
  have hsorted := reverse_eq_take_sorted hv hp2 hD
  rw [hsize] at hsorted
  refine ⟨V, hnd, ?_, hsize, hsorted, ?_⟩
  · intro u
    rw [hmass]
    exact hmem u
  · rw [fill_positions_eq_reverse, pop_down_to_reverse, List.map_take, hsorted, List.take_take]

/-- The theorem of C16 on `triangle_graph`, the query at 0, the entry point 0 and `ef = 2`,
truncated to `k = 1`. -/
theorem search_one_graph_smallest_computed_witness :
    (1 : Nat) ≤ 2 ∧
    ∃ V : List Nat, V.Nodup ∧
      (∀ u, u ∈ V ↔ u = 0 ∨
        (fresh_pool.getFreeVisitedList.mass u ≠ fresh_pool.getFreeVisitedList.curV ∧
          (search_one_graph fresh_pool [0] triangle_graph spaced_line 0 2 none).2.buffer.mass u =
            fresh_pool.getFreeVisitedList.curV)) ∧
      (search_one_graph fresh_pool [0] triangle_graph spaced_line 0 2 none).1.size =
        min 2 V.length ∧
      (search_one_graph fresh_pool [0] triangle_graph spaced_line 0 2 none).1.reverse.map Prod.fst
        = ((V.map (spaced_line.Query [0])).insertionSort (· ≤ ·)).take (min 2 V.length) ∧
      (fill_positions (pop_down_to 1
          (search_one_graph fresh_pool [0] triangle_graph spaced_line 0 2 none).1)).map Prod.fst =
        ((V.map (spaced_line.Query [0])).insertionSort (· ≤ ·)).take (min 1 (min 2 V.length)) :=
  ⟨by decide,
    search_one_graph_smallest_computed fresh_pool [0] triangle_graph spaced_line 0 2 none 1
      (by decide)⟩


/-! ## Insertion: what a completed `hnsw_add` went through -/

theorem getNeighbors_insert_same (g : GraphInterface) (id : Nat) (l : List Nat) :
    (g.InsertNeighborsById id l).GetNeighbors id = l := by
  simp [GraphInterface.GetNeighbors, GraphInterface.InsertNeighborsById, List.lookup_cons]

theorem getNeighbors_insert_other (g : GraphInterface) (id x : Nat) (l : List Nat)
    (hx : x ≠ id) : (g.InsertNeighborsById id l).GetNeighbors x = g.GetNeighbors x := by
  have : (x == id) = false := by simpa using hx
  simp [GraphInterface.GetNeighbors, GraphInterface.InsertNeighborsById, List.lookup_cons, this]

theorem getNeighbors_increaseTotalCount (g : GraphInterface) (n x : Nat) :
    (g.IncreaseTotalCount n).GetNeighbors x = g.GetNeighbors x := rfl

theorem subperm_map_snd {a b : List Candidate} (h : List.Subperm a b) :
    List.Subperm (a.map Prod.snd) (b.map Prod.snd) := by
  obtain ⟨l, hp, hs⟩ := h
  exact ⟨l.map Prod.snd, hp.map _, hs.map _⟩

theorem emplace_neighbors_perm (flatten : FlattenInterface) (s : Nat) (l : List Nat)
    (candidates : MaxHeap) :
    List.Perm ((emplace_neighbors flatten s l candidates).map Prod.snd)
      (l ++ candidates.map Prod.snd) := by
  induction l generalizing candidates with
  | nil => exact List.Perm.refl _
  | cons n rest ih =>
    unfold emplace_neighbors
    refine (ih _).trans ?_
    have h1 := (MaxHeap.emplace_perm candidates (flatten.ComputePairVectors n s) n).map Prod.snd
    refine (List.Perm.append_left rest h1).trans ?_
    simp only [List.map_cons, List.cons_append]
    exact List.perm_middle

/-- What a completed pass of the loop body of `mutually_connect_new_element` wrote: nothing,
or a list for `selectedNeighbor` that is within the size and is drawn from the stored list and
the new element. -/
theorem connect_neighbor_cases (cur_c max_size : Nat) (flatten : FlattenInterface)
    (is_update : Bool) (graph g' : GraphInterface) (s : Nat)
    (h : connect_neighbor cur_c max_size flatten is_update graph s = .ok g') :
    s ≠ cur_c ∧ (g' = graph ∨ ∃ l, g' = graph.InsertNeighborsById s l ∧ l.length ≤ max_size ∧
      List.Subperm l (cur_c :: graph.GetNeighbors s)) := by
  unfold connect_neighbor at h
  simp only at h
  split_ifs at h with h1 h2 h3 h4
  · simp only [Except.ok.injEq] at h
    refine ⟨h2, Or.inr ⟨_, h.symm, ?_, ?_⟩⟩
    · simp only [List.length_append, List.length_singleton]
      omega
    · exact (List.perm_append_singleton _ _).subperm
  · simp only [Except.ok.injEq] at h
    refine ⟨h2, Or.inr ⟨_, h.symm, ?_, ?_⟩⟩
    · rw [pop_ids_eq_map, List.length_map]
      exact select_edges_length _ _ _
    · rw [pop_ids_eq_map]
      refine List.Subperm.trans (subperm_map_snd (select_edges_subperm _ _ _)) ?_
      refine (emplace_neighbors_perm flatten s (graph.GetNeighbors s) _).subperm.trans ?_
      simp only [MaxHeap.emplace, List.map_cons, List.map_nil]
      exact (List.perm_append_singleton _ _).subperm
  · simp only [Except.ok.injEq] at h
    exact ⟨h2, Or.inl h.symm⟩

theorem connect_neighbors_cons (cur_c max_size : Nat) (flatten : FlattenInterface)
    (is_update : Bool) (s : Nat) (rest : List Nat) (graph g' : GraphInterface)
    (h : connect_neighbors cur_c max_size flatten is_update (s :: rest) graph = .ok g') :
    ∃ g1, connect_neighbor cur_c max_size flatten is_update graph s = .ok g1 ∧
      connect_neighbors cur_c max_size flatten is_update rest g1 = .ok g' := by
  unfold connect_neighbors at h
  split at h
  · exact absurd h (by simp)
  · next g1 h1 => exact ⟨g1, h1, h⟩

/-- What a completed `mutually_connect_new_element` went through. -/
theorem mutually_connect_ok (cur_c : Nat) (top_candidates : MaxHeap) (graph : GraphInterface)
    (flatten : FlattenInterface) (is_update : Bool) (r : Nat × GraphInterface)
    (h : mutually_connect_new_element cur_c top_candidates graph flatten is_update = .ok r) :
    (select_edges_by_heuristic top_candidates graph.MaximumDegree flatten).length
        ≤ graph.MaximumDegree ∧
      r.1 ∈ pop_ids (select_edges_by_heuristic top_candidates graph.MaximumDegree flatten) ∧
      connect_neighbors cur_c graph.MaximumDegree flatten is_update
        (pop_ids (select_edges_by_heuristic top_candidates graph.MaximumDegree flatten))
        (graph.InsertNeighborsById cur_c
          (pop_ids (select_edges_by_heuristic top_candidates graph.MaximumDegree flatten)))
        = .ok r.2 := by
  unfold mutually_connect_new_element at h
  simp only at h
  split_ifs at h with hsz
  split at h
  · exact absurd h (by simp)
  · next last hlast =>
    split at h
    · exact absurd h (by simp)
    · next gfin hfin =>
      simp only [Except.ok.injEq] at h
      subst h
      simp only [MaxHeap.size, not_lt] at hsz
      exact ⟨hsz, List.mem_of_getLast?_eq_some hlast, hfin⟩

/-- What a completed insertion into one graph went through. -/
theorem insert_into_graph_ok (inner_id : Nat) (query : List Int) (flatten : FlattenInterface)
    (ef_construct : Nat) (graph : GraphInterface) (ep : Nat) (pool : VisitedListPool)
    (r : GraphInterface × Nat × VisitedListPool)
    (h : insert_into_graph inner_id query flatten ef_construct graph ep pool = .ok r) :
    (graph.TotalCount = 0 ∧
      r = ((graph.InsertNeighborsById inner_id []).IncreaseTotalCount 1, ep, pool)) ∨
    (∃ m, mutually_connect_new_element inner_id
        (search_one_graph pool query graph flatten ep ef_construct none).1 graph flatten false
        = .ok m ∧ r.1 = m.2.IncreaseTotalCount 1 ∧ r.2.1 = m.1) := by
  unfold insert_into_graph at h
  split_ifs at h with h0
  · right
    simp only at h
    split at h
    · exact absurd h (by simp)
    · next m hm =>
      simp only [Except.ok.injEq] at h
      subst h
      exact ⟨m, hm, rfl, rfl⟩
  · left
    simp only [Except.ok.injEq] at h
    exact ⟨not_not.mp h0, h.symm⟩

theorem descend_levels_inv (E : Nat → Prop) (query : List Int) (flatten : FlattenInterface)
    (route_graphs : List GraphInterface)
    (hsearch : ∀ g ∈ route_graphs, ∀ ep pool, E ep →
      ∀ c ∈ (search_one_graph pool query g flatten ep 1 none).1, E c.2)
    (levels : List Nat) (s r : Nat × VisitedListPool) (hs : E s.1)
    (h : descend_levels query flatten route_graphs levels s = .ok r) : E r.1 := by
  induction levels generalizing s with
  | nil =>
    unfold descend_levels at h
    simp only [Except.ok.injEq] at h
    rw [← h]
    exact hs
  | cons j rest ih =>
    unfold descend_levels at h
    split at h
    · exact absurd h (by simp)
    · next graph hget =>
      refine ih _ ?_ h
      have hg : graph ∈ route_graphs := List.get?_mem hget
      simp only
      cases htop : (search_one_graph s.2 query graph flatten s.1 1 none).1.top? with
      | none => exact hs
      | some t =>
        exact hsearch graph hg s.1 s.2 hs t (List.mem_of_mem_head? htop)

theorem insert_route_layers_inv (P P' : GraphInterface → Prop) (E : Nat → Prop)
    (inner_id : Nat) (query : List Int) (flatten : FlattenInterface) (ef_construct : Nat)
    (hstep : ∀ g ep pool r, P g → E ep →
      insert_into_graph inner_id query flatten ef_construct g ep pool = .ok r →
      P' r.1 ∧ E r.2.1)
    (n : Nat) (s r : List GraphInterface × Nat × VisitedListPool)
    (hall : ∀ g ∈ s.1, P' g) (hlow : ∀ i < n, ∀ g, s.1[i]? = some g → P g) (hep : E s.2.1)
    (h : insert_route_layers inner_id query flatten ef_construct n s = .ok r) :
    (∀ g ∈ r.1, P' g) ∧ E r.2.1 := by
  induction n generalizing s with
  | zero =>
    unfold insert_route_layers at h
    simp only [Except.ok.injEq] at h
    rw [← h]
    exact ⟨hall, hep⟩
  | succ j ih =>
    unfold insert_route_layers at h
    split at h
    · exact absurd h (by simp)
    · next graph hget =>
      split at h
      · exact absurd h (by simp)
      · next r1 hr1 =>
        rw [List.get?_eq_getElem?] at hget
        obtain ⟨hp1, he1⟩ := hstep graph s.2.1 s.2.2 r1 (hlow j (Nat.lt_succ_self j) graph hget)
          hep hr1
        refine ih _ ?_ ?_ he1 h
        · intro g hg
          rcases List.mem_or_eq_of_mem_set hg with hg | rfl
          · exact hall g hg
          · exact hp1
        · intro i hi g hgi
          simp only at hgi
          rw [List.getElem?_set_ne (by omega)] at hgi
          exact hlow i (by omega) g hgi

/-- What a completed pass of the loop body of `hnsw_add` went through, for predicates `P` and
`P'` on the route graphs before and after, and `E` on the entry points used. -/
theorem hnsw_add_one_inv (P P' : GraphInterface → Prop) (E : Nat → Prop)
    (index index' : HGraphIndex) (label : Int) (data : List Int) (level : Int) (inner_id : Nat)
    (hmono : ∀ g, P g → P' g) (hgen : P (generate_one_route_graph index))
    (hsearch : ∀ g, P g → ∀ ep pool, E ep →
      ∀ c ∈ (search_one_graph pool data g index.basic_flatten_codes_ ep 1 none).1, E c.2)
    (hstep : ∀ g ep pool r, P g → E ep →
      insert_into_graph inner_id data index.basic_flatten_codes_ index.ef_construct_ g ep pool
        = .ok r → P' r.1 ∧ E r.2.1)
    (hr : ∀ g ∈ index.route_graphs_, P g) (hep : E index.enter_point_id_)
    (h : hnsw_add_one index label data level inner_id = .ok index') :
    (∀ g ∈ index'.route_graphs_, P' g) ∧
    ∃ ep pool b, E ep ∧
      insert_into_graph inner_id data index.basic_flatten_codes_ index.ef_construct_
        index.bottom_graph_ ep pool = .ok b ∧
      index'.bottom_graph_ = b.1 := by
  unfold hnsw_add_one at h
  simp only at h
  split at h
  · exact absurd h (by simp)
  · next s hs =>
    split at h
    · exact absurd h (by simp)
    · next r hr2 =>
      split at h
      · exact absurd h (by simp)
      · next b hb =>
        simp only [Except.ok.injEq] at h
        subst h
        simp only
        have hroutes : ∀ g ∈ (if (decide (level ≥ Int.ofNat index.max_level_) ||
            decide (index.bottom_graph_.TotalCount = 0)) = true then
            index.route_graphs_ ++ List.replicate (level + 1 - Int.ofNat index.max_level_).toNat
              (generate_one_route_graph index)
            else index.route_graphs_), P g := by
          intro g hg
          split_ifs at hg
          · rcases List.mem_append.mp hg with hg | hg
            · exact hr g hg
            · rw [(List.mem_replicate.mp hg).2]
              exact hgen
          · exact hr g hg
        have hs1 := descend_levels_inv E data index.basic_flatten_codes_ _
          (fun g hg => hsearch g (hroutes g hg)) _ _ s hep hs
        obtain ⟨h1, h2⟩ := insert_route_layers_inv P P' E inner_id data
          index.basic_flatten_codes_ index.ef_construct_ hstep _ _ r
          (fun g hg => hmono g (hroutes g hg))
          (fun i _ g hg => hroutes g (List.getElem?_mem hg)) hs1 hr2
        exact ⟨h1, r.2.1, r.2.2, b, h2, hb, rfl⟩

/-- The members that a completed pass of the loop body of `hnsw_add` sets without looking at
the graphs. -/
theorem hnsw_add_one_fields (index index' : HGraphIndex) (label : Int) (data : List Int)
    (level : Int) (inner_id : Nat)
    (h : hnsw_add_one index label data level inner_id = .ok index') :
    index'.label_lookup_ = label_lookup_assign index.label_lookup_ label inner_id ∧
    index'.basic_flatten_codes_ = index.basic_flatten_codes_ ∧
    index'.ef_construct_ = index.ef_construct_ ∧
    index'.max_level_ =
      (if level ≥ Int.ofNat index.max_level_ ∨ index.bottom_graph_.TotalCount = 0 then
        as_unsigned (level + 1) else index.max_level_) ∧
    index'.enter_point_id_ =
      (if level ≥ Int.ofNat index.max_level_ ∨ index.bottom_graph_.TotalCount = 0 then
        inner_id else index.enter_point_id_) := by
  unfold hnsw_add_one at h
  simp only at h
  split at h
  · exact absurd h (by simp)
  · split at h
    · exact absurd h (by simp)
    · split at h
      · exact absurd h (by simp)
      · simp only [Except.ok.injEq] at h
        subst h
        simp only [Bool.or_eq_true, decide_eq_true_eq, and_self]

theorem connect_neighbors_frame (cur_c max_size : Nat) (flatten : FlattenInterface)
    (is_update : Bool) (l : List Nat) (graph g' : GraphInterface)
    (h : connect_neighbors cur_c max_size flatten is_update l graph = .ok g') :
    g'.maximum_degree = graph.maximum_degree ∧ g'.total_count = graph.total_count ∧
    ∀ s ∈ l, s ≠ cur_c := by
  induction l generalizing graph with
  | nil =>
    unfold connect_neighbors at h
    simp only [Except.ok.injEq] at h
    subst h
    exact ⟨rfl, rfl, fun s hs => absurd hs (List.not_mem_nil s)⟩
  | cons s rest ih =>
    obtain ⟨g1, h1, h2⟩ := connect_neighbors_cons _ _ _ _ _ _ _ _ h
    obtain ⟨a1, a2, a3⟩ := ih g1 h2
    obtain ⟨hs, hcase⟩ := connect_neighbor_cases _ _ _ _ _ _ _ h1
    have hf : g1.maximum_degree = graph.maximum_degree ∧ g1.total_count = graph.total_count := by
      rcases hcase with rfl | ⟨l, rfl, _, _⟩
      · exact ⟨rfl, rfl⟩
      · exact ⟨rfl, rfl⟩
    refine ⟨a1.trans hf.1, a2.trans hf.2, ?_⟩
    intro x hx
    rcases List.mem_cons.mp hx with rfl | hx
    · exact hs
    · exact a3 x hx

theorem connect_neighbors_degree (cur_c max_size : Nat) (flatten : FlattenInterface)
    (is_update : Bool) (l : List Nat) (graph g' : GraphInterface)
    (hmax : max_size = graph.maximum_degree) (hg : DegreeBounded graph)
    (h : connect_neighbors cur_c max_size flatten is_update l graph = .ok g') :
    DegreeBounded g' := by
  induction l generalizing graph with
  | nil =>
    unfold connect_neighbors at h
    simp only [Except.ok.injEq] at h
    subst h
    exact hg
  | cons s rest ih =>
    obtain ⟨g1, h1, h2⟩ := connect_neighbors_cons _ _ _ _ _ _ _ _ h
    obtain ⟨_, hcase⟩ := connect_neighbor_cases _ _ _ _ _ _ _ h1
    rcases hcase with rfl | ⟨l, rfl, hl, _⟩
    · exact ih g1 hmax hg h2
    · exact ih (graph.InsertNeighborsById s l) hmax
        (insert_degreeBounded hg s l (by rw [← hmax]; exact hl)) h2

theorem insert_into_graph_frame (inner_id : Nat) (query : List Int) (flatten : FlattenInterface)
    (ef_construct : Nat) (graph : GraphInterface) (ep : Nat) (pool : VisitedListPool)
    (r : GraphInterface × Nat × VisitedListPool)
    (h : insert_into_graph inner_id query flatten ef_construct graph ep pool = .ok r) :
    r.1.maximum_degree = graph.maximum_degree ∧ r.1.total_count = graph.total_count + 1 := by
  rcases insert_into_graph_ok _ _ _ _ _ _ _ _ h with ⟨_, rfl⟩ | ⟨m, hm, h1, _⟩
  · exact ⟨rfl, rfl⟩
  · obtain ⟨_, _, hc⟩ := mutually_connect_ok _ _ _ _ _ _ hm
    obtain ⟨a1, a2, _⟩ := connect_neighbors_frame _ _ _ _ _ _ _ hc
    rw [h1]
    exact ⟨a1, by
      show m.2.total_count + 1 = graph.total_count + 1
      rw [a2]; rfl⟩

theorem insert_into_graph_degree (inner_id : Nat) (query : List Int) (flatten : FlattenInterface)
    (ef_construct : Nat) (graph : GraphInterface) (ep : Nat) (pool : VisitedListPool)
    (r : GraphInterface × Nat × VisitedListPool) (hg : DegreeBounded graph)
    (h : insert_into_graph inner_id query flatten ef_construct graph ep pool = .ok r) :
    DegreeBounded r.1 := by
  rcases insert_into_graph_ok _ _ _ _ _ _ _ _ h with ⟨_, rfl⟩ | ⟨m, hm, h1, _⟩
  · exact insert_degreeBounded hg inner_id [] (Nat.zero_le _)
  · obtain ⟨hlen, _, hc⟩ := mutually_connect_ok _ _ _ _ _ _ hm
    have := connect_neighbors_degree _ _ _ _ _ _ _ rfl
      (insert_degreeBounded hg inner_id _ (by rw [pop_ids_eq_map, List.length_map]; exact hlen))
      hc
    rw [h1]
    exact this

/-- A completed pass of the loop body of `hnsw_add` adds one to the count of the bottom graph
and keeps its maximum degree. -/
theorem hnsw_add_one_bottom_frame (index index' : HGraphIndex) (label : Int) (data : List Int)
    (level : Int) (inner_id : Nat)
    (h : hnsw_add_one index label data level inner_id = .ok index') :
    index'.bottom_graph_.maximum_degree = index.bottom_graph_.maximum_degree ∧
    index'.bottom_graph_.total_count = index.bottom_graph_.total_count + 1 := by
  obtain ⟨_, ep, pool, b, _, hb, hbe⟩ := hnsw_add_one_inv (fun _ => True) (fun _ => True)
    (fun _ => True) index index' label data level inner_id (fun _ _ => trivial) trivial
    (fun _ _ _ _ _ _ _ => trivial) (fun _ _ _ _ _ _ _ => ⟨trivial, trivial⟩)
    (fun _ _ => trivial) trivial h
  rw [hbe]
  exact insert_into_graph_frame _ _ _ _ _ _ _ _ hb

theorem hnsw_add_one_degree (index index' : HGraphIndex) (label : Int) (data : List Int)
    (level : Int) (inner_id : Nat) (hinv : IndexDegreeBounded index)
    (h : hnsw_add_one index label data level inner_id = .ok index') :
    IndexDegreeBounded index' := by
  obtain ⟨hb, hr⟩ := hinv
  obtain ⟨hroutes, ep, pool, b, _, hbi, hbe⟩ := hnsw_add_one_inv
    (fun g => DegreeBounded g ∧ g.MaximumDegree = index.bottom_graph_.MaximumDegree / 2)
    (fun g => DegreeBounded g ∧ g.MaximumDegree = index.bottom_graph_.MaximumDegree / 2)
    (fun _ => True) index index' label data level inner_id (fun _ hg => hg)
    ⟨fun id => Nat.zero_le _, rfl⟩
    (fun _ _ _ _ _ _ _ => trivial)
    (fun g ep pool r hg _ hins =>
      ⟨⟨insert_into_graph_degree _ _ _ _ _ _ _ _ hg.1 hins,
        (insert_into_graph_frame _ _ _ _ _ _ _ _ hins).1.trans hg.2⟩, trivial⟩)
    hr trivial h
  have hm := (hnsw_add_one_bottom_frame index index' label data level inner_id h).1
  refine ⟨?_, ?_⟩
  · rw [hbe]
    exact insert_into_graph_degree _ _ _ _ _ _ _ _ hb hbi
  · intro g hg
    obtain ⟨h1, h2⟩ := hroutes g hg
    refine ⟨h1, ?_⟩
    rw [h2]
    unfold GraphInterface.MaximumDegree
    rw [hm]

/-- A property of the index that every completed pass of the loop body of `hnsw_add` keeps,
when the inner id is the count of the bottom graph, is kept by a completed `hnsw_add`. -/
theorem hnsw_add_from_inv (I : HGraphIndex → Prop)
    (hone : ∀ index index' label data level, I index →
      hnsw_add_one index label data level index.bottom_graph_.TotalCount = .ok index' →
      I index')
    (get_random_level : Nat → Int) (cur_count : Nat) (base : List (Int × List Int)) (i : Nat)
    (index index' : HGraphIndex) (hI : I index)
    (hcount : i + cur_count = index.bottom_graph_.TotalCount)
    (h : hnsw_add_from get_random_level cur_count base i index = .ok index') :
    I index' ∧
    index'.bottom_graph_.TotalCount = index.bottom_graph_.TotalCount + base.length := by
  induction base generalizing i index with
  | nil =>
    unfold hnsw_add_from at h
    simp only [Except.ok.injEq] at h
    subst h
    exact ⟨hI, rfl⟩
  | cons e rest ih =>
    unfold hnsw_add_from at h
    split at h
    · exact absurd h (by simp)
    · next index1 h1 =>
      rw [hcount] at h1
      have hc1 := (hnsw_add_one_bottom_frame _ _ _ _ _ _ h1).2
      obtain ⟨a1, a2⟩ := ih (i + 1) index1 (hone _ _ _ _ _ hI h1)
        (by unfold GraphInterface.TotalCount at hcount ⊢; omega) h
      refine ⟨a1, ?_⟩
      unfold GraphInterface.TotalCount at a2 ⊢
      rw [a2, hc1, List.length_cons]
      omega

theorem hnsw_add_batches_inv (I : HGraphIndex → Prop)
    (hone : ∀ index index' label data level, I index →
      hnsw_add_one index label data level index.bottom_graph_.TotalCount = .ok index' →
      I index')
    (batches : List (List (Int × List Int) × (Nat → Int)))
    (index index' : HGraphIndex) (hI : I index)
    (h : hnsw_add_batches index batches = .ok index') :
    I index' ∧
    index'.bottom_graph_.TotalCount =
      index.bottom_graph_.TotalCount + (batches.map (fun b => b.1.length)).sum := by
  induction batches generalizing index with
  | nil =>
    unfold hnsw_add_batches at h
    simp only [Except.ok.injEq] at h
    subst h
    exact ⟨hI, rfl⟩
  | cons b rest ih =>
    unfold hnsw_add_batches at h
    split at h
    · exact absurd h (by simp)
    · next index1 h1 =>
      unfold hnsw_add at h1
      obtain ⟨a1, a2⟩ := hnsw_add_from_inv I hone b.2 _ b.1 0 index index1 hI (Nat.zero_add _) h1
      obtain ⟨c1, c2⟩ := ih index1 a1 h
      refine ⟨c1, ?_⟩
      rw [c2, a2, List.map_cons, List.sum_cons]
      omega

/-- C11: after any sequence of completed `hnsw_add` calls on a new index, every stored
neighbour list of the bottom graph has at most the maximum degree of the bottom graph, and
every route graph has half that maximum degree (integer division) and no stored list longer
than it. -/
theorem hnsw_add_degree_bound (flatten : FlattenInterface) (max_degree ef_construct : Nat)
    (batches : List (List (Int × List Int) × (Nat → Int))) (index : HGraphIndex)
    (h : hnsw_add_batches (empty_index flatten max_degree ef_construct) batches = .ok index) :
    index.bottom_graph_.MaximumDegree = max_degree ∧
    (∀ u, (index.bottom_graph_.GetNeighbors u).length ≤ index.bottom_graph_.MaximumDegree) ∧
    ∀ g ∈ index.route_graphs_,
      g.MaximumDegree = index.bottom_graph_.MaximumDegree / 2 ∧
      ∀ u, (g.GetNeighbors u).length ≤ g.MaximumDegree := by
  obtain ⟨⟨h1, h2⟩, _⟩ := hnsw_add_batches_inv
    (fun index => IndexDegreeBounded index ∧ index.bottom_graph_.MaximumDegree = max_degree)
    (fun index index' label data level hI hone =>
      ⟨hnsw_add_one_degree _ _ _ _ _ _ hI.1 hone,
        (hnsw_add_one_bottom_frame _ _ _ _ _ _ hone).1.trans hI.2⟩)
    batches (empty_index flatten max_degree ef_construct) index
    ⟨⟨fun id => Nat.zero_le _, fun g hg => absurd hg (List.not_mem_nil g)⟩, rfl⟩ h
  exact ⟨h2, h1.1, fun g hg => ⟨(h1.2 g hg).2, (h1.2 g hg).1⟩⟩

theorem except_ok_of_isSome {ε α : Type} {x : Except ε α} (h : x.toOption.isSome = true) :
    ∃ a, x = .ok a := by
  cases x with
  | error e => simp [Except.toOption] at h
  | ok a => exact ⟨a, rfl⟩

/-- The theorem of C11 for five points of the line inserted with the levels 0, 1, 0, 2, 0 into
a new index of maximum degree 2. -/
theorem hnsw_add_degree_bound_witness :
    ∃ index, hnsw_add_batches (empty_index spaced_line 2 10) [(five_points, five_levels)]
        = .ok index ∧
      index.bottom_graph_.MaximumDegree = 2 ∧
      (∀ u, (index.bottom_graph_.GetNeighbors u).length ≤ index.bottom_graph_.MaximumDegree) ∧
      ∀ g ∈ index.route_graphs_,
        g.MaximumDegree = index.bottom_graph_.MaximumDegree / 2 ∧
        ∀ u, (g.GetNeighbors u).length ≤ g.MaximumDegree := by
  obtain ⟨index, h⟩ := except_ok_of_isSome
    (show (hnsw_add_batches (empty_index spaced_line 2 10)
      [(five_points, five_levels)]).toOption.isSome = true from by rfl)
  exact ⟨index, h, hnsw_add_degree_bound spaced_line 2 10 [(five_points, five_levels)] index h⟩


/-! ## Insertion: no id twice and no own id in a neighbour list -/

theorem offer_ids (ef : Nat) (dist : Int) (v : Nat) (s : MaxHeap × MaxHeap × Int) (V : List Nat)
    (h : OfferIds V s.2.1 s.2.2) :
    OfferIds (V ++ [v]) (offer ef dist v s).2.1 (offer ef dist v s).2.2 := by
  unfold OfferIds at *
  rw [offer_cur_result]
  have hp : List.Subperm ((MaxHeap.emplace s.2.1 dist v).map Prod.snd) (V ++ [v]) := by
    refine ((MaxHeap.emplace_perm s.2.1 dist v).map Prod.snd).subperm.trans ?_
    simp only [List.map_cons]
    refine List.Subperm.trans ?_ (List.perm_append_singleton v V).symm.subperm
    exact (List.subperm_cons v).mpr h
  split_ifs
  · refine List.Subperm.trans ?_ hp
    exact (List.Sublist.map _ (List.tail_sublist _)).subperm
  · exact hp
  · exact h.trans (List.sublist_append_left V [v]).subperm

theorem offer_all_ids (qdist : Nat → Int) (ef : Nat) (l : List Nat)
    (s : MaxHeap × MaxHeap × Int) (V : List Nat) (h : OfferIds V s.2.1 s.2.2) :
    OfferIds (V ++ l) (offer_all qdist ef l s).2.1 (offer_all qdist ef l s).2.2 := by
  induction l generalizing s V with
  | nil => simpa [offer_all] using h
  | cons v rest ih =>
    have h1 := ih (offer ef (qdist v) v s) (V ++ [v]) (offer_ids ef (qdist v) v s V h)
    simpa [offer_all] using h1

/-- The ids of the heap that `search_one_graph` returns are pairwise distinct, and each is the
entry point or an id of a stored neighbour list. -/
theorem search_one_graph_ids (pool : VisitedListPool) (query : List Int)
    (graph : GraphInterface) (flatten : FlattenInterface) (ep ef : Nat)
    (isIdAllowed : Option (Nat → Bool)) :
    ((search_one_graph pool query graph flatten ep ef isIdAllowed).1.map Prod.snd).Nodup ∧
    ∀ c ∈ (search_one_graph pool query graph flatten ep ef isIdAllowed).1,
      c.2 = ep ∨ ∃ w, c.2 ∈ graph.GetNeighbors w := by
  obtain ⟨V, ⟨hnd, _, _, _, hreach, hsub⟩, hres, _⟩ :=
    search_one_graph_track OfferIds pool query graph flatten ep ef isIdAllowed
      (fun l s V h => offer_all_ids (flatten.Query query) ef l s V h)
      (by unfold OfferIds; simp)
  rw [← hres] at hsub
  unfold OfferIds at hsub
  obtain ⟨l0, hp, hs⟩ := hsub
  refine ⟨hp.nodup_iff.mp (hnd.sublist hs), ?_⟩
  intro c hc
  exact hreach c.2 (hs.subset (hp.symm.subset (List.mem_map_of_mem _ hc)))

theorem linkInv_mono {N M : Nat} {g : GraphInterface} (hNM : N ≤ M) (h : LinkInv N g) :
    LinkInv M g :=
  fun id => ⟨(h id).1, (h id).2.1, fun v hv => lt_of_lt_of_le ((h id).2.2 v hv) hNM⟩

theorem linkInv_insert {N : Nat} {g : GraphInterface} (h : LinkInv N g) (id : Nat)
    (l : List Nat) (hnd : l.Nodup) (hself : id ∉ l) (hlt : ∀ v ∈ l, v < N) :
    LinkInv N (g.InsertNeighborsById id l) := by
  intro x
  by_cases hx : x = id
  · subst hx
    rw [getNeighbors_insert_same]
    exact ⟨hnd, hself, hlt⟩
  · rw [getNeighbors_insert_other g id x l hx]
    exact h x

theorem linkInv_generate (N : Nat) (index : HGraphIndex) :
    LinkInv N (generate_one_route_graph index) :=
  fun id => ⟨List.nodup_nil, List.not_mem_nil _, fun v hv => absurd hv (List.not_mem_nil v)⟩

theorem connect_neighbors_link (N max_size : Nat) (flatten : FlattenInterface)
    (is_update : Bool) (l : List Nat) (graph g' : GraphInterface) (hnd : l.Nodup)
    (hg : LinkInv (N + 1) graph) (hold : ∀ s ∈ l, ∀ v ∈ graph.GetNeighbors s, v < N)
    (h : connect_neighbors N max_size flatten is_update l graph = .ok g') :
    LinkInv (N + 1) g' := by
  induction l generalizing graph with
  | nil =>
    unfold connect_neighbors at h
    simp only [Except.ok.injEq] at h
    subst h
    exact hg
  | cons s rest ih =>
    obtain ⟨g1, h1, h2⟩ := connect_neighbors_cons _ _ _ _ _ _ _ _ h
    obtain ⟨hs, hcase⟩ := connect_neighbor_cases _ _ _ _ _ _ _ h1
    rw [List.nodup_cons] at hnd
    rcases hcase with rfl | ⟨l, rfl, _, hsub⟩
    · exact ih g1 hnd.2 hg (fun x hx => hold x (List.mem_cons_of_mem _ hx)) h2
    · have hs_old := hold s (List.mem_cons_self _ _)
      have hbig : (N :: graph.GetNeighbors s).Nodup :=
        List.nodup_cons.mpr ⟨fun hmem => absurd (hs_old N hmem) (lt_irrefl N), (hg s).1⟩
      obtain ⟨l0, hp, hsl⟩ := hsub
      have hmem : ∀ v ∈ l, v = N ∨ v ∈ graph.GetNeighbors s := fun v hv =>
        List.mem_cons.mp (hsl.subset (hp.symm.subset hv))
      refine ih (graph.InsertNeighborsById s l) hnd.2 (linkInv_insert hg s l
        (hp.nodup_iff.mp (hbig.sublist hsl)) ?_ ?_) ?_ h2
      · intro hself
        rcases hmem s hself with h3 | h3
        · exact hs h3
        · exact (hg s).2.1 h3
      · intro v hv
        rcases hmem v hv with h3 | h3
        · omega
        · exact (hg s).2.2 v h3
      · intro x hx v hv
        have hxs : x ≠ s := fun e => hnd.1 (e ▸ hx)
        rw [getNeighbors_insert_other graph s x l hxs] at hv
        exact hold x (List.mem_cons_of_mem _ hx) v hv

theorem insert_into_graph_link (N : Nat) (query : List Int) (flatten : FlattenInterface)
    (ef_construct : Nat) (graph : GraphInterface) (ep : Nat) (pool : VisitedListPool)
    (r : GraphInterface × Nat × VisitedListPool) (hg : LinkInv N graph) (hep : ep ≤ N)
    (h : insert_into_graph N query flatten ef_construct graph ep pool = .ok r) :
    LinkInv (N + 1) r.1 ∧ r.2.1 ≤ N := by
  rcases insert_into_graph_ok _ _ _ _ _ _ _ _ h with ⟨_, rfl⟩ | ⟨m, hm, h1, h2⟩
  · refine ⟨?_, hep⟩
    intro id
    rw [getNeighbors_increaseTotalCount]
    exact linkInv_insert (linkInv_mono (Nat.le_succ N) hg) N [] List.nodup_nil
      (List.not_mem_nil _) (fun v hv => absurd hv (List.not_mem_nil v)) id
  · obtain ⟨_, hmem, hc⟩ := mutually_connect_ok _ _ _ _ _ _ hm
    obtain ⟨_, _, hne⟩ := connect_neighbors_frame _ _ _ _ _ _ _ hc
    obtain ⟨hnd, hreach⟩ := search_one_graph_ids pool query graph flatten ep ef_construct none
    have hle : ∀ c ∈ (search_one_graph pool query graph flatten ep ef_construct none).1,
        c.2 ≤ N := by
      intro c hcm
      rcases hreach c hcm with h3 | ⟨w, h3⟩
      · rw [h3]; exact hep
      · exact le_of_lt ((hg w).2.2 c.2 h3)
    rw [pop_ids_eq_map] at hmem hc hne
    have hsub := subperm_map_snd (select_edges_subperm
      (search_one_graph pool query graph flatten ep ef_construct none).1 graph.MaximumDegree
      flatten)
    obtain ⟨l0, hp, hsl⟩ := hsub
    have hsel_nd := hp.nodup_iff.mp (hnd.sublist hsl)
    have hsel_lt : ∀ v ∈ (select_edges_by_heuristic
        (search_one_graph pool query graph flatten ep ef_construct none).1 graph.MaximumDegree
        flatten).map Prod.snd, v < N := by
      intro v hv
      have h3 := hsl.subset (hp.symm.subset hv)
      obtain ⟨c, hcm, rfl⟩ := List.mem_map.mp h3
      have := hle c hcm
      have := hne c.2 hv
      omega
    have hfin := connect_neighbors_link N graph.MaximumDegree flatten false _ _ m.2 hsel_nd
      (linkInv_insert (linkInv_mono (Nat.le_succ N) hg) N _ hsel_nd
        (fun hself => absurd (hsel_lt N hself) (lt_irrefl N))
        (fun v hv => Nat.lt_succ_of_lt (hsel_lt v hv)))
      (fun s hs v hv => by
        rw [getNeighbors_insert_other graph N s _ (hne s hs)] at hv
        exact (hg s).2.2 v hv)
      hc
    refine ⟨?_, ?_⟩
    · rw [h1]
      intro id
      rw [getNeighbors_increaseTotalCount]
      exact hfin id
    · rw [h2]
      exact le_of_lt (hsel_lt m.1 hmem)

theorem hnsw_add_one_link (index index' : HGraphIndex) (label : Int) (data : List Int)
    (level : Int) (hinv : IndexLinkInv index)
    (h : hnsw_add_one index label data level index.bottom_graph_.TotalCount = .ok index') :
    IndexLinkInv index' := by
  obtain ⟨hep, hb, hr⟩ := hinv
  obtain ⟨hroutes, ep, pool, b, hepb, hbi, hbe⟩ := hnsw_add_one_inv
    (LinkInv index.bottom_graph_.TotalCount) (LinkInv (index.bottom_graph_.TotalCount + 1))
    (fun ep => ep ≤ index.bottom_graph_.TotalCount) index index' label data level
    index.bottom_graph_.TotalCount (fun _ hg => linkInv_mono (Nat.le_succ _) hg)
    (linkInv_generate _ index)
    (fun g hg ep pool hepg c hc => by
      rcases (search_one_graph_ids pool data g index.basic_flatten_codes_ ep 1 none).2 c hc
        with h3 | ⟨w, h3⟩
      · rw [h3]; exact hepg
      · exact le_of_lt ((hg w).2.2 c.2 h3))
    (fun g ep pool r hg hepg hins => insert_into_graph_link _ _ _ _ _ _ _ _ hg hepg hins)
    hr hep h
  have hcount : index'.bottom_graph_.TotalCount = index.bottom_graph_.TotalCount + 1 :=
    (hnsw_add_one_bottom_frame _ _ _ _ _ _ h).2
  obtain ⟨_, _, _, _, hentry⟩ := hnsw_add_one_fields _ _ _ _ _ _ h
  refine ⟨?_, ?_, ?_⟩
  · rw [hcount, hentry]
    split_ifs
    · exact Nat.le_succ _
    · exact Nat.le_succ_of_le hep
  · rw [hcount, hbe]
    exact (insert_into_graph_link _ _ _ _ _ _ _ _ hb hepb hbi).1
  · rw [hcount]
    exact hroutes

/-- C12: after any sequence of completed `hnsw_add` calls on a new index, in the bottom graph
and in every route graph no id occurs in its own stored neighbour list and no id occurs twice
in a stored list. -/
theorem hnsw_add_no_self_loop_no_duplicate (flatten : FlattenInterface)
    (max_degree ef_construct : Nat)
    (batches : List (List (Int × List Int) × (Nat → Int))) (index : HGraphIndex)
    (h : hnsw_add_batches (empty_index flatten max_degree ef_construct) batches = .ok index) :
    (∀ u, u ∉ index.bottom_graph_.GetNeighbors u ∧ (index.bottom_graph_.GetNeighbors u).Nodup) ∧
    ∀ g ∈ index.route_graphs_, ∀ u, u ∉ g.GetNeighbors u ∧ (g.GetNeighbors u).Nodup := by
  obtain ⟨⟨_, h1, h2⟩, _⟩ := hnsw_add_batches_inv IndexLinkInv
    (fun index index' label data level hI hone => hnsw_add_one_link _ _ _ _ _ hI hone)
    batches (empty_index flatten max_degree ef_construct) index
    ⟨Nat.zero_le _,
      fun id => ⟨List.nodup_nil, List.not_mem_nil _,
        fun v hv => absurd hv (List.not_mem_nil v)⟩,
      fun g hg => absurd hg (List.not_mem_nil g)⟩ h
  exact ⟨fun u => ⟨(h1 u).2.1, (h1 u).1⟩, fun g hg u => ⟨(h2 g hg u).2.1, (h2 g hg u).1⟩⟩

/-- The theorem of C12 for five points of the line inserted with the levels 0, 1, 0, 2, 0 into
a new index of maximum degree 2. -/
theorem hnsw_add_no_self_loop_no_duplicate_witness :
    ∃ index, hnsw_add_batches (empty_index spaced_line 2 10) [(five_points, five_levels)]
        = .ok index ∧
      (∀ u, u ∉ index.bottom_graph_.GetNeighbors u ∧
        (index.bottom_graph_.GetNeighbors u).Nodup) ∧
      ∀ g ∈ index.route_graphs_, ∀ u, u ∉ g.GetNeighbors u ∧ (g.GetNeighbors u).Nodup := by
  obtain ⟨index, h⟩ := except_ok_of_isSome
    (show (hnsw_add_batches (empty_index spaced_line 2 10)
      [(five_points, five_levels)]).toOption.isSome = true from by rfl)
  exact ⟨index, h,
    hnsw_add_no_self_loop_no_duplicate spaced_line 2 10 [(five_points, five_levels)] index h⟩

/-! ## Insertion: the label map, the top level and the entry point -/

theorem label_lookup_assign_fresh (L : List Int) (label : Int) (hfresh : label ∉ L) :
    label_lookup_assign (L.zip (List.range L.length)).reverse label L.length =
      ((L ++ [label]).zip (List.range (L ++ [label]).length)).reverse := by
  unfold label_lookup_assign
  have hfilter : (L.zip (List.range L.length)).reverse.filter (fun e => decide (e.1 ≠ label)) =
      (L.zip (List.range L.length)).reverse := by
    rw [List.filter_eq_self]
    intro e he
    rw [List.mem_reverse] at he
    have := (List.of_mem_zip he).1
    simp only [ne_eq, decide_not, Bool.not_eq_eq_eq_not, Bool.not_true, decide_eq_false_iff_not]
    intro h
    exact hfresh (h ▸ this)
  rw [hfilter, List.length_append, List.length_singleton, List.range_succ,
    List.zip_append (by simp), List.reverse_append]
  rfl

theorem hnsw_add_from_labels (get_random_level : Nat → Int) (cur_count : Nat)
    (base : List (Int × List Int)) (i : Nat) (index index' : HGraphIndex) (L : List Int)
    (hmap : index.label_lookup_ = (L.zip (List.range L.length)).reverse)
    (hlen : L.length = index.bottom_graph_.TotalCount)
    (hcount : i + cur_count = index.bottom_graph_.TotalCount)
    (hnd : (L ++ base.map Prod.fst).Nodup)
    (h : hnsw_add_from get_random_level cur_count base i index = .ok index') :
    index'.label_lookup_ = ((L ++ base.map Prod.fst).zip
      (List.range (L ++ base.map Prod.fst).length)).reverse ∧
    (L ++ base.map Prod.fst).length = index'.bottom_graph_.TotalCount := by
  induction base generalizing i index L with
  | nil =>
    unfold hnsw_add_from at h
    simp only [Except.ok.injEq] at h
    subst h
    simpa using ⟨hmap, hlen⟩
  | cons e rest ih =>
    unfold hnsw_add_from at h
    split at h
    · exact absurd h (by simp)
    · next index1 h1 =>
      rw [hcount, ← hlen] at h1
      obtain ⟨hl1, _⟩ := hnsw_add_one_fields _ _ _ _ _ _ h1
      have hc1 := (hnsw_add_one_bottom_frame _ _ _ _ _ _ h1).2
      have hnd2 : ((L ++ [e.1]) ++ rest.map Prod.fst).Nodup := by
        simpa using hnd
      have hfresh : e.1 ∉ L := by
        intro hmem
        rw [List.map_cons, List.nodup_append] at hnd
        exact hnd.2.2 hmem (List.mem_cons_self _ _)
      have := ih (i + 1) index1 (L ++ [e.1])
        (by rw [hl1, hmap]; exact label_lookup_assign_fresh L e.1 hfresh)
        (by
          unfold GraphInterface.TotalCount at hlen ⊢
          rw [hc1, List.length_append, List.length_singleton, hlen])
        (by unfold GraphInterface.TotalCount at hcount ⊢; omega)
        hnd2 h
      simpa using this

theorem hnsw_add_batches_labels (batches : List (List (Int × List Int) × (Nat → Int)))
    (index index' : HGraphIndex) (L : List Int)
    (hmap : index.label_lookup_ = (L.zip (List.range L.length)).reverse)
    (hlen : L.length = index.bottom_graph_.TotalCount)
    (hnd : (L ++ batch_labels batches).Nodup)
    (h : hnsw_add_batches index batches = .ok index') :
    index'.label_lookup_ = ((L ++ batch_labels batches).zip
      (List.range (L ++ batch_labels batches).length)).reverse ∧
    (L ++ batch_labels batches).length = index'.bottom_graph_.TotalCount := by
  induction batches generalizing index L with
  | nil =>
    unfold hnsw_add_batches at h
    simp only [Except.ok.injEq] at h
    subst h
    simpa [batch_labels] using ⟨hmap, hlen⟩
  | cons b rest ih =>
    unfold hnsw_add_batches at h
    split at h
    · exact absurd h (by simp)
    · next index1 h1 =>
      unfold hnsw_add at h1
      have hb : batch_labels (b :: rest) = b.1.map Prod.fst ++ batch_labels rest := by
        simp [batch_labels]
      rw [hb, ← List.append_assoc] at hnd ⊢
      obtain ⟨a1, a2⟩ := hnsw_add_from_labels b.2 _ b.1 0 index index1 L hmap hlen
        (Nat.zero_add _) (List.Nodup.sublist (List.sublist_append_left _ _) hnd) h1
      exact ih index1 (L ++ b.1.map Prod.fst) a1 a2 hnd h

/-- C13 (as stated, refuted): a batch of two pairs that carry the same label 7 leaves a label
map of one entry, which sends 7 to the inner id 1, while two inner ids were given out. -/
theorem hnsw_add_repeated_label_one_entry :
    (hnsw_add_batches (empty_index spaced_line 4 10)
        [(repeated_label_points, fun _ => 1)]).toOption.map
      (fun index => (index.label_lookup_, index.bottom_graph_.TotalCount))
      = some ([(7, 1)], 2) := by
  rfl

/-- C13 (amended): after any sequence of completed `hnsw_add` calls on a new index whose
batches carry pairwise distinct labels, `N` pairs in total, the label map has exactly `N`
entries, its labels are pairwise distinct and are those inserted, its inner ids are exactly
`0, ..., N - 1`, each once, and the `i`-th inserted label is mapped to the inner id `i`; `N` is
the count of the bottom graph. -/
theorem hnsw_add_label_bijection (flatten : FlattenInterface) (max_degree ef_construct : Nat)
    (batches : List (List (Int × List Int) × (Nat → Int))) (index : HGraphIndex)
    (hdistinct : (batch_labels batches).Nodup)
    (h : hnsw_add_batches (empty_index flatten max_degree ef_construct) batches = .ok index) :
    index.label_lookup_.length = (batch_labels batches).length ∧
    index.bottom_graph_.TotalCount = (batch_labels batches).length ∧
    (index.label_lookup_.map Prod.fst).Nodup ∧
    List.Perm (index.label_lookup_.map Prod.fst) (batch_labels batches) ∧
    List.Perm (index.label_lookup_.map Prod.snd) (List.range (batch_labels batches).length) ∧
    index.label_lookup_ =
      ((batch_labels batches).zip (List.range (batch_labels batches).length)).reverse := by
  obtain ⟨h1, h2⟩ := hnsw_add_batches_labels batches
    (empty_index flatten max_degree ef_construct) index [] rfl rfl (by simpa using hdistinct) h
  rw [List.nil_append] at h1 h2
  have hfst : index.label_lookup_.map Prod.fst = (batch_labels batches).reverse := by
    rw [h1, List.map_reverse, List.map_fst_zip]
    simp
  have hsnd : index.label_lookup_.map Prod.snd =
      (List.range (batch_labels batches).length).reverse := by
    rw [h1, List.map_reverse, List.map_snd_zip]
    simp
  refine ⟨?_, h2.symm, ?_, ?_, ?_, h1⟩
  · rw [h1]
    simp
  · rw [hfst]
    exact List.nodup_reverse.mpr hdistinct
  · rw [hfst]
    exact List.reverse_perm _
  · rw [hsnd]
    exact List.reverse_perm _

/-- The theorem of C13 (amended) for five points of the line with the labels 100, ..., 500
inserted into a new index. -/
theorem hnsw_add_label_bijection_witness :
    (batch_labels [(five_points, five_levels)]).Nodup ∧
    ∃ index, hnsw_add_batches (empty_index spaced_line 2 10) [(five_points, five_levels)]
        = .ok index ∧
      index.label_lookup_.length = 5 ∧
      index.label_lookup_ = [(500, 4), (400, 3), (300, 2), (200, 1), (100, 0)] := by
  refine ⟨by decide, ?_⟩
  obtain ⟨index, h⟩ := except_ok_of_isSome
    (show (hnsw_add_batches (empty_index spaced_line 2 10)
      [(five_points, five_levels)]).toOption.isSome = true from by rfl)
  have := hnsw_add_label_bijection spaced_line 2 10 [(five_points, five_levels)] index
    (by decide) h
  exact ⟨index, h, this.1, this.2.2.2.2.2⟩

theorem hnsw_add_from_promotion (get_random_level : Nat → Int) (cur_count : Nat)
    (base : List (Int × List Int)) (i : Nat) (index index' : HGraphIndex)
    (hcount : i + cur_count = index.bottom_graph_.TotalCount)
    (hlevels : ∀ j, i ≤ j → j < i + base.length →
      0 ≤ get_random_level j ∧ get_random_level j < 18446744073709551616)
    (h : hnsw_add_from get_random_level cur_count base i index = .ok index') :
    (index'.max_level_, index'.enter_point_id_, index'.bottom_graph_.TotalCount) =
      promotion_reference
        ((List.range base.length).map (fun j => get_random_level (i + j) - 1))
        (index.max_level_, index.enter_point_id_, index.bottom_graph_.TotalCount) := by
  induction base generalizing i index with
  | nil =>
    unfold hnsw_add_from at h
    simp only [Except.ok.injEq] at h
    subst h
    rfl
  | cons e rest ih =>
    unfold hnsw_add_from at h
    split at h
    · exact absurd h (by simp)
    · next index1 h1 =>
      rw [hcount] at h1
      obtain ⟨_, _, _, hmax, hentry⟩ := hnsw_add_one_fields _ _ _ _ _ _ h1
      have hc1 : index1.bottom_graph_.TotalCount = index.bottom_graph_.TotalCount + 1 :=
        (hnsw_add_one_bottom_frame _ _ _ _ _ _ h1).2
      have hl := hlevels i (le_refl i) (by simp)
      have hu : as_unsigned (get_random_level i - 1 + 1) = (get_random_level i - 1 + 1).toNat :=
        as_unsigned_of_nonneg _ (by omega) (by omega)
      have hrec := ih (i + 1) index1 (by rw [hc1]; omega)
        (fun j hj1 hj2 => hlevels j (by omega) (by simp only [List.length_cons]; omega)) h
      rw [hrec, List.length_cons, List.range_succ_eq_map, List.map_cons, List.map_map]
      have hfun : ((fun j => get_random_level (i + j) - 1) ∘ Nat.succ) =
          (fun j => get_random_level (i + 1 + j) - 1) := by
        funext j
        simp only [Function.comp, Nat.succ_eq_add_one]
        congr 2
        omega
      rw [hfun]
      show _ = promotion_reference _ _
      conv_rhs => unfold promotion_reference
      simp only [Nat.add_zero]
      congr 1
      rw [hmax, hentry, hc1, hu]
      split_ifs <;> rfl

/-- C14: in a completed sequential `hnsw_add` with levels `get_random_level() - 1 >= -1`, the
top level, the entry point and the count of the bottom graph end as the promotion rule of the
spec says: an insert whose level `L` is at least `max_level`, or that meets an empty index,
sets `max_level = L + 1` and the entry point to its inner id; any other insert leaves both. -/
theorem hnsw_add_promotion (index index' : HGraphIndex) (base : List (Int × List Int))
    (get_random_level : Nat → Int)
    (hlevels : ∀ j, j < base.length →
      0 ≤ get_random_level j ∧ get_random_level j < 18446744073709551616)
    (h : hnsw_add index base get_random_level = .ok index') :
    (index'.max_level_, index'.enter_point_id_, index'.bottom_graph_.TotalCount) =
      promotion_reference ((List.range base.length).map (fun j => get_random_level j - 1))
        (index.max_level_, index.enter_point_id_, index.bottom_graph_.TotalCount) := by
  unfold hnsw_add at h
  have := hnsw_add_from_promotion get_random_level _ base 0 index index' (Nat.zero_add _)
    (fun j _ hj => hlevels j (by omega)) h
  simpa using this

/-- The theorem of C14 in scenario S4: three vectors with the levels 0, 0 and 2 inserted into
an empty index; the top level ends as 3 and the entry point as the inner id 2. -/
theorem hnsw_add_promotion_witness :
    (∀ j, j < three_points.length →
      0 ≤ s4_levels j ∧ s4_levels j < 18446744073709551616) ∧
    ∃ index', hnsw_add (empty_index spaced_line 4 10) three_points s4_levels = .ok index' ∧
      index'.max_level_ = 3 ∧ index'.enter_point_id_ = 2 := by
  refine ⟨by decide, ?_⟩
  obtain ⟨index', h⟩ := except_ok_of_isSome
    (show (hnsw_add (empty_index spaced_line 4 10) three_points s4_levels).toOption.isSome
      = true from by rfl)
  have := hnsw_add_promotion (empty_index spaced_line 4 10) index' three_points s4_levels
    (by decide) h
  have h3 : promotion_reference ((List.range three_points.length).map (fun j => s4_levels j - 1))
      ((empty_index spaced_line 4 10).max_level_, (empty_index spaced_line 4 10).enter_point_id_,
        (empty_index spaced_line 4 10).bottom_graph_.TotalCount) = (3, 2, 3) := by decide
  rw [h3] at this
  simp only [Prod.mk.injEq] at this
  exact ⟨index', h, this.1, this.2.1⟩


/-- The search under the pair order (ties broken by inner id, the variant that section 4.4 of
the spec leaves to implementers): on `tie_graph`, from the entry point 2, the search with
`ef = 2` returns the distances 1 and 4, and the search with `ef = 3` returns 3, 4 and 4.  Of
the candidates 0 and 4, both at distance 5, that order expands the id 4 first. -/
theorem search_one_graph_larger_ef_worse :
    (search_one_graph fresh_pool [0] tie_graph tie_flatten 2 2 none).1.reverse.map Prod.fst
      = [1, 4] ∧
    (search_one_graph fresh_pool [0] tie_graph tie_flatten 2 3 none).1.reverse.map Prod.fst
      = [3, 4, 4] ∧
    ¬ ((search_one_graph fresh_pool [0] tie_graph tie_flatten 2 3 none).1.reverse.map
        Prod.fst).headD 0 ≤
      ((search_one_graph fresh_pool [0] tie_graph tie_flatten 2 2 none).1.reverse.map
        Prod.fst).headD 0 := by
  decide

/-! ## The search with a larger `ef` -/

namespace MaxHeap

theorem emplace_cons_of_lt {x : Candidate} {xs : MaxHeap} {d : Int} {id : Nat}
    (h : pair_lt x (d, id) = true) : emplace (x :: xs) d id = (d, id) :: x :: xs := by
  rw [emplace, if_pos h]

theorem emplace_cons_of_not_lt {x : Candidate} {xs : MaxHeap} {d : Int} {id : Nat}
    (h : pair_lt x (d, id) = false) : emplace (x :: xs) d id = x :: emplace xs d id := by
  rw [emplace, if_neg (by rw [h]; simp)]

theorem emplace_append_right (pre W : MaxHeap) (d : Int) (id : Nat)
    (h : ∀ p ∈ pre, pair_lt p (d, id) = false) :
    emplace (pre ++ W) d id = pre ++ emplace W d id := by
  induction pre with
  | nil => rfl
  | cons p ps ih =>
    rw [List.cons_append, emplace_cons_of_not_lt (h p (List.mem_cons_self _ _)),
      ih (fun q hq => h q (List.mem_cons_of_mem _ hq)), List.cons_append]

theorem emplace_append_left (pre : MaxHeap) (x : Candidate) (xs : MaxHeap) (d : Int) (id : Nat)
    (h : pair_lt x (d, id) = true) :
    emplace (pre ++ x :: xs) d id = emplace pre d id ++ x :: xs := by
  induction pre with
  | nil => rw [List.nil_append, emplace_cons_of_lt h]; rfl
  | cons p ps ih =>
    by_cases hp : pair_lt p (d, id) = true
    · rw [List.cons_append, emplace_cons_of_lt hp, emplace_cons_of_lt hp]
      rfl
    · have hp2 : pair_lt p (d, id) = false := by simpa using hp
      rw [List.cons_append, emplace_cons_of_not_lt hp2, emplace_cons_of_not_lt hp2, ih]
      rfl

/-- After `emplace` the entries below the top are, position by position, no farther than the
entries before it. -/
theorem emplace_shift {h : MaxHeap} (hv : Valid h) (d : Int) (id : Nat) :
    ∃ c rest, emplace h d id = c :: rest ∧ List.Forall₂ (fun x y => x.1 ≤ y.1) rest h := by
  induction h with
  | nil => exact ⟨(d, id), [], rfl, List.Forall₂.nil⟩
  | cons x xs ih =>
    by_cases hx : pair_lt x (d, id) = true
    · refine ⟨(d, id), x :: xs, emplace_cons_of_lt hx, ?_⟩
      exact List.forall₂_same.mpr (fun _ _ => le_refl _)
    · have hx2 : pair_lt x (d, id) = false := by simpa using hx
      unfold Valid at hv
      rw [List.pairwise_cons] at hv
      obtain ⟨c, rest, h1, h2⟩ := ih hv.2
      refine ⟨x, c :: rest, by rw [emplace_cons_of_not_lt hx2, h1], ?_⟩
      refine List.Forall₂.cons ?_ h2
      have hc : c ∈ emplace xs d id := by rw [h1]; exact List.mem_cons_self _ _
      rcases mem_emplace.mp hc with rfl | hc
      · rw [pair_lt_eq_false_iff] at hx2
        rcases hx2 with h3 | ⟨h3, _⟩
        · exact le_of_lt h3
        · exact le_of_eq h3.symm
      · have := hv.1 c hc
        rw [pair_lt_eq_false_iff] at this
        rcases this with h3 | ⟨h3, _⟩
        · exact le_of_lt h3
        · exact le_of_eq h3.symm

end MaxHeap

theorem atLeastAsNear_refl (X : MaxHeap) : AtLeastAsNear X X :=
  ⟨[], X, rfl, List.forall₂_same.mpr (fun _ _ => le_refl _)⟩

theorem forall₂_le_trans {A B C : List Candidate}
    (h1 : List.Forall₂ (fun x y => x.1 ≤ y.1) A B)
    (h2 : List.Forall₂ (fun x y => x.1 ≤ y.1) B C) :
    List.Forall₂ (fun x y => x.1 ≤ y.1) A C := by
  induction h1 generalizing C with
  | nil =>
    cases h2
    exact List.Forall₂.nil
  | cons hab _ ih =>
    cases h2 with
    | cons hbc h2 => exact List.Forall₂.cons (le_trans hab hbc) (ih h2)

theorem atLeastAsNear_trans {X Y Z : MaxHeap} (h1 : AtLeastAsNear X Y)
    (h2 : AtLeastAsNear Y Z) : AtLeastAsNear X Z := by
  obtain ⟨p1, X1, rfl, f1⟩ := h1
  obtain ⟨p2, Y1, rfl, f2⟩ := h2
  refine ⟨p1 ++ X1.take p2.length, X1.drop p2.length, ?_, ?_⟩
  · rw [List.append_assoc, List.take_append_drop]
  · exact forall₂_le_trans (List.forall₂_drop_append X1 p2 Y1 f1) f2

namespace SubExtra

theorem mono {P Q : Candidate → Prop} (hPQ : ∀ c, P c → Q c) {small big : List Candidate}
    (h : SubExtra P small big) : SubExtra Q small big := by
  induction h with
  | nil => exact SubExtra.nil
  | both c _ ih => exact SubExtra.both c ih
  | extra c hc _ ih => exact SubExtra.extra c (hPQ c hc) ih

theorem refl (P : Candidate → Prop) (l : List Candidate) : SubExtra P l l := by
  induction l with
  | nil => exact SubExtra.nil
  | cons c l ih => exact SubExtra.both c ih

theorem subset {P : Candidate → Prop} {small big : List Candidate}
    (h : SubExtra P small big) : ∀ c ∈ small, c ∈ big := by
  induction h with
  | nil => exact fun c hc => hc
  | both c0 _ ih =>
    intro c hc
    rcases List.mem_cons.mp hc with rfl | hc
    · exact List.mem_cons_self _ _
    · exact List.mem_cons_of_mem _ (ih c hc)
  | extra c0 _ _ ih => exact fun c hc => List.mem_cons_of_mem _ (ih c hc)

theorem eq_of_false {P : Candidate → Prop} (hP : ∀ c, ¬ P c) {small big : List Candidate}
    (h : SubExtra P small big) : small = big := by
  induction h with
  | nil => rfl
  | both c _ ih => rw [ih]
  | extra c hc _ _ => exact absurd hc (hP c)

/-- The same candidate put into both heaps. -/
theorem emplace_both {P : Candidate → Prop} {small big : List Candidate}
    (h : SubExtra P small big) (hv : MaxHeap.Valid big) (d : Int) (id : Nat) :
    SubExtra P (MaxHeap.emplace small d id) (MaxHeap.emplace big d id) := by
  induction h with
  | nil => exact SubExtra.both _ SubExtra.nil
  | both c hsub ih =>
    unfold MaxHeap.Valid at hv
    rw [List.pairwise_cons] at hv
    by_cases hc : pair_lt c (d, id) = true
    · rw [MaxHeap.emplace_cons_of_lt hc, MaxHeap.emplace_cons_of_lt hc]
      exact SubExtra.both _ (SubExtra.both c hsub)
    · have hc2 : pair_lt c (d, id) = false := by simpa using hc
      rw [MaxHeap.emplace_cons_of_not_lt hc2, MaxHeap.emplace_cons_of_not_lt hc2]
      exact SubExtra.both c (ih hv.2)
  | extra c hPc hsub ih =>
    rename_i small0 big0
    unfold MaxHeap.Valid at hv
    rw [List.pairwise_cons] at hv
    by_cases hc : pair_lt c (d, id) = true
    · rw [MaxHeap.emplace_cons_of_lt hc]
      have hsmall : MaxHeap.emplace small0 d id = (d, id) :: small0 := by
        cases small0 with
        | nil => rfl
        | cons y ys =>
          apply MaxHeap.emplace_cons_of_lt
          have hy : pair_lt c y = false := hv.1 y (hsub.subset y (List.mem_cons_self _ _))
          by_contra hcon
          have hcon2 : pair_lt y (d, id) = false := by simpa using hcon
          have := pair_lt_false_trans hy hcon2
          rw [this] at hc
          exact absurd hc (by simp)
      rw [hsmall]
      exact SubExtra.both _ (SubExtra.extra c hPc hsub)
    · have hc2 : pair_lt c (d, id) = false := by simpa using hc
      rw [MaxHeap.emplace_cons_of_not_lt hc2]
      exact SubExtra.extra c hPc (ih hv.2)

/-- A candidate put into the larger heap only. -/
theorem emplace_extra {P : Candidate → Prop} {small big : List Candidate}
    (h : SubExtra P small big) (d : Int) (id : Nat) (hP : P (d, id)) :
    SubExtra P small (MaxHeap.emplace big d id) := by
  induction h with
  | nil => exact SubExtra.extra _ hP SubExtra.nil
  | both c hsub ih =>
    by_cases hc : pair_lt c (d, id) = true
    · rw [MaxHeap.emplace_cons_of_lt hc]
      exact SubExtra.extra _ hP (SubExtra.both c hsub)
    · have hc2 : pair_lt c (d, id) = false := by simpa using hc
      rw [MaxHeap.emplace_cons_of_not_lt hc2]
      exact SubExtra.both c ih
  | extra c hPc hsub ih =>
    by_cases hc : pair_lt c (d, id) = true
    · rw [MaxHeap.emplace_cons_of_lt hc]
      exact SubExtra.extra _ hP (SubExtra.extra c hPc hsub)
    · have hc2 : pair_lt c (d, id) = false := by simpa using hc
      rw [MaxHeap.emplace_cons_of_not_lt hc2]
      exact SubExtra.extra c hPc ih

/-- When no candidate that satisfies `P` can be above the top of the smaller heap, both heaps
have the same top. -/
theorem head_eq {P : Candidate → Prop} {c : Candidate} {small big : List Candidate}
    (h : SubExtra P (c :: small) big) (hv : MaxHeap.Valid big)
    (hP : ∀ x, P x → pair_lt x c = true) :
    ∃ big', big = c :: big' ∧ SubExtra P small big' := by
  cases h with
  | both _ hsub => exact ⟨_, rfl, hsub⟩
  | extra x hPx hsub =>
    unfold MaxHeap.Valid at hv
    rw [List.pairwise_cons] at hv
    have h1 := hv.1 c (hsub.subset c (List.mem_cons_self _ _))
    rw [hP x hPx] at h1
    exact absurd h1 (by simp)

end SubExtra

theorem offer_fst_of_admit (ef : Nat) (dist : Int) (v : Nat) (s : MaxHeap × MaxHeap × Int)
    (h : s.2.1.size < ef ∨ s.2.2 > dist) :
    (offer ef dist v s).1 = s.1.emplace (-dist) v := by
  rw [offer_candidate_set, if_pos h]

theorem offer_snd_of_admit (ef : Nat) (dist : Int) (v : Nat) (s : MaxHeap × MaxHeap × Int)
    (h : s.2.1.size < ef ∨ s.2.2 > dist) :
    (offer ef dist v s).2.1 =
      if (s.2.1.emplace dist v).size > ef then (s.2.1.emplace dist v).pop
      else s.2.1.emplace dist v := by
  rw [offer_cur_result, if_pos h]

theorem offer_of_reject (ef : Nat) (dist : Int) (v : Nat) (s : MaxHeap × MaxHeap × Int)
    (h : ¬ (s.2.1.size < ef ∨ s.2.2 > dist)) : offer ef dist v s = s := by
  unfold offer
  rw [if_neg h]

theorem offer_head (ef : Nat) (dist : Int) (v : Nat) (s : MaxHeap × MaxHeap × Int)
    (hs : s.2.1.head?.map Prod.fst = some s.2.2) (hne : (offer ef dist v s).2.1 ≠ []) :
    (offer ef dist v s).2.1.head?.map Prod.fst = some (offer ef dist v s).2.2 := by
  by_cases h : s.2.1.size < ef ∨ s.2.2 > dist
  · obtain ⟨t, w, htw⟩ := List.exists_cons_of_ne_nil hne
    rw [offer_lower_bound, if_pos h, htw]
    simp [MaxHeap.top?]
  · rw [offer_of_reject ef dist v s h]
    exact hs

/-- An offer never makes `cur_result` worse. -/
theorem offer_atLeastAsNear (ef : Nat) (dist : Int) (v : Nat) (s : MaxHeap × MaxHeap × Int)
    (hv : MaxHeap.Valid s.2.1) : AtLeastAsNear (offer ef dist v s).2.1 s.2.1 := by
  rw [offer_cur_result]
  obtain ⟨c, rest, h1, h2⟩ := MaxHeap.emplace_shift hv dist v
  split_ifs
  · rw [h1]
    exact ⟨[], rest, rfl, h2⟩
  · rw [h1]
    exact ⟨[c], rest, rfl, h2⟩
  · exact atLeastAsNear_refl _

theorem offer_all_atLeastAsNear (qdist : Nat → Int) (ef : Nat) (l : List Nat)
    (s : MaxHeap × MaxHeap × Int) (h : ResultInv ef s.2.1) :
    AtLeastAsNear (offer_all qdist ef l s).2.1 s.2.1 := by
  induction l generalizing s with
  | nil => exact atLeastAsNear_refl _
  | cons v rest ih =>
    exact atLeastAsNear_trans (ih _ (offer_inv ef (qdist v) v s h))
      (offer_atLeastAsNear ef (qdist v) v s h.1)

theorem search_loop_atLeastAsNear (qdist : Nat → Int) (graph : GraphInterface) (ef tag : Nat)
    (fuel : Nat) (st : SearchState) (h : ResultInv ef st.cur_result) :
    AtLeastAsNear (search_loop qdist graph ef tag fuel st).cur_result st.cur_result := by
  induction fuel generalizing st with
  | zero => exact atLeastAsNear_refl _
  | succ n ih =>
    unfold search_loop
    split
    · exact atLeastAsNear_refl _
    · next st' hstep =>
      have hinv := search_step_inv qdist graph ef tag st st' hstep h
      refine atLeastAsNear_trans (ih st' hinv) ?_
      unfold search_step at hstep
      split at hstep
      · exact absurd hstep (by simp)
      · split_ifs at hstep
        simp only [Option.some.injEq] at hstep
        subst hstep
        exact offer_all_atLeastAsNear qdist ef _ _ h

theorem offer_candidate_valid (ef : Nat) (dist : Int) (v : Nat) (s : MaxHeap × MaxHeap × Int)
    (h : MaxHeap.Valid s.1) : MaxHeap.Valid (offer ef dist v s).1 := by
  rw [offer_candidate_set]
  split_ifs
  · exact MaxHeap.emplace_valid h _ _
  · exact h

theorem offer_mem (ef : Nat) (dist : Int) (v : Nat) (s : MaxHeap × MaxHeap × Int)
    (c : Candidate) (hc : c ∈ (offer ef dist v s).2.1) : c = (dist, v) ∨ c ∈ s.2.1 := by
  rw [offer_cur_result] at hc
  split_ifs at hc
  · exact MaxHeap.mem_emplace.mp (List.mem_of_mem_tail hc)
  · exact MaxHeap.mem_emplace.mp hc
  · exact Or.inr hc

theorem resultInv_of (ef : Nat) (hef : 1 ≤ ef) {W : MaxHeap} (hv : MaxHeap.Valid W)
    (hne : W ≠ []) (hlen : W.length ≤ ef) : ResultInv ef W :=
  ⟨hv, hne, le_trans hlen (le_max_left _ _)⟩

/-- One candidate offered to the search with `ef = a` and to the search with `ef = b`. -/
theorem offer_efSim (qdist : Nat → Int) (a b : Nat)
    (ha : 1 ≤ a) (hab : a ≤ b) (V : List Nat) (v : Nat) (hv : v ∉ V)
    (hinj : ∀ u ∈ V, qdist u = qdist v → u = v)
    (sA sB : MaxHeap × MaxHeap × Int) (h : EfSim qdist a b V sA sB) :
    EfSim qdist a b (V ++ [v]) (offer a (qdist v) v sA) (offer b (qdist v) v sB) := by
  obtain ⟨CA, WA, lbA⟩ := sA
  obtain ⟨CB, WB, lbB⟩ := sB
  obtain ⟨hvB, hneA, hlenA, hlenB, hlbA, hlbB, ⟨pre, hpre, hfull⟩, hvCB, hsub, hent⟩ := h
  simp only at hvB hneA hlenA hlenB hlbA hlbB hpre hfull hvCB hsub hent
  obtain ⟨x, xs, rfl⟩ := List.exists_cons_of_ne_nil hneA
  subst hpre
  have hlbAx : lbA = x.1 := by simpa using hlbA.symm
  subst hlbAx
  have hvB' := hvB
  unfold MaxHeap.Valid at hvB'
  rw [List.pairwise_append] at hvB'
  obtain ⟨hvpre, hvA, hcross⟩ := hvB'
  have hmaxA : ∀ c ∈ x :: xs, c.1 ≤ x.1 := valid_head_max hvA
  have hpre_ge : ∀ p ∈ pre, x.1 ≤ p.1 := by
    intro p hp
    have := hcross p hp x (List.mem_cons_self _ _)
    rw [pair_lt_eq_false_iff] at this
    rcases this with h1 | ⟨h1, _⟩ <;> omega
  have hlbB_ge : x.1 ≤ lbB := by
    cases pre with
    | nil =>
      simp only [List.nil_append, List.head?_cons, Option.map_some', Option.some.injEq] at hlbB
      omega
    | cons p ps =>
      simp only [List.cons_append, List.head?_cons, Option.map_some', Option.some.injEq] at hlbB
      have := hpre_ge p (List.mem_cons_self _ _)
      omega
  have hfresh : ∀ c ∈ pre ++ x :: xs, c.1 ≠ qdist v := by
    intro c hc hcd
    obtain ⟨h1, h2⟩ := hent c hc
    have : c.2 = v := hinj c.2 h2 (h1.symm.trans hcd)
    exact hv (this ▸ h2)
  have hinvA := offer_inv a (qdist v) v (CA, x :: xs, x.1)
    (resultInv_of a ha hvA (List.cons_ne_nil _ _) hlenA)
  have hinvB := offer_inv b (qdist v) v (CB, pre ++ x :: xs, lbB)
    (resultInv_of b (le_trans ha hab) hvB (by simp) hlenB)
  have hmaxa : max a 1 = a := max_eq_left ha
  have hmaxb : max b 1 = b := max_eq_left (le_trans ha hab)
  unfold ResultInv at hinvA hinvB
  rw [hmaxa] at hinvA
  rw [hmaxb] at hinvB
  have hheadA := offer_head a (qdist v) v (CA, x :: xs, x.1) hlbA hinvA.2.1
  have hheadB := offer_head b (qdist v) v (CB, pre ++ x :: xs, lbB) hlbB hinvB.2.1
  have key : (∃ pre', (offer b (qdist v) v (CB, pre ++ x :: xs, lbB)).2.1 =
        pre' ++ (offer a (qdist v) v (CA, x :: xs, x.1)).2.1 ∧
        (pre' ≠ [] → (offer a (qdist v) v (CA, x :: xs, x.1)).2.1.length = a)) ∧
      SubExtra (fun c => (offer a (qdist v) v (CA, x :: xs, x.1)).2.2 < -c.1 ∧
          (offer a (qdist v) v (CA, x :: xs, x.1)).2.1.length = a)
        (offer a (qdist v) v (CA, x :: xs, x.1)).1
        (offer b (qdist v) v (CB, pre ++ x :: xs, lbB)).1 := by
    by_cases hcA : MaxHeap.size (x :: xs) < a ∨ x.1 > qdist v
    · have hcB : MaxHeap.size (pre ++ x :: xs) < b ∨ lbB > qdist v := by
        rcases hcA with h1 | h1
        · have hpn : pre = [] := by
            by_contra hne
            have := hfull hne
            simp only [MaxHeap.size] at h1
            omega
          subst hpn
          left
          simp only [MaxHeap.size, List.nil_append] at h1 ⊢
          omega
        · right
          omega
      have eA1 := offer_fst_of_admit a (qdist v) v (CA, x :: xs, x.1) hcA
      have eB1 := offer_fst_of_admit b (qdist v) v (CB, pre ++ x :: xs, lbB) hcB
      have eA2 := offer_snd_of_admit a (qdist v) v (CA, x :: xs, x.1) hcA
      have eB2 := offer_snd_of_admit b (qdist v) v (CB, pre ++ x :: xs, lbB) hcB
      simp only at eA1 eB1 eA2 eB2
      by_cases hlt : (x :: xs).length < a
      · have hpn : pre = [] := by
          by_contra hne
          have := hfull hne
          omega
        subst hpn
        rw [if_neg (by simp only [MaxHeap.size, MaxHeap.emplace_length]; omega)] at eA2
        rw [if_neg (by
          simp only [MaxHeap.size, MaxHeap.emplace_length, List.nil_append]; omega)] at eB2
        constructor
        · exact ⟨[], by rw [eA2, eB2]; rfl, fun h => absurd rfl h⟩
        · rw [eA1, eB1]
          exact (hsub.mono (fun c hc => absurd hc.2 (by omega))).emplace_both hvCB _ v
      · have hlen : (x :: xs).length = a := by omega
        have hgt : x.1 > qdist v := by
          rcases hcA with h1 | h1
          · simp only [MaxHeap.size] at h1
            omega
          · exact h1
        have hxlt : pair_lt x (qdist v, v) = false := by
          rw [pair_lt_eq_false_iff]
          exact Or.inl hgt
        have hemA : MaxHeap.emplace (x :: xs) (qdist v) v = x :: MaxHeap.emplace xs (qdist v) v :=
          MaxHeap.emplace_cons_of_not_lt hxlt
        have hemB : MaxHeap.emplace (pre ++ x :: xs) (qdist v) v =
            pre ++ x :: MaxHeap.emplace xs (qdist v) v := by
          rw [MaxHeap.emplace_append_right pre _ (qdist v) v (fun p hp => by
            rw [pair_lt_eq_false_iff]
            left
            have := hpre_ge p hp
            simp only
            omega), hemA]
        have hWlen : (MaxHeap.emplace xs (qdist v) v).length = a := by
          rw [MaxHeap.emplace_length]
          simpa using hlen
        rw [hemA, if_pos (by
          simp only [MaxHeap.size, List.length_cons, hWlen]
          omega)] at eA2
        simp only [MaxHeap.pop, List.tail_cons] at eA2
        have hlb : (offer a (qdist v) v (CA, x :: xs, x.1)).2.2 ≤ x.1 := by
          rw [eA2] at hheadA
          obtain ⟨y, ys, hy⟩ := List.exists_cons_of_ne_nil
            (MaxHeap.emplace_ne_nil xs (qdist v) v)
          have hym : y ∈ MaxHeap.emplace xs (qdist v) v := by
            rw [hy]
            exact List.mem_cons_self _ _
          rw [hy] at hheadA
          simp only [List.head?_cons, Option.map_some', Option.some.injEq] at hheadA
          rw [← hheadA]
          rcases MaxHeap.mem_emplace.mp hym with rfl | hym
          · exact le_of_lt hgt
          · exact hmaxA y (List.mem_cons_of_mem _ hym)
        constructor
        · rw [eB2, hemB, eA2]
          split_ifs
          · refine ⟨(pre ++ [x]).tail, ?_, fun _ => hWlen⟩
            simp only [MaxHeap.pop]
            rw [show pre ++ x :: MaxHeap.emplace xs (qdist v) v =
              (pre ++ [x]) ++ MaxHeap.emplace xs (qdist v) v by simp,
              List.tail_append_of_ne_nil (by simp)]
          · exact ⟨pre ++ [x], by simp, fun _ => hWlen⟩
        · rw [eA1, eB1]
          refine (hsub.mono ?_).emplace_both hvCB _ v
          intro c hc
          rw [eA2]
          exact ⟨lt_of_le_of_lt hlb hc.1, hWlen⟩
    · have hlen : (x :: xs).length = a := by
        simp only [MaxHeap.size, not_or, not_lt] at hcA
        omega
      have hlt : x.1 < qdist v := by
        simp only [MaxHeap.size, not_or, not_lt, gt_iff_lt] at hcA
        have := hfresh x (by simp)
        omega
      rw [offer_of_reject a (qdist v) v (CA, x :: xs, x.1) hcA]
      simp only
      by_cases hcB : MaxHeap.size (pre ++ x :: xs) < b ∨ lbB > qdist v
      · have eB1 := offer_fst_of_admit b (qdist v) v (CB, pre ++ x :: xs, lbB) hcB
        have eB2 := offer_snd_of_admit b (qdist v) v (CB, pre ++ x :: xs, lbB) hcB
        simp only at eB1 eB2
        have hxlt : pair_lt x (qdist v, v) = true := by
          rw [pair_lt_iff]
          exact Or.inl hlt
        have hemB : MaxHeap.emplace (pre ++ x :: xs) (qdist v) v =
            MaxHeap.emplace pre (qdist v) v ++ x :: xs :=
          MaxHeap.emplace_append_left pre x xs (qdist v) v hxlt
        constructor
        · rw [eB2, hemB]
          split_ifs
          · refine ⟨(MaxHeap.emplace pre (qdist v) v).tail, ?_, fun _ => hlen⟩
            simp only [MaxHeap.pop]
            rw [List.tail_append_of_ne_nil (MaxHeap.emplace_ne_nil pre (qdist v) v)]
          · exact ⟨MaxHeap.emplace pre (qdist v) v, rfl, fun _ => hlen⟩
        · rw [eB1]
          exact hsub.emplace_extra _ v ⟨by simpa using hlt, hlen⟩
      · rw [offer_of_reject b (qdist v) v (CB, pre ++ x :: xs, lbB) hcB]
        exact ⟨⟨pre, rfl, hfull⟩, hsub⟩
  refine ⟨hinvB.1, hinvA.2.1, hinvA.2.2, hinvB.2.2, hheadA, hheadB, key.1, ?_, key.2, ?_⟩
  · exact offer_candidate_valid b (qdist v) v _ hvCB
  · intro c hc
    rcases offer_mem b (qdist v) v _ c hc with rfl | hc
    · exact ⟨rfl, by simp⟩
    · exact ⟨(hent c hc).1, List.mem_append_left _ (hent c hc).2⟩

theorem offer_all_efSim (qdist : Nat → Int) (a b : Nat)
    (ha : 1 ≤ a) (hab : a ≤ b) (l : List Nat) (V : List Nat) (hl : l.Nodup)
    (hlV : ∀ u ∈ l, u ∉ V)
    (hinj : ∀ u ∈ V ++ l, ∀ w ∈ V ++ l, qdist u = qdist w → u = w)
    (sA sB : MaxHeap × MaxHeap × Int) (h : EfSim qdist a b V sA sB) :
    EfSim qdist a b (V ++ l) (offer_all qdist a l sA) (offer_all qdist b l sB) := by
  induction l generalizing V sA sB with
  | nil => simpa [offer_all] using h
  | cons v rest ih =>
    rw [List.nodup_cons] at hl
    have h1 := offer_efSim qdist a b ha hab V v (hlV v (List.mem_cons_self _ _))
      (fun u hu => hinj u (List.mem_append_left _ hu) v (by simp)) sA sB h
    have h2 := ih (V ++ [v]) hl.2 (fun u hu hmem => by
      rcases List.mem_append.mp hmem with h3 | h3
      · exact hlV u (List.mem_cons_of_mem _ hu) h3
      · rw [List.mem_singleton] at h3
        exact hl.1 (h3 ▸ hu))
      (fun u hu w hw => hinj u (by simpa using hu) w (by simpa using hw)) _ _ h1
    simpa [offer_all] using h2

theorem efSim_lower_bound_le {qdist : Nat → Int} {a b : Nat} {V : List Nat}
    {sA sB : MaxHeap × MaxHeap × Int} (h : EfSim qdist a b V sA sB) : sA.2.2 ≤ sB.2.2 := by
  obtain ⟨hvB, hneA, _, _, hlbA, hlbB, ⟨pre, hpre, _⟩, _⟩ := h
  obtain ⟨x, xs, hx⟩ := List.exists_cons_of_ne_nil hneA
  rw [hx] at hlbA
  rw [hpre, hx] at hlbB hvB
  simp only [List.head?_cons, Option.map_some', Option.some.injEq] at hlbA
  cases pre with
  | nil =>
    simp only [List.nil_append, List.head?_cons, Option.map_some', Option.some.injEq] at hlbB
    omega
  | cons p ps =>
    simp only [List.cons_append, List.head?_cons, Option.map_some', Option.some.injEq] at hlbB
    have := valid_head_max hvB x (by simp)
    omega

/-- One iteration of the loop of the search with `ef = a` is matched by one iteration of the
loop of the search with `ef = b`, which expands the same id. -/
theorem search_step_sim (qdist : Nat → Int) (graph : GraphInterface) (ep a b tag : Nat)
    (hinj : ∀ u w, (u = ep ∨ ∃ x, u ∈ graph.GetNeighbors x) →
      (w = ep ∨ ∃ x, w ∈ graph.GetNeighbors x) → qdist u = qdist w → u = w)
    (ha : 1 ≤ a) (hab : a ≤ b)
    (stA stB stA' : SearchState) (hsim : LoopSim qdist graph ep a b tag stA stB)
    (hstep : search_step qdist graph a tag stA = some stA') :
    ∃ stB', search_step qdist graph b tag stB = some stB' ∧
      LoopSim qdist graph ep a b tag stA' stB' := by
  obtain ⟨hva, V, hV, hef⟩ := hsim
  have hlb := efSim_lower_bound_le hef
  obtain ⟨hvB, hneA, hlenA, hlenB, hlbA, hlbB, ⟨pre, hpre, hfull⟩, hvCB, hsub, hent⟩ := hef
  simp only at hvB hneA hlenA hlenB hlbA hlbB hpre hfull hvCB hsub hent hlb
  unfold search_step at hstep
  split at hstep
  · exact absurd hstep (by simp)
  · next c htop =>
    split_ifs at hstep with hbreak
    simp only [Option.some.injEq] at hstep
    subst hstep
    obtain ⟨CA0, hCA⟩ : ∃ CA0, stA.candidate_set = c :: CA0 := by
      unfold MaxHeap.top? at htop
      cases hc : stA.candidate_set with
      | nil => rw [hc] at htop; simp at htop
      | cons y ys =>
        rw [hc] at htop
        simp only [List.head?_cons, Option.some.injEq] at htop
        exact ⟨ys, by rw [htop]⟩
    rw [hCA] at hsub
    obtain ⟨CB0, hCB, hsub0⟩ := hsub.head_eq hvCB (by
      intro x hx
      rw [pair_lt_iff]
      left
      have h1 : ¬ (-c.1 > stA.lower_bound) := fun h2 => hbreak ⟨h2, hx.2⟩
      have := hx.1
      omega)
    have htopB : stB.candidate_set.top? = some c := by
      rw [hCB]
      rfl
    have hnb : ¬ (-c.1 > stB.lower_bound ∧ stB.cur_result.size = b) := by
      rintro ⟨h1, h2⟩
      by_cases hlen : stA.cur_result.length = a
      · exact hbreak ⟨by omega, hlen⟩
      · have hpn : pre = [] := by
          by_contra hne
          exact hlen (hfull hne)
        rw [hpn, List.nil_append] at hpre
        simp only [MaxHeap.size] at h2
        rw [hpre] at h2
        omega
    obtain ⟨fresh, h1, h2, h3, h4, h5⟩ :=
      collect_unvisited_spec tag (graph.GetNeighbors c.2) stA.visited_array []
    rw [List.nil_append] at h1
    refine ⟨_, by
      unfold search_step
      rw [htopB]
      simp only
      rw [if_neg hnb], ?_⟩
    refine ⟨by simp only; rw [hva], V ++ fresh, ?_, ?_⟩
    · intro u hu
      simp only
      rw [h4 u]
      rcases List.mem_append.mp hu with hu | hu
      · exact ⟨Or.inl (hV u hu).1, (hV u hu).2⟩
      · exact ⟨Or.inr hu, Or.inr ⟨c.2, (h3 u hu).2⟩⟩
    · simp only
      rw [← hva, h1, hCA, hCB]
      simp only [MaxHeap.pop, List.tail_cons]
      have hD : ∀ u ∈ V ++ fresh, u = ep ∨ ∃ x, u ∈ graph.GetNeighbors x := by
        intro u hu
        rcases List.mem_append.mp hu with hu | hu
        · exact (hV u hu).2
        · exact Or.inr ⟨c.2, (h3 u hu).2⟩
      apply offer_all_efSim qdist a b ha hab fresh V h2
        (fun u hu hmem => (h3 u hu).1 (hV u hmem).1)
        (fun u hu w hw => hinj u w (hD u hu) (hD w hw))
      refine ⟨hvB, hneA, hlenA, hlenB, hlbA, hlbB, ⟨pre, hpre, hfull⟩, ?_, hsub0, hent⟩
      rw [hCB] at hvCB
      exact MaxHeap.pop_valid hvCB

theorem search_loop_sim (qdist : Nat → Int) (graph : GraphInterface) (ep a b tag : Nat)
    (hinj : ∀ u w, (u = ep ∨ ∃ x, u ∈ graph.GetNeighbors x) →
      (w = ep ∨ ∃ x, w ∈ graph.GetNeighbors x) → qdist u = qdist w → u = w)
    (ha : 1 ≤ a) (hab : a ≤ b) (fuel : Nat)
    (stA stB : SearchState) (hsim : LoopSim qdist graph ep a b tag stA stB) :
    AtLeastAsNear (search_loop qdist graph b tag fuel stB).cur_result
      (search_loop qdist graph a tag fuel stA).cur_result := by
  have hbase : AtLeastAsNear stB.cur_result stA.cur_result := by
    obtain ⟨_, V, _, hef⟩ := hsim
    obtain ⟨_, _, _, _, _, _, ⟨pre, hpre, _⟩, _⟩ := hef
    exact ⟨pre, stA.cur_result, hpre, List.forall₂_same.mpr (fun _ _ => le_refl _)⟩
  have hinvB : ResultInv b stB.cur_result := by
    obtain ⟨_, V, _, hef⟩ := hsim
    obtain ⟨hvB, hneA, _, hlenB, _, _, ⟨pre, hpre, _⟩, _⟩ := hef
    simp only at hvB hneA hlenB hpre
    refine resultInv_of b (le_trans ha hab) hvB ?_ hlenB
    rw [hpre]
    simp [hneA]
  induction fuel generalizing stA stB with
  | zero => exact hbase
  | succ n ih =>
    cases hA : search_step qdist graph a tag stA with
    | none =>
      have e : search_loop qdist graph a tag (n + 1) stA = stA := by
        rw [search_loop, hA]
      rw [e]
      exact atLeastAsNear_trans (search_loop_atLeastAsNear qdist graph b tag (n + 1) stB hinvB)
        hbase
    | some stA' =>
      obtain ⟨stB', hB, hsim'⟩ := search_step_sim qdist graph ep a b tag hinj ha hab stA stB
        stA' hsim hA
      have eA : search_loop qdist graph a tag (n + 1) stA =
          search_loop qdist graph a tag n stA' := by
        rw [search_loop, hA]
      have eB : search_loop qdist graph b tag (n + 1) stB =
          search_loop qdist graph b tag n stB' := by
        rw [search_loop, hB]
      rw [eA, eB]
      have hbase' : AtLeastAsNear stB'.cur_result stA'.cur_result := by
        obtain ⟨_, V, _, hef⟩ := hsim'
        obtain ⟨_, _, _, _, _, _, ⟨pre, hpre, _⟩, _⟩ := hef
        exact ⟨pre, stA'.cur_result, hpre, List.forall₂_same.mpr (fun _ _ => le_refl _)⟩
      exact ih stA' stB' hsim' hbase' (search_step_inv qdist graph b tag stB stB' hB hinvB)

theorem search_init_sim (qdist : Nat → Int) (graph : GraphInterface) (a b : Nat)
    (ha : 1 ≤ a) (hab : a ≤ b) (ep : Nat) (vl : VisitedList) :
    LoopSim qdist graph ep a b vl.curV (search_init qdist ep vl) (search_init qdist ep vl) := by
  refine ⟨rfl, [ep], ?_, ?_⟩
  · intro u hu
    rw [List.mem_singleton] at hu
    subst hu
    exact ⟨by simp [search_init], Or.inl rfl⟩
  · refine ⟨?_, ?_, ?_, ?_, ?_, ?_, ⟨[], rfl, fun h => absurd rfl h⟩, ?_, SubExtra.refl _ _, ?_⟩
    · simp [search_init, MaxHeap.emplace, MaxHeap.Valid]
    · simp [search_init, MaxHeap.emplace]
    · simpa [search_init, MaxHeap.emplace] using ha
    · simpa [search_init, MaxHeap.emplace] using le_trans ha hab
    · simp [search_init, MaxHeap.emplace, MaxHeap.top?]
    · simp [search_init, MaxHeap.emplace, MaxHeap.top?]
    · simp [search_init, MaxHeap.emplace, MaxHeap.Valid]
    · intro c hc
      simp only [search_init, MaxHeap.emplace, List.mem_singleton] at hc
      subst hc
      simp

/-- The search under the pair order: when distinct ids, among the entry point and the ids of
the stored neighbour lists, are at distinct distances from the query (no tie arises), for
`1 <= a <= b` the search with `ef = b` returns at least as many candidates as the search with
`ef = a`, and the ascending list of the distances it returns is, position by position below
the size of the `ef = a` result, no larger than the one returned with `ef = a`. -/
theorem search_one_graph_monotone_ef (pool : VisitedListPool) (query : List Int)
    (graph : GraphInterface) (flatten : FlattenInterface) (ep a b : Nat)
    (isIdAllowed : Option (Nat → Bool)) (ha : 1 ≤ a) (hab : a ≤ b)
    (hinj : ∀ u w, (u = ep ∨ ∃ x, u ∈ graph.GetNeighbors x) →
      (w = ep ∨ ∃ x, w ∈ graph.GetNeighbors x) →
      flatten.Query query u = flatten.Query query w → u = w) :
    (search_one_graph pool query graph flatten ep a isIdAllowed).1.size ≤
      (search_one_graph pool query graph flatten ep b isIdAllowed).1.size ∧
    List.Forall₂ (fun db da => db ≤ da)
      (((search_one_graph pool query graph flatten ep b isIdAllowed).1.reverse.map
        Prod.fst).take (search_one_graph pool query graph flatten ep a isIdAllowed).1.size)
      ((search_one_graph pool query graph flatten ep a isIdAllowed).1.reverse.map Prod.fst) := by
  have hsim := search_loop_sim (flatten.Query query) graph ep a b
    pool.getFreeVisitedList.curV hinj ha hab (search_fuel graph) _ _
    (search_init_sim (flatten.Query query) graph a b ha hab ep pool.getFreeVisitedList)
  have eA : (search_one_graph pool query graph flatten ep a isIdAllowed).1 =
      (search_loop (flatten.Query query) graph a pool.getFreeVisitedList.curV (search_fuel graph)
        (search_init (flatten.Query query) ep pool.getFreeVisitedList)).cur_result := rfl
  have eB : (search_one_graph pool query graph flatten ep b isIdAllowed).1 =
      (search_loop (flatten.Query query) graph b pool.getFreeVisitedList.curV (search_fuel graph)
        (search_init (flatten.Query query) ep pool.getFreeVisitedList)).cur_result := rfl
  rw [← eA, ← eB] at hsim
  obtain ⟨pre, X, hX, hf⟩ := hsim
  have hlen := hf.length_eq
  rw [hX]
  constructor
  · simp only [MaxHeap.size, List.length_append]
    omega
  · simp only [MaxHeap.size]
    rw [List.reverse_append, List.map_append, ← hlen,
      show X.length = (X.reverse.map Prod.fst).length by simp, List.take_left']
    · rw [List.forall₂_map_left_iff, List.forall₂_map_right_iff]
      exact List.rel_reverse hf
    · rfl

/-- The lemma `search_one_graph_monotone_ef` on `triangle_graph`, whose ids 0, 1, 2 are at the
distances 0, 10, 20 from the query at 0, for `ef = 1` and `ef = 2`. -/
theorem search_one_graph_monotone_ef_witness :
    (1 : Nat) ≤ 1 ∧ (1 : Nat) ≤ 2 ∧
    (∀ u w, (u = 2 ∨ ∃ x, u ∈ triangle_graph.GetNeighbors x) →
      (w = 2 ∨ ∃ x, w ∈ triangle_graph.GetNeighbors x) →
      spaced_line.Query [0] u = spaced_line.Query [0] w → u = w) ∧
    (search_one_graph fresh_pool [0] triangle_graph spaced_line 2 1 none).1.size ≤
      (search_one_graph fresh_pool [0] triangle_graph spaced_line 2 2 none).1.size ∧
    List.Forall₂ (fun db da => db ≤ da)
      (((search_one_graph fresh_pool [0] triangle_graph spaced_line 2 2 none).1.reverse.map
        Prod.fst).take (search_one_graph fresh_pool [0] triangle_graph spaced_line 2 1 none).1.size)
      ((search_one_graph fresh_pool [0] triangle_graph spaced_line 2 1 none).1.reverse.map
        Prod.fst) := by
  have hinj : Function.Injective (spaced_line.Query [0]) := by
    intro u w huw
    simp only [spaced_line, line_flatten, List.headD_cons, Int.ofNat_eq_coe, zero_sub,
      Int.natAbs_neg, Int.natAbs_mul, Int.natAbs_ofNat] at huw
    have h10 : Int.natAbs 10 = 10 := rfl
    rw [h10] at huw
    omega
  exact ⟨le_refl 1, by decide, fun u w _ _ h => hinj h,
    search_one_graph_monotone_ef fresh_pool [0] triangle_graph spaced_line 2 1 2 none
      (le_refl 1) (by decide) (fun u w _ _ h => hinj h)⟩


/-! ## The label lock and the adjacency cell -/

/-- C21 (the code departs from the claim): the index is `label & MAX_LABEL_OPERATION_LOCKS`, a
bitwise AND with the size of the table, not a remainder.  For the label equal to the size `M`
of the table the index is `M` itself: not below `M`, and not `label mod M`, which is 0. -/
theorem label_lock_index_out_of_table (M : Nat) (hM : M < 9223372036854775808) :
    label_lock_index M (Int.ofNat M) = M ∧
    ¬ label_lock_index M (Int.ofNat M) < M ∧
    (0 < M → Int.ofNat (label_lock_index M (Int.ofNat M)) ≠ Int.ofNat M % Int.ofNat M) := by
  have h : label_lock_index M (Int.ofNat M) = M := by
    have hu : as_unsigned (Int.ofNat M) = M :=
      as_unsigned_of_nonneg (Int.ofNat M) (Int.ofNat_nonneg M) (by
        have : (Int.ofNat M) = (M : Int) := rfl
        omega)
    unfold label_lock_index
    rw [hu]
    exact Nat.and_self M
  refine ⟨h, by rw [h]; exact lt_irrefl M, ?_⟩
  intro hpos
  rw [h]
  have : (Int.ofNat M) = (M : Int) := rfl
  rw [this, Int.emod_self]
  omega

/-- The theorem of C21 for a table of 65536 mutexes and the label 65536; the label 65539 gets
the index 65536 as well, while its remainder is 3. -/
theorem label_lock_index_out_of_table_witness :
    (65536 : Nat) < 9223372036854775808 ∧
    label_lock_index 65536 65539 = 65536 ∧
    label_lock_index 65536 (Int.ofNat 65536) = 65536 ∧
    ¬ label_lock_index 65536 (Int.ofNat 65536) < 65536 ∧
    (0 < 65536 →
      Int.ofNat (label_lock_index 65536 (Int.ofNat 65536)) ≠ Int.ofNat 65536 % Int.ofNat 65536) :=
  ⟨by decide, by decide, label_lock_index_out_of_table 65536 (by decide)⟩

/-- C22 (the code departs from the claim): `GetNeighbors` returns before it touches the output
vector when the stored size is 0.  In a cell whose node 0 was inserted with no neighbour, the
id 0 is below `TotalCount()` and its stored list is empty, and a vector that held the id 7
before the call still holds it after the call.  In general the output is the stored list
exactly when the stored list is not empty or the vector was empty before. -/
theorem GraphDataCell_GetNeighbors_keeps_prior_content :
    (0 < ((GraphDataCell.create 2).InsertNode []).TotalCount ∧
      ((GraphDataCell.create 2).InsertNode []).stored_list 0 = [] ∧
      ((GraphDataCell.create 2).InsertNode []).GetNeighbors 0 [7] = [7]) ∧
    (∀ (c : GraphDataCell) (id : Nat) (out : List Nat), id < c.TotalCount →
      (c.GetNeighbors id out = c.stored_list id ↔ c.stored_list id ≠ [] ∨ out = [])) := by
  refine ⟨⟨by decide, by decide, by decide⟩, ?_⟩
  intro c id out hid
  unfold GraphDataCell.TotalCount at hid
  have hsize : c.GetNeighborSize id = c.io_.u32 (id * c.get_single_offset) := by
    unfold GraphDataCell.GetNeighborSize
    rw [if_neg (by omega)]
  unfold GraphDataCell.GetNeighbors GraphDataCell.stored_list
  simp only [hsize]
  by_cases h0 : c.io_.u32 (id * c.get_single_offset) = 0
  · rw [if_pos h0, h0]
    simp only [List.range_zero, List.map_nil, ne_eq, not_true_eq_false, false_or]
  · rw [if_neg h0]
    constructor
    · intro _
      left
      intro hnil
      have := congrArg List.length hnil
      simp only [List.length_map, List.length_range, List.length_nil] at this
      exact h0 this
    · intro _
      rfl

/-! ## The nearest stored neighbour in the NN-descent builder -/

theorem nearestKept_refl (graph : Nat → List Node) : NearestKept graph graph :=
  fun _ n hn => ⟨n, hn, le_refl _⟩

theorem nearestKept_trans {a b c : Nat → List Node} (h1 : NearestKept a b)
    (h2 : NearestKept b c) : NearestKept a c := by
  intro u n hn
  obtain ⟨m, hm, hmn⟩ := h1 u n hn
  obtain ⟨k, hk, hkm⟩ := h2 u m hm
  exact ⟨k, hk, le_trans hkm hmn⟩

theorem nearestKept_of_subset {a b : Nat → List Node} (h : ∀ u, ∀ n ∈ a u, n ∈ b u) :
    NearestKept a b :=
  fun u n hn => ⟨n, h u n hn, le_refl _⟩

theorem ordered_insert_sorted (n : Node) (l : List Node)
    (h : l.Pairwise (fun a b => a.distance ≤ b.distance)) :
    (ordered_insert n l).Pairwise (fun a b => a.distance ≤ b.distance) := by
  induction l with
  | nil => simp [ordered_insert]
  | cons x xs ih =>
    rw [List.pairwise_cons] at h
    unfold ordered_insert
    split_ifs with hlt
    · rw [List.pairwise_cons]
      refine ⟨?_, ih h.2⟩
      intro y hy
      rcases mem_ordered_insert.mp hy with rfl | hy
      · exact le_of_lt hlt
      · exact h.1 y hy
    · rw [List.pairwise_cons, List.pairwise_cons]
      refine ⟨?_, h⟩
      intro y hy
      rcases List.mem_cons.mp hy with rfl | hy
      · exact not_lt.mp hlt
      · exact le_trans (not_lt.mp hlt) (h.1 y hy)

theorem std_sort_sorted (l : List Node) :
    (std_sort l).Pairwise (fun a b => a.distance ≤ b.distance) := by
  induction l with
  | nil => simp [std_sort]
  | cons x xs ih =>
    unfold std_sort
    exact ordered_insert_sorted x _ ih

/-- The first entry of a sorted list that is not empty: it is an entry of the list, and no
entry is nearer. -/
theorem std_sort_head {l : List Node} {n : Node} (hn : n ∈ l) :
    ∃ h t, std_sort l = h :: t ∧ h ∈ l ∧ ∀ m ∈ l, h.distance ≤ m.distance := by
  have hs := std_sort_sorted l
  have hmem : n ∈ std_sort l := mem_std_sort.mpr hn
  cases hl : std_sort l with
  | nil => rw [hl] at hmem; exact absurd hmem (List.not_mem_nil n)
  | cons h t =>
    rw [hl, List.pairwise_cons] at hs
    refine ⟨h, t, rfl, mem_std_sort.mp (by rw [hl]; exact List.mem_cons_self _ _), ?_⟩
    intro m hm
    have hm2 : m ∈ std_sort l := mem_std_sort.mpr hm
    rw [hl] at hm2
    rcases List.mem_cons.mp hm2 with rfl | hm2
    · exact le_refl _
    · exact hs.1 m hm2

namespace Graph

/-- The prune step keeps the nearest entry of the list it prunes, and leaves the other lists
as they are. -/
theorem nearestKept_reduce_graph (g : Graph) (loc : Nat) (hdeg : 1 ≤ g.max_degree_) :
    NearestKept g.graph (reduce_graph g loc).graph := by
  intro u n hn
  by_cases hu : u = loc
  · subst hu
    obtain ⟨h, t, hs, hh, hmin⟩ := std_sort_head hn
    refine ⟨h, ?_, hmin n hn⟩
    rw [reduce_graph_at, hs]
    unfold std_unique
    split_ifs
    · obtain ⟨k, hk⟩ : ∃ k, g.max_degree_ = k + 1 := ⟨g.max_degree_ - 1, by omega⟩
      rw [hk, List.take_succ_cons]
      exact List.mem_cons_self _ _
    · exact List.mem_cons_self _ _
  · rw [reduce_graph_other g loc u hu]
    exact ⟨n, hn, le_refl _⟩

theorem mem_emplace_back {graph : Nat → List Node} {loc id : Nat} {d : Int} {u : Nat}
    {n : Node} (h : n ∈ graph u) : n ∈ emplace_back graph loc id d u := by
  unfold emplace_back
  by_cases hu : u = loc
  · subst hu
    rw [Function.update_same]
    exact List.mem_append_left _ h
  · rw [Function.update_noteq hu]
    exact h

theorem mem_join_candidate (get_distance : Nat → Nat → Int) (oj : Node)
    (new_neighbors : List Node) (graph : Nat → List Node) {u : Nat} {n : Node}
    (h : n ∈ graph u) : n ∈ (join_candidate get_distance oj new_neighbors graph).2 u := by
  induction new_neighbors with
  | nil => exact h
  | cons nk rest ih =>
    unfold join_candidate
    dsimp only
    split_ifs
    · exact ih
    · exact h
    · exact mem_emplace_back h
    · exact ih

/-- The local join only appends to the lists of the graph, and keeps what `new_neighbors`
already holds. -/
theorem mem_local_join (get_distance : Nat → Nat → Int) (old_neighbors : List Node)
    (j last_id : Nat) (new_neighbors : List Node) (graph : Nat → List Node) :
    (∀ u, ∀ n ∈ graph u,
      n ∈ (local_join get_distance old_neighbors j last_id new_neighbors graph).2 u) ∧
    ∀ n ∈ new_neighbors,
      n ∈ (local_join get_distance old_neighbors j last_id new_neighbors graph).1 := by
  induction old_neighbors generalizing j last_id new_neighbors graph with
  | nil => exact ⟨fun _ _ h => h, fun _ h => h⟩
  | cons oj rest ih =>
    unfold local_join
    split_ifs with h1
    · exact ih (j + 1) last_id new_neighbors graph
    · obtain ⟨a, b⟩ := ih (j + 1) oj.id
        (if (join_candidate get_distance oj new_neighbors graph).1 then new_neighbors ++ [oj]
          else new_neighbors)
        (join_candidate get_distance oj new_neighbors graph).2
      refine ⟨fun u n hn => a u n (mem_join_candidate get_distance oj new_neighbors graph hn),
        fun n hn => b n ?_⟩
      split_ifs
      · exact List.mem_append_left _ hn
      · exact hn

/-- The first entry of `old_neighbors` always enters `new_neighbors`. -/
theorem local_join_keeps_first (get_distance : Nat → Nat → Int) (oj : Node)
    (rest : List Node) (last_id : Nat) (graph : Nat → List Node) :
    oj ∈ (local_join get_distance (oj :: rest) 0 last_id [] graph).1 := by
  unfold local_join
  rw [if_neg (by omega)]
  exact (mem_local_join get_distance rest (0 + 1) oj.id _ _).2 oj (by
    simp [join_candidate])

theorem nearestKept_update_neighbors_at (g : Graph) (i : Nat) (hdeg : 1 ≤ g.max_degree_) :
    NearestKept g.graph (update_neighbors_at g i).graph := by
  unfold update_neighbors_at
  refine nearestKept_trans ?_ (nearestKept_reduce_graph _ i hdeg)
  intro u n hn
  by_cases hu : u = i
  · subst hu
    obtain ⟨h, t, hs, hh, hmin⟩ := std_sort_head hn
    refine ⟨{ h with old := true }, ?_, hmin n hn⟩
    simp only [Function.update_same]
    apply List.mem_append_right
    rw [hs]
    exact List.mem_map_of_mem _ (local_join_keeps_first g.get_distance h t _ _)
  · refine ⟨n, ?_, le_refl _⟩
    simp only [Function.update_noteq hu]
    apply (mem_local_join g.get_distance _ 0 4294967295 [] _).1 u n
    rw [Function.update_noteq hu]
    exact hn

theorem nearestKept_merge_reverse_at (rev : Nat → List Node) (g : Graph) (i : Nat)
    (hdeg : 1 ≤ g.max_degree_) : NearestKept g.graph (merge_reverse_at rev g i).graph := by
  unfold merge_reverse_at
  refine nearestKept_trans ?_ (nearestKept_reduce_graph _ i hdeg)
  apply nearestKept_of_subset
  intro u n hn
  by_cases hu : u = i
  · subst hu
    simp only [Function.update_same]
    exact List.mem_append_left _ hn
  · simp only [Function.update_noteq hu]
    exact hn

theorem nearestKept_foldl (body : Graph → Nat → Graph)
    (hparams : ∀ g i, (body g i).max_degree_ = g.max_degree_)
    (hbody : ∀ g i, 1 ≤ g.max_degree_ → NearestKept g.graph (body g i).graph)
    (l : List Nat) (g : Graph) (hdeg : 1 ≤ g.max_degree_) :
    NearestKept g.graph (l.foldl body g).graph := by
  induction l generalizing g with
  | nil => exact nearestKept_refl _
  | cons i rest ih =>
    rw [List.foldl_cons]
    exact nearestKept_trans (hbody g i hdeg) (ih (body g i) (by rw [hparams]; exact hdeg))

theorem nearestKept_update_neighbors (g : Graph) (hdeg : 1 ≤ g.max_degree_) :
    NearestKept g.graph (update_neighbors g).graph :=
  nearestKept_foldl update_neighbors_at (fun _ _ => rfl) nearestKept_update_neighbors_at _ g hdeg

theorem nearestKept_add_reverse_edges (g : Graph) (hdeg : 1 ≤ g.max_degree_) :
    NearestKept g.graph (add_reverse_edges g).graph :=
  nearestKept_foldl (merge_reverse_at (reverse_graph g)) (fun _ _ => rfl)
    (nearestKept_merge_reverse_at (reverse_graph g)) _ g hdeg

theorem nearestKept_final_prune (g : Graph) (hdeg : 1 ≤ g.max_degree_) :
    NearestKept g.graph (for_each_id reduce_graph g).graph :=
  nearestKept_foldl reduce_graph (fun _ _ => rfl) nearestKept_reduce_graph _ g hdeg

theorem nearestKept_refine_rounds (last : Nat) (rounds : List Nat) (g : Graph)
    (hdeg : 1 ≤ g.max_degree_) : NearestKept g.graph (refine_rounds last rounds g).graph := by
  induction rounds generalizing g with
  | nil => exact nearestKept_refl _
  | cons i rest ih =>
    unfold refine_rounds
    have h1 := nearestKept_update_neighbors g hdeg
    have hd1 : 1 ≤ (update_neighbors g).max_degree_ := by
      rw [(update_neighbors_params g).1]; exact hdeg
    split_ifs
    · have h2 := nearestKept_add_reverse_edges (update_neighbors g) hd1
      have hd2 : 1 ≤ (add_reverse_edges (update_neighbors g)).max_degree_ := by
        rw [(add_reverse_edges_params _).1]; exact hd1
      exact nearestKept_trans h1 (nearestKept_trans h2 (ih _ hd2))
    · exact nearestKept_trans h1 (ih _ hd1)

end Graph

/-- C28: for `max_degree >= 1`, every step of `Build` (`update_neighbors`,
`add_reverse_edges`, `reduce_graph`, applied to any state `g` of the builder) leaves in every
list an entry at least as near as each entry the list had, so that a list that is not empty
stays so and its smallest stored distance does not grow; and the graph that `Build` returns on
a new builder has, in the list of every `u` below `data_num`, an entry at least as near as each
entry that the random initialisation gave `u`, the list being non-empty. -/
theorem Graph_Build_keeps_nearest (max_degree : Nat) (turn : Int) (data_num : Nat)
    (get_distance : Nat → Nat → Int) (draw : Nat → Nat → Nat) (g : Graph)
    (hdeg : 1 ≤ max_degree) (hg : 1 ≤ g.max_degree_) :
    NearestKept g.graph (Graph.update_neighbors g).graph ∧
    NearestKept g.graph (Graph.add_reverse_edges g).graph ∧
    (∀ loc, NearestKept g.graph (Graph.reduce_graph g loc).graph) ∧
    NearestKept
      (Graph.init_graph { Graph.create max_degree turn with
        is_build_ := true, data_num_ := data_num, get_distance := get_distance } draw).graph
      (Graph.Build (Graph.create max_degree turn) data_num get_distance draw).2.graph ∧
    ∀ u, u < data_num →
      (Graph.Build (Graph.create max_degree turn) data_num get_distance draw).2.graph u ≠ [] := by
  have hinit : 1 ≤ (Graph.init_graph { Graph.create max_degree turn with
      is_build_ := true, data_num_ := data_num, get_distance := get_distance } draw).max_degree_ :=
    hdeg
  have h1 := Graph.nearestKept_refine_rounds 9 (List.range 10)
    (Graph.init_graph { Graph.create max_degree turn with
      is_build_ := true, data_num_ := data_num, get_distance := get_distance } draw) hinit
  have hd2 : 1 ≤ (Graph.refine_rounds 9 (List.range 10)
      (Graph.init_graph { Graph.create max_degree turn with
        is_build_ := true, data_num_ := data_num, get_distance := get_distance }
        draw)).max_degree_ := by
    rw [(Graph.refine_rounds_params 9 (List.range 10) _).1]
    exact hinit
  have h2 := Graph.nearestKept_final_prune _ hd2
  have h3 := nearestKept_trans h1 h2
  rw [← Graph.Build_fresh_snd max_degree turn data_num get_distance draw] at h3
  refine ⟨Graph.nearestKept_update_neighbors g hg, Graph.nearestKept_add_reverse_edges g hg,
    fun loc => Graph.nearestKept_reduce_graph g loc hg, h3, ?_⟩
  intro u hu hnil
  have hmem : ({ old := false, id := draw u 0, distance := get_distance u (draw u 0) } : Node) ∈
      (Graph.init_graph { Graph.create max_degree turn with
        is_build_ := true, data_num_ := data_num, get_distance := get_distance } draw).graph u := by
    unfold Graph.init_graph
    dsimp only
    rw [if_pos hu]
    apply List.mem_append_right
    unfold Graph.init_entries
    exact List.mem_map.mpr ⟨0, List.mem_range.mpr (by
      show 0 < max_degree
      omega), rfl⟩
  obtain ⟨m, hm, _⟩ := h3 u _ hmem
  rw [hnil] at hm
  exact absurd hm (List.not_mem_nil m)

set_option maxRecDepth 100000 in
/-- The theorem of C28 for three points at 0, 1 and 3, every list initialised with the next
id, and `max_degree = 1`: the list of the id 2, initialised with the id 0 at distance 3, ends
with the id 1 at distance 2. -/
theorem Graph_Build_keeps_nearest_witness :
    (1 : Nat) ≤ 1 ∧
    ((Graph.Build (Graph.create 1 1) 3 (line_distance [0, 1, 3]) ring_draw).2.graph 2).map
      (fun n => (n.id, n.distance)) = [(1, 2)] ∧
    ∀ u, u < 3 →
      (Graph.Build (Graph.create 1 1) 3 (line_distance [0, 1, 3]) ring_draw).2.graph u ≠ [] :=
  ⟨le_refl 1, by decide,
    (Graph_Build_keeps_nearest 1 1 3 (line_distance [0, 1, 3]) ring_draw (Graph.create 1 1)
      (le_refl 1) (le_refl 1)).2.2.2.2⟩


/-! ## The unchecked reads of `top()` and `back()` -/

/-- With `max_size >= 1`, the heuristic keeps a candidate of smallest distance of a heap that
is not empty: the first one it takes from `queue_closest`. -/
theorem select_edges_keeps_nearest (edges : MaxHeap) (max_size : Nat)
    (flatten : FlattenInterface) (hne : edges ≠ []) (hmax : 1 ≤ max_size) :
    ∃ c ∈ select_edges_by_heuristic edges max_size flatten,
      c ∈ edges ∧ ∀ e ∈ edges, c.1 ≤ e.1 := by
  have hperm := drain_negated_perm edges []
  rw [List.append_nil] at hperm
  have hvalid := drain_negated_valid edges [] MaxHeap.valid_nil
  have hq : drain_negated edges [] ≠ [] := by
    intro h
    have := hperm.length_eq
    rw [h] at this
    simp at this
    exact hne (List.length_eq_zero.mp this.symm)
  obtain ⟨c0, rest, hc⟩ := List.exists_cons_of_ne_nil hq
  rw [hc] at hperm hvalid
  have hc0 : c0 ∈ edges.map negated := hperm.subset (List.mem_cons_self _ _)
  obtain ⟨e0, he0, hneg⟩ := List.mem_map.mp hc0
  have hback : negated c0 = e0 := by rw [← hneg, negated_negated]
  have hmin : ∀ e ∈ edges, e0.1 ≤ e.1 := by
    intro e he
    have hmem : negated e ∈ c0 :: rest := hperm.symm.subset (List.mem_map_of_mem negated he)
    have := valid_head_max hvalid (negated e) hmem
    rw [← hneg] at this
    simp only [negated] at this
    omega
  refine ⟨e0, ?_, he0, hmin⟩
  unfold select_edges_by_heuristic
  split_ifs
  · exact he0
  · rw [hc, select_loop_cons, if_neg (by simp; omega)]
    have hg : is_good flatten c0 [] = true := rfl
    rw [if_pos hg]
    obtain ⟨kept, hk, _⟩ := select_loop_sublist flatten max_size rest ([] ++ [c0])
    rw [hk]
    apply (refill_perm ([] ++ [c0] ++ kept) []).symm.subset
    rw [List.append_nil, ← hback]
    exact List.mem_map_of_mem negated (by simp)

theorem pop_ids_getLast_ne_none {h : MaxHeap} (hne : h ≠ []) : (pop_ids h).getLast? ≠ none := by
  rw [pop_ids_eq_map]
  intro hn
  rw [List.getLast?_eq_none_iff] at hn
  exact hne (List.map_eq_nil_iff.mp hn)

theorem connect_neighbor_not_back (cur_c max_size : Nat) (flatten : FlattenInterface)
    (is_update : Bool) (graph : GraphInterface) (s : Nat) :
    connect_neighbor cur_c max_size flatten is_update graph s ≠ .error .back_of_empty := by
  unfold connect_neighbor
  simp only
  split_ifs <;> intro h <;> cases h

theorem connect_neighbors_not_back (cur_c max_size : Nat) (flatten : FlattenInterface)
    (is_update : Bool) (l : List Nat) (graph : GraphInterface) :
    connect_neighbors cur_c max_size flatten is_update l graph ≠ .error .back_of_empty := by
  induction l generalizing graph with
  | nil =>
    unfold connect_neighbors
    intro h
    cases h
  | cons s rest ih =>
    unfold connect_neighbors
    cases h1 : connect_neighbor cur_c max_size flatten is_update graph s with
    | error e =>
      simp only
      intro h
      injection h with h
      subst h
      exact connect_neighbor_not_back cur_c max_size flatten is_update graph s h1
    | ok g1 => exact ih g1

/-- With a maximum degree of at least 1 and candidates, `mutually_connect_new_element` does
not read `back()` of an empty vector. -/
theorem mutually_connect_back_not_empty (cur_c : Nat) (top_candidates : MaxHeap)
    (graph : GraphInterface) (flatten : FlattenInterface) (is_update : Bool)
    (hne : top_candidates ≠ []) (hdeg : 1 ≤ graph.MaximumDegree) :
    mutually_connect_new_element cur_c top_candidates graph flatten is_update ≠
      .error .back_of_empty := by
  have hsel := pop_ids_getLast_ne_none
    (select_edges_ne_nil top_candidates graph.MaximumDegree flatten hne hdeg)
  unfold mutually_connect_new_element
  simp only
  split_ifs
  · intro h
    cases h
  · cases hl : (pop_ids (select_edges_by_heuristic top_candidates graph.MaximumDegree
        flatten)).getLast? with
    | none => exact absurd hl hsel
    | some last =>
      simp only
      cases hcn : connect_neighbors cur_c graph.MaximumDegree flatten is_update
          (pop_ids (select_edges_by_heuristic top_candidates graph.MaximumDegree flatten))
          (graph.InsertNeighborsById cur_c
            (pop_ids (select_edges_by_heuristic top_candidates graph.MaximumDegree flatten))) with
      | ok g => simp
      | error e =>
        simp only
        intro h
        injection h with h
        subst h
        exact absurd hcn (connect_neighbors_not_back cur_c graph.MaximumDegree flatten
          is_update _ _)

/-- C27: for every pool, query, graph, entry point and `ef`, the heap that `search_one_graph`
returns is not empty, so that the `result.top()` of `hnsw_add` and of `knn_search` reads an
element; for `max_size >= 1`, `select_edges_by_heuristic` keeps, of a heap that is not empty, a
candidate that no candidate of the heap is nearer than; and for a graph of maximum degree at
least 1, neither `mutually_connect_new_element` on a heap that is not empty nor the insertion
of `hnsw_add` into that graph reads `selectedNeighbors.back()` of an empty vector. -/
theorem unchecked_reads_not_empty (pool : VisitedListPool) (query : List Int)
    (graph : GraphInterface) (flatten : FlattenInterface) (ep ef : Nat)
    (isIdAllowed : Option (Nat → Bool)) (edges : MaxHeap) (max_size cur_c : Nat)
    (is_update : Bool) (hne : edges ≠ []) (hmax : 1 ≤ max_size)
    (hdeg : 1 ≤ graph.MaximumDegree) :
    (search_one_graph pool query graph flatten ep ef isIdAllowed).1 ≠ [] ∧
    (search_one_graph pool query graph flatten ep ef isIdAllowed).1.top? ≠ none ∧
    (∃ c ∈ select_edges_by_heuristic edges max_size flatten,
      c ∈ edges ∧ ∀ e ∈ edges, c.1 ≤ e.1) ∧
    mutually_connect_new_element cur_c edges graph flatten is_update ≠
      .error .back_of_empty ∧
    insert_into_graph cur_c query flatten ef graph ep pool ≠
      .error (.connect .back_of_empty) := by
  have hres := (search_one_graph_inv pool query graph flatten ep ef isIdAllowed).2.1
  refine ⟨hres, ?_, select_edges_keeps_nearest edges max_size flatten hne hmax,
    mutually_connect_back_not_empty cur_c edges graph flatten is_update hne hdeg, ?_⟩
  · unfold MaxHeap.top?
    intro h
    exact hres (List.head?_eq_none_iff.mp h)
  · unfold insert_into_graph
    split_ifs with h0
    · simp only
      have hnone := (search_one_graph_inv pool query graph flatten ep ef none).2.1
      have hm := mutually_connect_back_not_empty cur_c
        (search_one_graph pool query graph flatten ep ef none).1 graph flatten false hnone hdeg
      cases hmc : mutually_connect_new_element cur_c
          (search_one_graph pool query graph flatten ep ef none).1 graph flatten false with
      | ok r => simp
      | error e =>
        simp only
        intro h
        injection h with h
        injection h with h
        subst h
        exact hm hmc
    · intro h
      cases h

/-- The theorem of C27 for the triangle of the points 0, 10, 20 with maximum degree 4, the
query 12, the entry point 0 and `ef = 1`: the search returns the id 1 at distance 2, the
heuristic keeps the candidate at distance 1 of the heap holding the distances 5 and 1, and the
insertion of the id 3 reads the `back()` of a vector that is not empty. -/
theorem unchecked_reads_not_empty_witness :
    ([(5, 0), (1, 1)] : MaxHeap) ≠ [] ∧ (1 : Nat) ≤ 1 ∧ 1 ≤ triangle_graph.MaximumDegree ∧
    (search_one_graph fresh_pool [12] triangle_graph spaced_line 0 1 none).1.top? =
      some (2, 1) ∧
    select_edges_by_heuristic [(5, 0), (1, 1)] 1 spaced_line = [(1, 1)] ∧
    insert_into_graph 3 [12] spaced_line 1 triangle_graph 0 fresh_pool ≠
      .error (.connect .back_of_empty) :=
  ⟨by decide, by decide, by decide, by decide, by decide,
    (unchecked_reads_not_empty fresh_pool [12] triangle_graph spaced_line 0 1 none
      [(5, 0), (1, 1)] 1 3 false (by decide) (by decide) (by decide)).2.2.2.2⟩


/-! ## Insertion: what `mutually_connect_new_element` writes -/

/-- One pass of the loop body of `mutually_connect_new_element` in insert mode, on a graph
within the degree bound: the list of `selectedNeighbor` is rewritten, and a list that was not
full gets `cur_c` appended. -/
theorem connect_neighbor_insert (cur_c max_size : Nat) (flatten : FlattenInterface)
    (graph : GraphInterface) (s : Nat) (hmax : max_size = graph.maximum_degree)
    (hg : DegreeBounded graph) (hs : s ≠ cur_c) :
    ∃ l, connect_neighbor cur_c max_size flatten false graph s =
        .ok (graph.InsertNeighborsById s l) ∧
      l.length ≤ max_size ∧
      ((graph.GetNeighbors s).length < max_size → l = graph.GetNeighbors s ++ [cur_c]) := by
  unfold connect_neighbor
  have hlen := hg s
  simp only
  rw [if_neg (by omega), if_neg hs]
  simp only [Bool.false_and, Bool.not_false, if_true]
  split_ifs with h2
  · exact ⟨_, rfl, by simp only [List.length_append, List.length_singleton]; omega, fun _ => rfl⟩
  · refine ⟨_, rfl, ?_, fun h => absurd h h2⟩
    rw [pop_ids_eq_map, List.length_map]
    exact select_edges_length _ _ _

/-- The loop over `selectedNeighbors` in insert mode, for ids that are pairwise distinct and
differ from `cur_c`, on a graph within the degree bound. -/
theorem connect_neighbors_insert (cur_c max_size : Nat) (flatten : FlattenInterface)
    (l : List Nat) (graph : GraphInterface) (hmax : max_size = graph.maximum_degree)
    (hg : DegreeBounded graph) (hl : ∀ s ∈ l, s ≠ cur_c) (hnd : l.Nodup) :
    ∃ g', connect_neighbors cur_c max_size flatten false l graph = .ok g' ∧
      (∀ v ∈ l, (graph.GetNeighbors v).length < max_size →
        g'.GetNeighbors v = graph.GetNeighbors v ++ [cur_c]) ∧
      (∀ x, x ∉ l → g'.GetNeighbors x = graph.GetNeighbors x) := by
  induction l generalizing graph with
  | nil => exact ⟨graph, rfl, fun v hv => absurd hv (List.not_mem_nil v), fun _ _ => rfl⟩
  | cons s rest ih =>
    rw [List.nodup_cons] at hnd
    obtain ⟨l1, h1, hlen1, happ1⟩ := connect_neighbor_insert cur_c max_size flatten graph s hmax
      hg (hl s (List.mem_cons_self _ _))
    obtain ⟨g', h2, hv2, hx2⟩ := ih (graph.InsertNeighborsById s l1) hmax
      (insert_degreeBounded hg s l1 (by rw [← hmax]; exact hlen1))
      (fun x hx => hl x (List.mem_cons_of_mem _ hx)) hnd.2
    refine ⟨g', ?_, ?_, ?_⟩
    · unfold connect_neighbors
      rw [h1]
      exact h2
    · intro v hv hlt
      rcases List.mem_cons.mp hv with rfl | hv
      · rw [hx2 v hnd.1, getNeighbors_insert_same]
        exact happ1 hlt
      · have hne : v ≠ s := fun h => hnd.1 (h ▸ hv)
        have := hv2 v hv
        rw [getNeighbors_insert_other _ _ _ _ hne] at this
        exact this hlt
    · intro x hx
      have hxs : x ≠ s := fun h => hx (h ▸ List.mem_cons_self _ _)
      rw [hx2 x (fun h => hx (List.mem_cons_of_mem _ h)), getNeighbors_insert_other _ _ _ _ hxs]

/-- C23 (counterexample): the triangle of the ids 0, 1, 2 with maximum degree 4 is within the
degree bound, and the heap holding the id 1 twice is not empty and does not hold the new
id 3; `mutually_connect_new_element` in insert mode selects both entries, the list `[0, 2]` of
the id 1 has fewer than 4 entries, and it becomes `[0, 2, 3, 3]`, not `[0, 2, 3]`.  And on a
graph of maximum degree 0, within the degree bound, the call does not return: it reads
`back()` of an empty vector. -/
theorem mutually_connect_duplicate_candidate :
    DegreeBounded triangle_graph ∧
    ([(5, 1), (5, 1)] : MaxHeap) ≠ [] ∧
    (3 : Nat) ∉ ([(5, 1), (5, 1)] : MaxHeap).map Prod.snd ∧
    pop_ids (select_edges_by_heuristic [(5, 1), (5, 1)] triangle_graph.MaximumDegree
      spaced_line) = [1, 1] ∧
    triangle_graph.GetNeighbors 1 = [0, 2] ∧
    (mutually_connect_new_element 3 [(5, 1), (5, 1)] triangle_graph spaced_line false).toOption.map
      (fun r => r.2.GetNeighbors 1) = some [0, 2, 3, 3] ∧
    DegreeBounded zero_degree_graph ∧
    (mutually_connect_new_element 1 [(10, 0)] zero_degree_graph spaced_line false).toOption
      = none := by
  refine ⟨triangle_graph_degreeBounded, by decide, by decide, by decide, by decide, by rfl, ?_,
    by rfl⟩
  intro id
  unfold GraphInterface.GetNeighbors zero_degree_graph
  simp only [List.lookup_cons, List.lookup_nil]
  by_cases h0 : id = 0
  · subst h0; simp
  · have : (id == 0) = false := by simpa using h0
    simp [this]

/-- C23 (amended): for a graph of maximum degree at least 1 within the degree bound, a new id
`u`, and a heap that is not empty whose ids are pairwise distinct and differ from `u`,
`mutually_connect_new_element` in insert mode returns, and leaves a graph in which the list of
`u` is `S`, the ids the heuristic selected; the list of every `v` of `S` whose list had fewer
than `max_degree` entries is the old list with `u` appended; and the list of every id outside
`S` and different from `u` is as before. -/
theorem mutually_connect_insert_frame (u : Nat) (top_candidates : MaxHeap)
    (graph : GraphInterface) (flatten : FlattenInterface)
    (hg : DegreeBounded graph) (hdeg : 1 ≤ graph.MaximumDegree) (hne : top_candidates ≠ [])
    (hnd : (top_candidates.map Prod.snd).Nodup) (hu : ∀ c ∈ top_candidates, c.2 ≠ u) :
    ∃ ep g', mutually_connect_new_element u top_candidates graph flatten false = .ok (ep, g') ∧
      g'.GetNeighbors u =
        pop_ids (select_edges_by_heuristic top_candidates graph.MaximumDegree flatten) ∧
      (∀ v ∈ pop_ids (select_edges_by_heuristic top_candidates graph.MaximumDegree flatten),
        (graph.GetNeighbors v).length < graph.MaximumDegree →
          g'.GetNeighbors v = graph.GetNeighbors v ++ [u]) ∧
      (∀ x, x ∉ pop_ids (select_edges_by_heuristic top_candidates graph.MaximumDegree flatten) →
        x ≠ u → g'.GetNeighbors x = graph.GetNeighbors x) := by
  have hsub := subperm_map_snd (select_edges_subperm top_candidates graph.MaximumDegree flatten)
  have hlen := select_edges_length top_candidates graph.MaximumDegree flatten
  have hS : ∀ s ∈ pop_ids (select_edges_by_heuristic top_candidates graph.MaximumDegree flatten),
      s ≠ u := by
    intro s hs
    rw [pop_ids_eq_map] at hs
    obtain ⟨c, hc, rfl⟩ := List.mem_map.mp (hsub.subset hs)
    exact hu c hc
  have hSnd : (pop_ids (select_edges_by_heuristic top_candidates graph.MaximumDegree
      flatten)).Nodup := by
    rw [pop_ids_eq_map]
    obtain ⟨l, hp, hs⟩ := hsub
    exact hp.nodup_iff.mp (hnd.sublist hs)
  have hlenS : (pop_ids (select_edges_by_heuristic top_candidates graph.MaximumDegree
      flatten)).length ≤ graph.maximum_degree := by
    rw [pop_ids_eq_map, List.length_map]
    exact hlen
  obtain ⟨g', hconn, hv, hx⟩ := connect_neighbors_insert u graph.MaximumDegree flatten
    (pop_ids (select_edges_by_heuristic top_candidates graph.MaximumDegree flatten))
    (graph.InsertNeighborsById u
      (pop_ids (select_edges_by_heuristic top_candidates graph.MaximumDegree flatten)))
    rfl (insert_degreeBounded hg u _ hlenS) hS hSnd
  obtain ⟨last, hlast⟩ := Option.ne_none_iff_exists'.mp (pop_ids_getLast_ne_none
    (select_edges_ne_nil top_candidates graph.MaximumDegree flatten hne hdeg))
  refine ⟨last, g', ?_, ?_, ?_, ?_⟩
  · unfold mutually_connect_new_element
    simp only
    rw [if_neg (by unfold MaxHeap.size; omega), hlast]
    simp only
    rw [hconn]
  · have hnot : u ∉ pop_ids (select_edges_by_heuristic top_candidates graph.MaximumDegree
        flatten) := fun h => hS u h rfl
    rw [hx u hnot, getNeighbors_insert_same]
  · intro v hvS hlt
    have := hv v hvS
    rw [getNeighbors_insert_other _ _ _ _ (hS v hvS)] at this
    exact this hlt
  · intro x hxS hxu
    rw [hx x hxS, getNeighbors_insert_other _ _ _ _ hxu]

/-- The theorem of C23 for the triangle of the ids 0, 1, 2 with maximum degree 4, the new
id 3 and the heap holding the ids 2 and 1: the ids selected are 2 and 1, whose lists become
`[0, 1, 3]` and `[0, 2, 3]`, and the list of 0 stays `[1, 2]`. -/
theorem mutually_connect_insert_frame_witness :
    DegreeBounded triangle_graph ∧ 1 ≤ triangle_graph.MaximumDegree ∧
    ([(10, 2), (5, 1)] : MaxHeap) ≠ [] ∧
    pop_ids (select_edges_by_heuristic [(10, 2), (5, 1)] triangle_graph.MaximumDegree
      spaced_line) = [2, 1] ∧
    ∃ ep g', mutually_connect_new_element 3 [(10, 2), (5, 1)] triangle_graph spaced_line false
        = .ok (ep, g') ∧
      g'.GetNeighbors 3 =
        pop_ids (select_edges_by_heuristic [(10, 2), (5, 1)] triangle_graph.MaximumDegree
          spaced_line) ∧
      (∀ v ∈ pop_ids (select_edges_by_heuristic [(10, 2), (5, 1)] triangle_graph.MaximumDegree
          spaced_line),
        (triangle_graph.GetNeighbors v).length < triangle_graph.MaximumDegree →
          g'.GetNeighbors v = triangle_graph.GetNeighbors v ++ [3]) ∧
      (∀ x, x ∉ pop_ids (select_edges_by_heuristic [(10, 2), (5, 1)]
          triangle_graph.MaximumDegree spaced_line) →
        x ≠ 3 → g'.GetNeighbors x = triangle_graph.GetNeighbors x) :=
  ⟨triangle_graph_degreeBounded, by decide, by decide, by decide,
    mutually_connect_insert_frame 3 [(10, 2), (5, 1)] triangle_graph spaced_line
      triangle_graph_degreeBounded (by decide) (by decide) (by decide) (by decide)⟩


/-! ## The per-point lock during an insertion -/

theorem first_unlocked_write_write (held : List Mutex) (id : Nat) (rest : List Event)
    (h : Mutex.neighbors_mutex_ id ∉ held) :
    first_unlocked_write held (.write id :: rest) = some id := by
  unfold first_unlocked_write
  rw [if_neg h]

/-- A completed `mutually_connect_new_element` in insert mode starts its events with the write
of the list of `cur_c`. -/
theorem mutually_connect_events_head (cur_c : Nat) (top_candidates : MaxHeap)
    (graph : GraphInterface) (flatten : FlattenInterface) (r : Nat × GraphInterface)
    (h : mutually_connect_new_element cur_c top_candidates graph flatten false = .ok r) :
    ∃ tail, mutually_connect_events cur_c top_candidates graph flatten false =
      .write cur_c :: tail := by
  unfold mutually_connect_new_element at h
  unfold mutually_connect_events
  simp only at h ⊢
  by_cases h1 : (select_edges_by_heuristic top_candidates graph.MaximumDegree flatten).size >
      graph.MaximumDegree
  · rw [if_pos h1] at h
    exact absurd h (by simp)
  · rw [if_neg h1] at h
    rw [if_neg h1]
    cases hl : (pop_ids (select_edges_by_heuristic top_candidates graph.MaximumDegree
        flatten)).getLast? with
    | none =>
      rw [hl] at h
      exact absurd h (by simp)
    | some last => exact ⟨_, rfl⟩

theorem insert_into_graph_events_head (inner_id : Nat) (query : List Int)
    (flatten : FlattenInterface) (ef_construct : Nat) (graph : GraphInterface) (ep : Nat)
    (pool : VisitedListPool) (r : GraphInterface × Nat × VisitedListPool)
    (h : insert_into_graph inner_id query flatten ef_construct graph ep pool = .ok r) :
    ∃ tail, insert_into_graph_events inner_id query flatten ef_construct graph ep pool =
      .write inner_id :: tail := by
  unfold insert_into_graph_events
  rcases insert_into_graph_ok _ _ _ _ _ _ _ _ h with ⟨h0, _⟩ | ⟨m, hm, _⟩
  · rw [if_neg (by simpa using h0)]
    exact ⟨[], rfl⟩
  · by_cases h0 : graph.TotalCount ≠ 0
    · rw [if_pos h0]
      exact mutually_connect_events_head _ _ _ _ _ hm
    · rw [if_neg h0]
      exact ⟨[], rfl⟩

theorem insert_route_layers_events_head (inner_id : Nat) (query : List Int)
    (flatten : FlattenInterface) (ef_construct n : Nat)
    (s r : List GraphInterface × Nat × VisitedListPool)
    (h : insert_route_layers inner_id query flatten ef_construct n s = .ok r) :
    insert_route_layers_events inner_id query flatten ef_construct n s = [] ∨
    ∃ tail, insert_route_layers_events inner_id query flatten ef_construct n s =
      .write inner_id :: tail := by
  cases n with
  | zero => exact Or.inl rfl
  | succ j =>
    right
    unfold insert_route_layers at h
    unfold insert_route_layers_events
    cases hg : s.1.get? j with
    | none =>
      rw [hg] at h
      exact absurd h (by simp)
    | some graph =>
      rw [hg] at h
      simp only at h ⊢
      cases hi : insert_into_graph inner_id query flatten ef_construct graph s.2.1 s.2.2 with
      | error e =>
        rw [hi] at h
        exact absurd h (by simp)
      | ok r1 =>
        obtain ⟨tail, ht⟩ := insert_into_graph_events_head _ _ _ _ _ _ _ _ hi
        rw [ht]
        exact ⟨_, rfl⟩

/-- The three steps a completed `hnsw_add_one` went through. -/
theorem hnsw_add_one_steps (index index' : HGraphIndex) (label : Int) (data : List Int)
    (level : Int) (inner_id : Nat)
    (h : hnsw_add_one index label data level inner_id = .ok index') :
    ∃ s r b,
      descend_levels data index.basic_flatten_codes_
        (if (decide (level ≥ Int.ofNat index.max_level_) ||
            decide (index.bottom_graph_.TotalCount = 0)) = true then
          index.route_graphs_ ++
            List.replicate (level + 1 - Int.ofNat index.max_level_).toNat
              (generate_one_route_graph index)
        else index.route_graphs_)
        (descent_levels
          (if (decide (level ≥ Int.ofNat index.max_level_) ||
              decide (index.bottom_graph_.TotalCount = 0)) = true then as_unsigned (level + 1)
            else index.max_level_) level)
        (index.enter_point_id_, index.pool_) = .ok s ∧
      insert_route_layers inner_id data index.basic_flatten_codes_ index.ef_construct_
        (level + 1).toNat
        ((if (decide (level ≥ Int.ofNat index.max_level_) ||
            decide (index.bottom_graph_.TotalCount = 0)) = true then
          index.route_graphs_ ++
            List.replicate (level + 1 - Int.ofNat index.max_level_).toNat
              (generate_one_route_graph index)
        else index.route_graphs_), s.1, s.2) = .ok r ∧
      insert_into_graph inner_id data index.basic_flatten_codes_ index.ef_construct_
        index.bottom_graph_ r.2.1 r.2.2 = .ok b := by
  unfold hnsw_add_one at h
  simp only at h
  split at h
  · exact absurd h (by simp)
  · next s hs =>
    split at h
    · exact absurd h (by simp)
    · next r hr =>
      split at h
      · exact absurd h (by simp)
      · next b hb => exact ⟨s, r, b, hs, hr, hb⟩

/-- When the three steps of an insertion complete, the events of the scope of `lock_label`
start with the write of the list of the new element. -/
theorem label_scope_events_head (index : HGraphIndex) (data : List Int)
    (level : Int) (inner_id : Nat) (route_graphs : List GraphInterface) (max_level : Nat)
    (s : Nat × VisitedListPool) (r : List GraphInterface × Nat × VisitedListPool)
    (b : GraphInterface × Nat × VisitedListPool)
    (hs : descend_levels data index.basic_flatten_codes_ route_graphs
      (descent_levels max_level level) (index.enter_point_id_, index.pool_) = .ok s)
    (hr : insert_route_layers inner_id data index.basic_flatten_codes_ index.ef_construct_
      (level + 1).toNat (route_graphs, s.1, s.2) = .ok r)
    (hb : insert_into_graph inner_id data index.basic_flatten_codes_ index.ef_construct_
      index.bottom_graph_ r.2.1 r.2.2 = .ok b) :
    ∃ tail, label_scope_events index data level inner_id route_graphs max_level =
      .write inner_id :: tail := by
  unfold label_scope_events
  simp only
  rw [hs]
  simp only
  rw [hr]
  simp only
  obtain ⟨tail, ht⟩ := insert_into_graph_events_head _ _ _ _ _ _ _ _ hb
  rcases insert_route_layers_events_head _ _ _ _ _ _ _ hr with h0 | ⟨t0, h0⟩
  · rw [h0, ht]
    exact ⟨_, rfl⟩
  · rw [h0]
    exact ⟨_, rfl⟩

/-- C24 (the code departs from the claim): in the events of every completed insertion of one
element by `hnsw_add`, whatever the constant `MAX_LABEL_OPERATION_LOCKS`, the first adjacency
write is the write of the list of the new element `inner_id`, and it happens while
`neighbors_mutex_[inner_id]` is not held: `hnsw_add` never locks it, and
`mutually_connect_new_element` locks it only in update mode.  So the trace does not keep the
lock discipline. -/
theorem hnsw_add_one_writes_own_list_unlocked (max_label_operation_locks : Nat)
    (index index' : HGraphIndex) (label : Int) (data : List Int) (level : Int) (inner_id : Nat)
    (h : hnsw_add_one index label data level inner_id = .ok index') :
    first_unlocked_write []
      (hnsw_add_one_events max_label_operation_locks index label data level inner_id)
      = some inner_id ∧
    ¬ WritesUnderLock
      (hnsw_add_one_events max_label_operation_locks index label data level inner_id) := by
  have key : first_unlocked_write []
      (hnsw_add_one_events max_label_operation_locks index label data level inner_id)
      = some inner_id := by
    obtain ⟨s, r, b, hs, hr, hb⟩ := hnsw_add_one_steps index index' label data level inner_id h
    obtain ⟨tail, ht⟩ := label_scope_events_head index data level inner_id _ _ s r b hs hr hb
    unfold hnsw_add_one_events
    simp only
    rw [ht]
    split_ifs
    · simp [first_unlocked_write]
    · simp [first_unlocked_write]
  refine ⟨key, ?_⟩
  unfold WritesUnderLock
  rw [key]
  exact fun h => by cases h

/-- The theorem of C24 for the insertion of a fourth point, at 30, with level -1 into the
index over the triangle of the points 0, 10, 20, with `MAX_LABEL_OPERATION_LOCKS = 65535`: the
list of the new id 3 is written while only the label lock 400 is held; the lists of the ids 0,
1 and 2 are then written under their own locks. -/
theorem hnsw_add_one_writes_own_list_unlocked_witness :
    hnsw_add_one_events 65535 triangle_index fourth_point.1 fourth_point.2 (-1) 3 =
      [.lock .label_lookup_mutex_, .unlock .label_lookup_mutex_, .lock .global_mutex_,
        .unlock .global_mutex_, .lock (.label_op_mutex_ 400), .write 3,
        .lock (.neighbors_mutex_ 0), .write 0, .unlock (.neighbors_mutex_ 0),
        .lock (.neighbors_mutex_ 1), .write 1, .unlock (.neighbors_mutex_ 1),
        .lock (.neighbors_mutex_ 2), .write 2, .unlock (.neighbors_mutex_ 2),
        .unlock (.label_op_mutex_ 400)] ∧
    ∃ index', hnsw_add_one triangle_index fourth_point.1 fourth_point.2 (-1) 3 = .ok index' ∧
      first_unlocked_write []
        (hnsw_add_one_events 65535 triangle_index fourth_point.1 fourth_point.2 (-1) 3)
        = some 3 ∧
      ¬ WritesUnderLock
        (hnsw_add_one_events 65535 triangle_index fourth_point.1 fourth_point.2 (-1) 3) := by
  refine ⟨by decide, ?_⟩
  obtain ⟨index', h⟩ := except_ok_of_isSome
    (show (hnsw_add_one triangle_index fourth_point.1 fourth_point.2 (-1) 3).toOption.isSome
      = true from by rfl)
  exact ⟨index', h, hnsw_add_one_writes_own_list_unlocked 65535 triangle_index index'
    fourth_point.1 fourth_point.2 (-1) 3 h⟩


/-! ## The search: reachable ids, true distances, expanded results -/

theorem offer_link (P : Nat → Prop) (qdist : Nat → Int) (X : List Nat) (ef : Nat) (v : Nat)
    (s : MaxHeap × MaxHeap × Int) (h : OfferLink P qdist X s) (hv : P v) :
    OfferLink P qdist X (offer ef (qdist v) v s) := by
  obtain ⟨hvalid, hC, hW⟩ := h
  refine ⟨offer_candidate_valid ef (qdist v) v s hvalid, ?_, ?_⟩
  · intro c hc
    rw [offer_candidate_set] at hc
    split_ifs at hc
    · rcases MaxHeap.mem_emplace.mp hc with rfl | hc
      · exact hv
      · exact hC c hc
    · exact hC c hc
  · intro c hc
    by_cases hadm : s.2.1.size < ef ∨ s.2.2 > qdist v
    · rw [offer_candidate_set, if_pos hadm]
      rcases offer_mem ef (qdist v) v s c hc with rfl | hc
      · exact ⟨hv, rfl, Or.inr (MaxHeap.mem_emplace.mpr (Or.inl rfl))⟩
      · obtain ⟨h1, h2, h3⟩ := hW c hc
        refine ⟨h1, h2, ?_⟩
        rcases h3 with h3 | h3
        · exact Or.inl h3
        · exact Or.inr (MaxHeap.mem_emplace.mpr (Or.inr h3))
    · rw [offer_candidate_set, if_neg hadm]
      rw [offer_cur_result, if_neg hadm] at hc
      exact hW c hc

theorem offer_all_link (P : Nat → Prop) (qdist : Nat → Int) (X : List Nat) (ef : Nat)
    (l : List Nat) (s : MaxHeap × MaxHeap × Int) (h : OfferLink P qdist X s)
    (hl : ∀ v ∈ l, P v) : OfferLink P qdist X (offer_all qdist ef l s) := by
  induction l generalizing s with
  | nil => exact h
  | cons v rest ih =>
    unfold offer_all
    exact ih _ (offer_link P qdist X ef v s h (hl v (List.mem_cons_self _ _)))
      (fun u hu => hl u (List.mem_cons_of_mem _ hu))

/-- After the scan of a neighbour list every id of the list carries the tag. -/
theorem collect_unvisited_tags (tag : Nat) (nbrs : List Nat) (va : Nat → Nat) (acc : List Nat) :
    ∀ u ∈ nbrs, (collect_unvisited tag nbrs va acc).2 u = tag := by
  induction nbrs generalizing va acc with
  | nil => intro u hu; exact absurd hu (List.not_mem_nil u)
  | cons n rest ih =>
    intro u hu
    obtain ⟨fresh, _, _, _, h4, _⟩ := collect_unvisited_spec tag rest
      (Function.update va n tag) (acc ++ [n])
    obtain ⟨fresh2, _, _, _, h4b, _⟩ := collect_unvisited_spec tag rest va acc
    unfold collect_unvisited
    split_ifs with h
    · rcases List.mem_cons.mp hu with rfl | hu
      · rw [h4]
        exact Or.inl (by simp)
      · exact ih _ _ u hu
    · rcases List.mem_cons.mp hu with rfl | hu
      · rw [h4b]
        exact Or.inl (not_not.mp h)
      · exact ih _ _ u hu

theorem search_step_expand (qdist : Nat → Int) (graph : GraphInterface) (ep ef tag : Nat)
    (mass0 : Nat → Nat) (X : List Nat) (st st' : SearchState)
    (hstep : search_step qdist graph ef tag st = some st')
    (h : SearchExpand qdist graph ep tag mass0 X st) :
    ∃ X', SearchExpand qdist graph ep tag mass0 X' st' := by
  unfold search_step at hstep
  split at hstep
  · exact absurd hstep (by simp)
  · next top htop =>
    split_ifs at hstep
    simp only [Option.some.injEq] at hstep
    subst hstep
    obtain ⟨⟨hvalid, hC, hW⟩, hX, htag⟩ := h
    simp only at hvalid hC hW
    obtain ⟨rest, hcs⟩ : ∃ rest, st.candidate_set = top :: rest := by
      unfold MaxHeap.top? at htop
      cases hcs : st.candidate_set with
      | nil => rw [hcs] at htop; simp at htop
      | cons x xs =>
        rw [hcs] at htop
        simp only [List.head?_cons, Option.some.injEq] at htop
        exact ⟨xs, by rw [htop]⟩
    have htopr : Reachable graph ep top.2 := hC top (by rw [hcs]; exact List.mem_cons_self _ _)
    obtain ⟨fresh, h1, h2, h3, h4, h5⟩ :=
      collect_unvisited_spec tag (graph.GetNeighbors top.2) st.visited_array []
    rw [List.nil_append] at h1
    have hall := collect_unvisited_tags tag (graph.GetNeighbors top.2) st.visited_array []
    have hfresh : ∀ v ∈ fresh, Reachable graph ep v :=
      fun v hv => Reachable.link top.2 v htopr (h3 v hv).2
    have hstart : OfferLink (Reachable graph ep) qdist (top.2 :: X)
        (MaxHeap.pop st.candidate_set, st.cur_result, st.lower_bound) := by
      refine ⟨MaxHeap.pop_valid hvalid, ?_, ?_⟩
      · intro c hc
        simp only [MaxHeap.pop, hcs, List.tail_cons] at hc
        exact hC c (by rw [hcs]; exact List.mem_cons_of_mem _ hc)
      · intro c hc
        obtain ⟨a, b, hlink⟩ := hW c hc
        refine ⟨a, b, ?_⟩
        simp only [MaxHeap.pop, hcs, List.tail_cons]
        rcases hlink with hlink | hlink
        · exact Or.inl (List.mem_cons_of_mem _ hlink)
        · rw [hcs] at hlink
          rcases List.mem_cons.mp hlink with heq | hmem
          · left
            have : top.2 = c.2 := by rw [← heq]
            rw [this]
            exact List.mem_cons_self _ _
          · exact Or.inr hmem
    refine ⟨top.2 :: X, ?_, ?_, ?_⟩
    · have := offer_all_link (Reachable graph ep) qdist (top.2 :: X) ef fresh _ hstart hfresh
      simp only
      rw [h1]
      exact this
    · intro x hx v hv
      simp only
      rcases List.mem_cons.mp hx with rfl | hx
      · exact hall v hv
      · rw [h4 v]
        exact Or.inl (hX x hx v hv)
    · intro u hu
      simp only at hu
      rw [h4 u] at hu
      rcases hu with hu | hu
      · exact htag u hu
      · exact Or.inr (hfresh u hu)

theorem search_loop_expand (qdist : Nat → Int) (graph : GraphInterface) (ep ef tag : Nat)
    (mass0 : Nat → Nat) (fuel : Nat) (X : List Nat) (st : SearchState)
    (h : SearchExpand qdist graph ep tag mass0 X st) :
    ∃ X', SearchExpand qdist graph ep tag mass0 X' (search_loop qdist graph ef tag fuel st) := by
  induction fuel generalizing st X with
  | zero => exact ⟨X, h⟩
  | succ n ih =>
    unfold search_loop
    split
    · exact ⟨X, h⟩
    · next st' hstep =>
      obtain ⟨X1, h1⟩ := search_step_expand qdist graph ep ef tag mass0 X st st' hstep h
      exact ih X1 st' h1

theorem search_init_expand (qdist : Nat → Int) (graph : GraphInterface) (ep : Nat)
    (vl : VisitedList) :
    SearchExpand qdist graph ep vl.curV vl.mass [] (search_init qdist ep vl) := by
  refine ⟨⟨?_, ?_, ?_⟩, ?_, ?_⟩
  · simp [search_init, MaxHeap.emplace, MaxHeap.Valid]
  · intro c hc
    simp only [search_init, MaxHeap.emplace, List.mem_singleton] at hc
    rw [hc]
    exact Reachable.entry
  · intro c hc
    simp only [search_init, MaxHeap.emplace, List.mem_singleton] at hc
    subst hc
    refine ⟨Reachable.entry, rfl, Or.inr ?_⟩
    simp [search_init, MaxHeap.emplace]
  · intro x hx
    exact absurd hx (List.not_mem_nil x)
  · intro u hu
    simp only [search_init] at hu
    by_cases hne : u = ep
    · subst hne
      exact Or.inr Reachable.entry
    · rw [Function.update_noteq hne] at hu
      exact Or.inl hu

/-- The state in which the loop of `search_one_graph` ends keeps `SearchExpand`. -/
theorem search_final_expand (query : List Int) (graph : GraphInterface)
    (flatten : FlattenInterface) (ep ef : Nat) (vl : VisitedList) :
    ∃ X, SearchExpand (flatten.Query query) graph ep vl.curV vl.mass X
      (search_final query graph flatten ep ef vl) := by
  unfold search_final
  exact search_loop_expand _ graph ep ef vl.curV vl.mass _ [] _
    (search_init_expand _ graph ep vl)

/-- C25: for every pool, query, graph, entry point and `ef`, the ids in the heap that
`search_one_graph` returns are pairwise distinct, each is the entry point or is reached from
it by a path of stored neighbour links of the graph, and each is paired with its distance to
the query.  Neither `ef >= 1` nor a visited buffer without stale tags is needed. -/
theorem search_one_graph_distinct_reachable_true_distance (pool : VisitedListPool)
    (query : List Int) (graph : GraphInterface) (flatten : FlattenInterface) (ep ef : Nat)
    (isIdAllowed : Option (Nat → Bool)) :
    ((search_one_graph pool query graph flatten ep ef isIdAllowed).1.map Prod.snd).Nodup ∧
    ∀ c ∈ (search_one_graph pool query graph flatten ep ef isIdAllowed).1,
      Reachable graph ep c.2 ∧ c.1 = flatten.Query query c.2 := by
  refine ⟨(search_one_graph_ids pool query graph flatten ep ef isIdAllowed).1, ?_⟩
  obtain ⟨X, ⟨_, _, hW⟩, _, _⟩ := search_final_expand query graph flatten ep ef
    pool.getFreeVisitedList
  intro c hc
  have hc2 : c ∈ (search_final query graph flatten ep ef pool.getFreeVisitedList).cur_result :=
    hc
  exact ⟨(hW c hc2).1, (hW c hc2).2.1⟩


/-! ## The search: local optimality of the result -/

/-- When the loop of `search_one_graph` has ended, no entry of `cur_result` waits in
`candidate_set`: every one is in the list `X` of the expanded ids. -/
theorem terminal_expanded (qdist : Nat → Int) (graph : GraphInterface) (ef tag : Nat)
    (P : Nat → Prop) (X : List Nat) (st : SearchState)
    (hend : search_step qdist graph ef tag st = none)
    (hlink : OfferLink P qdist X (st.candidate_set, st.cur_result, st.lower_bound))
    (hv : MaxHeap.Valid st.cur_result)
    (hlb : st.cur_result.head?.map Prod.fst = some st.lower_bound) :
    ∀ c ∈ st.cur_result, c.2 ∈ X := by
  obtain ⟨hvalid, _, hW⟩ := hlink
  simp only at hvalid hW
  intro c hc
  rcases (hW c hc).2.2 with hx | hcand
  · exact hx
  · exfalso
    unfold search_step at hend
    split at hend
    · next hnone =>
      unfold MaxHeap.top? at hnone
      rw [List.head?_eq_none_iff.mp hnone] at hcand
      exact List.not_mem_nil _ hcand
    · next top htop =>
      split_ifs at hend with hbreak
      obtain ⟨rest, hcs⟩ : ∃ rest, st.candidate_set = top :: rest := by
        unfold MaxHeap.top? at htop
        cases hcs : st.candidate_set with
        | nil => rw [hcs] at htop; simp at htop
        | cons x xs =>
          rw [hcs] at htop
          simp only [List.head?_cons, Option.some.injEq] at htop
          exact ⟨xs, by rw [htop]⟩
      rw [hcs] at hvalid hcand
      have h1 := valid_head_max hvalid _ hcand
      simp only at h1
      obtain ⟨x, xs, hx⟩ := List.exists_cons_of_ne_nil (List.ne_nil_of_mem hc)
      rw [hx] at hv hlb hc
      have h2 := valid_head_max hv c hc
      simp only [List.head?_cons, Option.map_some', Option.some.injEq] at hlb
      omega

theorem search_step_tags (qdist : Nat → Int) (graph : GraphInterface) (ef tag : Nat)
    (st st' : SearchState) (hstep : search_step qdist graph ef tag st = some st') :
    ∀ u, st'.visited_array u = tag ∨ st'.visited_array u = st.visited_array u := by
  unfold search_step at hstep
  split at hstep
  · exact absurd hstep (by simp)
  · next top htop =>
    split_ifs at hstep
    simp only [Option.some.injEq] at hstep
    subst hstep
    obtain ⟨fresh, _, _, _, h4, h5⟩ :=
      collect_unvisited_spec tag (graph.GetNeighbors top.2) st.visited_array []
    intro u
    simp only
    by_cases hu : u ∈ fresh
    · exact Or.inl ((h4 u).mpr (Or.inr hu))
    · exact Or.inr (h5 u hu)

theorem search_loop_tags (qdist : Nat → Int) (graph : GraphInterface) (ef tag : Nat)
    (fuel : Nat) (st : SearchState) :
    ∀ u, (search_loop qdist graph ef tag fuel st).visited_array u = tag ∨
      (search_loop qdist graph ef tag fuel st).visited_array u = st.visited_array u := by
  induction fuel generalizing st with
  | zero => exact fun u => Or.inr rfl
  | succ n ih =>
    unfold search_loop
    split
    · exact fun u => Or.inr rfl
    · next st' hstep =>
      intro u
      rcases ih st' u with h | h
      · exact Or.inl h
      · rw [h]
        exact search_step_tags qdist graph ef tag st st' hstep u

/-- In a well-formed pool no id carries the tag that the next search takes. -/
theorem wellFormed_no_stale (pool : VisitedListPool) (h : pool.WellFormed) (u : Nat) :
    pool.getFreeVisitedList.mass u ≠ pool.getFreeVisitedList.curV := by
  unfold VisitedListPool.getFreeVisitedList
  have := h u
  split_ifs
  · simp only
    omega
  · simp

/-- The pool that `search_one_graph` returns is well-formed when the pool it took is. -/
theorem search_one_graph_wellFormed (pool : VisitedListPool) (query : List Int)
    (graph : GraphInterface) (flatten : FlattenInterface) (ep ef : Nat)
    (isIdAllowed : Option (Nat → Bool)) (h : pool.WellFormed) :
    (search_one_graph pool query graph flatten ep ef isIdAllowed).2.WellFormed := by
  intro u
  unfold search_one_graph VisitedListPool.releaseVisitedList search_final
  simp only
  rcases search_loop_tags (flatten.Query query) graph ef pool.getFreeVisitedList.curV
      (search_fuel graph) (search_init (flatten.Query query) ep pool.getFreeVisitedList) u
    with h1 | h1
  · rw [h1]
  · rw [h1]
    simp only [search_init]
    by_cases hu : u = ep
    · subst hu
      simp
    · rw [Function.update_noteq hu]
      have h2 := h u
      unfold VisitedListPool.getFreeVisitedList
      split_ifs
      · simp only
        omega
      · simp

theorem fresh_pool_wellFormed : fresh_pool.WellFormed := fun _ => Nat.le_refl 0

/-- C26: for `ef >= 1` and a visited buffer in which no id carries the current tag before the
search, when `search_one_graph` returns, every neighbour `v` of every returned id carries the
tag (the returned id was expanded), and `v` is itself returned, with its distance to the
query, or its distance to the query is at least every returned distance; and if fewer than
`ef` candidates are returned, the returned ids are exactly the ids reachable from the entry
point.  The condition on the visited buffer is what the visited pool guarantees: it holds for
a pool never used, and for the pool that any search returns (`wellFormed_no_stale`,
`search_one_graph_wellFormed`). -/
theorem search_one_graph_locally_optimal (pool : VisitedListPool) (query : List Int)
    (graph : GraphInterface) (flatten : FlattenInterface) (ep ef : Nat)
    (isIdAllowed : Option (Nat → Bool)) (hef : 1 ≤ ef)
    (hstale : ∀ u, pool.getFreeVisitedList.mass u ≠ pool.getFreeVisitedList.curV) :
    (∀ r ∈ (search_one_graph pool query graph flatten ep ef isIdAllowed).1,
      ∀ v ∈ graph.GetNeighbors r.2,
        (search_one_graph pool query graph flatten ep ef isIdAllowed).2.buffer.mass v =
          pool.getFreeVisitedList.curV ∧
        ((flatten.Query query v, v) ∈
            (search_one_graph pool query graph flatten ep ef isIdAllowed).1 ∨
          ∀ c ∈ (search_one_graph pool query graph flatten ep ef isIdAllowed).1,
            c.1 ≤ flatten.Query query v)) ∧
    ((search_one_graph pool query graph flatten ep ef isIdAllowed).1.size < ef →
      ∀ u, u ∈ (search_one_graph pool query graph flatten ep ef isIdAllowed).1.map Prod.snd ↔
        Reachable graph ep u) := by
  obtain ⟨V, ⟨hnd, hmem, hep, _, _, D, htrack⟩, hres, hmass⟩ :=
    search_one_graph_track (OfferTracked (flatten.Query query) ef) pool query graph flatten ep ef
      isIdAllowed (offer_all_tracked (flatten.Query query) ef hef)
      (offerTracked_init (flatten.Query query) ep ef hef)
  obtain ⟨hv, hne, hlen, hlb, hperm, hD, hfull⟩ := htrack
  obtain ⟨X, hlink, hX, htag⟩ := search_final_expand query graph flatten ep ef
    pool.getFreeVisitedList
  have hexp := terminal_expanded (flatten.Query query) graph ef pool.getFreeVisitedList.curV
    (Reachable graph ep) X _
    (search_final_terminal query graph flatten ep ef pool.getFreeVisitedList) hlink hv hlb
  have hVtag : ∀ u, u ∈ V ↔
      (search_final query graph flatten ep ef pool.getFreeVisitedList).visited_array u =
        pool.getFreeVisitedList.curV := by
    intro u
    rw [hmem u]
    constructor
    · rintro (rfl | ⟨_, h2⟩)
      · exact hep
      · exact h2
    · intro h
      exact Or.inr ⟨hstale u, h⟩
  have hWV : ∀ c ∈ (search_final query graph flatten ep ef
      pool.getFreeVisitedList).cur_result, c.2 ∈ V ∧ c.1 = flatten.Query query c.2 := by
    intro c hc
    have : c ∈ V.map (fun u => (flatten.Query query u, u)) :=
      hperm.subset (List.mem_append_left _ hc)
    obtain ⟨u, hu, rfl⟩ := List.mem_map.mp this
    exact ⟨hu, rfl⟩
  have hnbr : ∀ r ∈ (search_final query graph flatten ep ef
      pool.getFreeVisitedList).cur_result, ∀ v ∈ graph.GetNeighbors r.2, v ∈ V := by
    intro r hr v hvn
    rw [hVtag]
    exact hX r.2 (hexp r hr) v hvn
  rw [hres, hmass]
  refine ⟨?_, ?_⟩
  · intro r hr v hvn
    have hvV := hnbr r hr v hvn
    refine ⟨(hVtag v).mp hvV, ?_⟩
    have : (flatten.Query query v, v) ∈
        (search_final query graph flatten ep ef pool.getFreeVisitedList).cur_result ++ D :=
      hperm.symm.subset (List.mem_map.mpr ⟨v, hvV, rfl⟩)
    rcases List.mem_append.mp this with h | h
    · exact Or.inl h
    · exact Or.inr (fun c hc => hD _ h c hc)
  · intro hlt u
    have hDnil : D = [] := by
      by_contra hDne
      have := hfull hDne
      unfold MaxHeap.size at hlt
      omega
    subst hDnil
    rw [List.append_nil] at hperm
    have hids : ∀ u, u ∈ (search_final query graph flatten ep ef
        pool.getFreeVisitedList).cur_result.map Prod.snd ↔ u ∈ V := by
      intro u
      constructor
      · intro h
        obtain ⟨c, hc, rfl⟩ := List.mem_map.mp h
        exact (hWV c hc).1
      · intro h
        have : (flatten.Query query u, u) ∈ (search_final query graph flatten ep ef
            pool.getFreeVisitedList).cur_result :=
          hperm.symm.subset (List.mem_map.mpr ⟨u, h, rfl⟩)
        exact List.mem_map.mpr ⟨_, this, rfl⟩
    rw [hids]
    constructor
    · intro h
      rcases htag u ((hVtag u).mp h) with h1 | h1
      · exact absurd h1 (hstale u)
      · exact h1
    · intro h
      induction h with
      | entry => exact (hVtag ep).mpr hep
      | link w x _ hx ih =>
        obtain ⟨c, hc, hcw⟩ := List.mem_map.mp ((hids w).mpr ih)
        exact hnbr c hc x (by rw [hcw]; exact hx)

/-- In a pool never used no id carries the tag that the first search takes. -/
theorem fresh_pool_no_stale (u : Nat) :
    fresh_pool.getFreeVisitedList.mass u ≠ fresh_pool.getFreeVisitedList.curV := by
  simp [fresh_pool, VisitedListPool.getFreeVisitedList]

/-- The theorem of C26 on the triangle of the points 0, 10, 20 with the query 12, the entry
point 0 and a pool never used: with `ef = 2` the ids 1 and 2 are returned, and the neighbour 0
of both, at distance 12, is not nearer than the returned distances 2 and 8; with `ef = 4` the
three ids are returned, which are the ids reachable from 0. -/
theorem search_one_graph_locally_optimal_witness :
    (1 : Nat) ≤ 2 ∧
    (search_one_graph fresh_pool [12] triangle_graph spaced_line 0 2 none).1 =
      [(8, 2), (2, 1)] ∧
    (search_one_graph fresh_pool [12] triangle_graph spaced_line 0 4 none).1 =
      [(12, 0), (8, 2), (2, 1)] ∧
    (∀ r ∈ (search_one_graph fresh_pool [12] triangle_graph spaced_line 0 2 none).1,
      ∀ v ∈ triangle_graph.GetNeighbors r.2,
        (search_one_graph fresh_pool [12] triangle_graph spaced_line 0 2 none).2.buffer.mass v =
          fresh_pool.getFreeVisitedList.curV ∧
        ((spaced_line.Query [12] v, v) ∈
            (search_one_graph fresh_pool [12] triangle_graph spaced_line 0 2 none).1 ∨
          ∀ c ∈ (search_one_graph fresh_pool [12] triangle_graph spaced_line 0 2 none).1,
            c.1 ≤ spaced_line.Query [12] v)) ∧
    ((search_one_graph fresh_pool [12] triangle_graph spaced_line 0 4 none).1.size < 4 →
      ∀ u, u ∈ (search_one_graph fresh_pool [12] triangle_graph spaced_line 0 4 none).1.map
          Prod.snd ↔ Reachable triangle_graph 0 u) :=
  ⟨by decide, by decide, by decide,
    (search_one_graph_locally_optimal fresh_pool [12] triangle_graph spaced_line 0 2 none
      (by decide) fresh_pool_no_stale).1,
    (search_one_graph_locally_optimal fresh_pool [12] triangle_graph spaced_line 0 4 none
      (by decide) fresh_pool_no_stale).2⟩


/-! ## The comparison of the priority queue as a parameter -/

namespace MaxHeap

theorem emplace_by_pair_lt (h : MaxHeap) (d : Int) (id : Nat) :
    emplace_by pair_lt h d id = emplace h d id := by
  induction h with
  | nil => rfl
  | cons x xs ih => simp only [emplace_by, emplace, ih]

theorem emplace_by_nil (lt : Candidate → Candidate → Bool) (d : Int) (id : Nat) :
    emplace_by lt [] d id = [(d, id)] := rfl

theorem emplace_by_cons (lt : Candidate → Candidate → Bool) (x : Candidate) (xs : MaxHeap)
    (d : Int) (id : Nat) :
    emplace_by lt (x :: xs) d id =
      if lt x (d, id) then (d, id) :: x :: xs else x :: emplace_by lt xs d id := rfl

theorem emplace_by_length (lt : Candidate → Candidate → Bool) (h : MaxHeap) (d : Int)
    (id : Nat) : (emplace_by lt h d id).length = h.length + 1 := by
  induction h with
  | nil => rfl
  | cons x xs ih =>
    rw [emplace_by_cons]
    split_ifs
    · simp
    · simp [ih]

end MaxHeap

theorem offer_by_pair_lt (ef : Nat) (dist : Int) (v : Nat) (s : MaxHeap × MaxHeap × Int) :
    offer_by pair_lt ef dist v s = offer ef dist v s := by
  unfold offer_by offer
  simp only [MaxHeap.emplace_by_pair_lt]

theorem offer_all_by_pair_lt (qdist : Nat → Int) (ef : Nat) (l : List Nat)
    (s : MaxHeap × MaxHeap × Int) :
    offer_all_by pair_lt qdist ef l s = offer_all qdist ef l s := by
  induction l generalizing s with
  | nil => rfl
  | cons v rest ih => simp only [offer_all_by, offer_all, offer_by_pair_lt, ih]

theorem search_step_by_pair_lt (qdist : Nat → Int) (graph : GraphInterface) (ef tag : Nat)
    (st : SearchState) :
    search_step_by pair_lt qdist graph ef tag st = search_step qdist graph ef tag st := by
  unfold search_step_by search_step
  simp only [offer_all_by_pair_lt]

theorem search_loop_by_pair_lt (qdist : Nat → Int) (graph : GraphInterface) (ef tag : Nat)
    (fuel : Nat) (st : SearchState) :
    search_loop_by pair_lt qdist graph ef tag fuel st =
      search_loop qdist graph ef tag fuel st := by
  induction fuel generalizing st with
  | zero => rfl
  | succ n ih => simp only [search_loop_by, search_loop, search_step_by_pair_lt, ih]

/-- With the pair order for `lt`, the search taken with the comparison as a parameter is
`search_one_graph`. -/
theorem search_one_graph_by_pair_lt (pool : VisitedListPool) (query : List Int)
    (graph : GraphInterface) (flatten : FlattenInterface) (ep ef : Nat)
    (isIdAllowed : Option (Nat → Bool)) :
    search_one_graph_by pair_lt pool query graph flatten ep ef isIdAllowed =
      search_one_graph pool query graph flatten ep ef isIdAllowed := by
  unfold search_one_graph_by search_one_graph search_final_by search_final
  simp only [search_loop_by_pair_lt]
  rfl

theorem drain_negated_by_pair_lt (edges queue : MaxHeap) :
    drain_negated_by pair_lt edges queue = drain_negated edges queue := by
  induction edges generalizing queue with
  | nil => rfl
  | cons x xs ih => simp only [drain_negated_by, drain_negated, MaxHeap.emplace_by_pair_lt, ih]

theorem refill_by_pair_lt (l : List Candidate) (edges : MaxHeap) :
    refill_by pair_lt l edges = refill l edges := by
  induction l generalizing edges with
  | nil => rfl
  | cons x xs ih => simp only [refill_by, refill, MaxHeap.emplace_by_pair_lt, ih]

/-- With the pair order for `lt`, the heuristic taken with the comparison as a parameter is
`select_edges_by_heuristic`. -/
theorem select_edges_by_heuristic_by_pair_lt (edges : MaxHeap) (max_size : Nat)
    (flatten : FlattenInterface) :
    select_edges_by_heuristic_by pair_lt edges max_size flatten =
      select_edges_by_heuristic edges max_size flatten := by
  unfold select_edges_by_heuristic_by select_edges_by_heuristic
  rw [drain_negated_by_pair_lt, refill_by_pair_lt]

theorem s3_edges_by_pair_lt (i0 i1 i2 i3 i4 : Nat) :
    s3_edges_by pair_lt i0 i1 i2 i3 i4 = s3_edges i0 i1 i2 i3 i4 := by
  unfold s3_edges_by s3_edges
  simp only [MaxHeap.emplace_by_pair_lt]

/-! ## Scenario S3 under the tie rule of the spec -/

namespace MaxHeap

end MaxHeap

theorem offer_by_candidate_set (lt : Candidate → Candidate → Bool) (ef : Nat) (dist : Int)
    (v : Nat) (s : MaxHeap × MaxHeap × Int) :
    (offer_by lt ef dist v s).1 =
      if s.2.1.size < ef ∨ s.2.2 > dist then s.1.emplace_by lt (-dist) v else s.1 := by
  unfold offer_by
  by_cases hc : s.2.1.size < ef ∨ s.2.2 > dist
  · rw [if_pos hc, if_pos hc]
  · rw [if_neg hc, if_neg hc]

theorem offer_by_candidate_length (lt : Candidate → Candidate → Bool) (ef : Nat) (dist : Int)
    (v : Nat) (s : MaxHeap × MaxHeap × Int) :
    (offer_by lt ef dist v s).1.length ≤ s.1.length + 1 := by
  rw [offer_by_candidate_set]
  split_ifs
  · rw [MaxHeap.emplace_by_length]
  · omega

theorem offer_all_by_candidate_length (lt : Candidate → Candidate → Bool) (qdist : Nat → Int)
    (ef : Nat) (l : List Nat) (s : MaxHeap × MaxHeap × Int) :
    (offer_all_by lt qdist ef l s).1.length ≤ s.1.length + l.length := by
  induction l generalizing s with
  | nil => exact le_refl _
  | cons v rest ih =>
    have h1 := ih (offer_by lt ef (qdist v) v s)
    have h2 := offer_by_candidate_length lt ef (qdist v) v s
    simp only [offer_all_by, List.length_cons]
    omega

theorem search_step_by_measure (lt : Candidate → Candidate → Bool) (qdist : Nat → Int)
    (graph : GraphInterface) (ef tag : Nat) (st st' : SearchState)
    (hstep : search_step_by lt qdist graph ef tag st = some st') :
    search_measure graph tag st' + 1 ≤ search_measure graph tag st := by
  unfold search_step_by at hstep
  split at hstep
  · exact absurd hstep (by simp)
  · next top htop =>
    split_ifs at hstep
    simp only [Option.some.injEq] at hstep
    subst hstep
    unfold search_measure untagged
    simp only
    have h1 := offer_all_by_candidate_length lt qdist ef
      (collect_unvisited tag (graph.GetNeighbors top.2) st.visited_array []).1
      (MaxHeap.pop st.candidate_set, st.cur_result, st.lower_bound)
    have h2 := collect_unvisited_count (stored_ids graph) tag (graph.GetNeighbors top.2)
      st.visited_array [] (getNeighbors_subset graph top.2)
    have h3 : (MaxHeap.pop st.candidate_set).length + 1 = st.candidate_set.length := by
      unfold MaxHeap.top? at htop
      unfold MaxHeap.pop
      cases hc : st.candidate_set with
      | nil => rw [hc] at htop; simp at htop
      | cons x xs => simp
    simp only [List.length_nil] at h2
    simp only at h1
    omega

theorem search_loop_by_terminal (lt : Candidate → Candidate → Bool) (qdist : Nat → Int)
    (graph : GraphInterface) (ef tag : Nat) (fuel : Nat) (st : SearchState)
    (h : search_measure graph tag st ≤ fuel) :
    search_step_by lt qdist graph ef tag (search_loop_by lt qdist graph ef tag fuel st)
      = none := by
  induction fuel generalizing st with
  | zero =>
    unfold search_loop_by
    unfold search_measure at h
    have hc : st.candidate_set = [] := List.length_eq_zero.mp (by omega)
    unfold search_step_by
    rw [hc]
    rfl
  | succ n ih =>
    unfold search_loop_by
    split
    · next hnone => exact hnone
    · next st' hstep =>
      apply ih
      have := search_step_by_measure lt qdist graph ef tag st st' hstep
      omega

/-- The fuel of `search_final_by` is enough, whatever the comparison: the state it returns is
one in which the `while` loop of the source ends. -/
theorem search_final_by_terminal (lt : Candidate → Candidate → Bool) (query : List Int)
    (graph : GraphInterface) (flatten : FlattenInterface) (ep ef : Nat)
    (visited_list : VisitedList) :
    search_step_by lt (flatten.Query query) graph ef visited_list.curV
      (search_final_by lt query graph flatten ep ef visited_list) = none := by
  unfold search_final_by
  apply search_loop_by_terminal
  unfold search_measure untagged search_fuel search_init_by
  simp only [MaxHeap.emplace_by, List.length_singleton]
  have h1 := List.countP_le_length
    (fun u => decide (Function.update visited_list.mass ep visited_list.curV u ≠ visited_list.curV))
    (l := stored_ids graph)
  have h2 : (stored_ids graph).length = (graph.neighbors.map (fun e => e.2.length)).sum := by
    unfold stored_ids
    rw [List.length_flatten, List.map_map]
    rfl
  omega


/-! ## The search with a larger `ef` under the tie rule of the spec -/

namespace StableExtra

end StableExtra

end vsag
